import Mathlib

/-!
# A model of `hash_map.h`

`HashMap<KeyType, ValueType, Hash>` is an open-addressing index (`used_`, `storage_`,
`mark_indexes_`) over a doubly linked record list (`pairs_`), with a second list
(`used_positions_`) of the occupied slot indices.

Conventions of the embedding.

* A `std::list` is a Lean list of nodes, each node carrying its identity (a natural number
  standing for the address of the node).  An iterator is the identity of the node it points to.
  `emplace_back`/`push_back` allocate a node whose identity differs from every node allocated
  before (`fresh_` is the allocator's state); `erase` removes the node with the given identity.
* The three heap arrays of length `capacity_` are functions on indices; an access at an index
  that is not below `capacity_` is undefined behaviour.
* A call that does not return normally, because the probing loop never stops or because the
  behaviour is undefined (an out-of-range access, a dereference of an iterator that points to
  no node), has result `none`.  The exception thrown by `at` is a value of its result type.
* `size_t` values are natural numbers.  The product in `compute_shift_hash` is reduced modulo
  `2 ^ 64`, as the hash is an arbitrary 64-bit value.  Indices, counters and capacities are
  not reduced.  The first arithmetic on them that can leave `size_t` is the product
  `TOP_LOAD_FACTOR * capacity_` of `check_overload`, from the capacity `2 ^ 59` on; up to the
  capacity `2 ^ 58` the operations compute what the machine computes
  (`check_overload_size_t_eq`, `doubled_capacity_eq`, `create_pair_size_t_eq`).  What the
  machine computes beyond is given by `check_overload_size_t`, `doubled_capacity` and
  `create_pair_size_t`.
* The member `hash_` is the parameter `hash` of the operations.  The constructors set it, the
  copy constructor takes it from its argument, and no other member assigns it: `operator=`
  copies the slots and the records of its argument and leaves `hash_` as it is.  `Object`
  gives every object its own hash function; `run` and `Reachable` are about objects that
  share one.
* The key equality `==` is decidable equality.
-/

namespace HashMapModel

/-- Modulus of `size_t` arithmetic. -/
def SIZE_T_MOD : Nat := 2 ^ 64

def INITIAL_SIZE : Nat := 16

def SHIFT_HASH_FACTORS : List Nat := [239, 179, 191]

def TOP_LOAD_FACTOR : Nat := 50

def MAX_PERCENT : Nat := 100

/-- The data members of `HashMap` (`hash_` is a parameter of the operations). A node of
`pairs_` is `(identity, key, value)`, a node of `used_positions_` is `(identity, slot index)`.
An entry of `storage_` or `mark_indexes_` is an iterator; `none` is an iterator that was
never assigned. -/
structure HashMap (K V : Type) where
  pairs_ : List (Nat × K × V)
  used_positions_ : List (Nat × Nat)
  storage_ : Nat → Option Nat
  mark_indexes_ : Nat → Option Nat
  size_ : Nat
  current_workload_ : Nat
  capacity_ : Nat
  used_ : Nat → Nat
  fresh_ : Nat

/-- Array assignment `a[i] = v`. -/
def write {α : Type} (a : Nat → α) (i : Nat) (v : α) : Nat → α :=
  fun j => if j = i then v else a j

/-- Dereference of a list iterator: the content of the node with identity `it`. -/
def deref {α : Type} : List (Nat × α) → Nat → Option α
  | [], _ => none
  | n :: rest, it => if n.1 = it then some n.2 else deref rest it

/-- The call `std::list::erase(it)`: unlinks the node with identity `it`. -/
def erase_node {α : Type} : List (Nat × α) → Nat → Option (List (Nat × α))
  | [], _ => none
  | n :: rest, it =>
    if n.1 = it then some rest else (erase_node rest it).map (fun r => n :: r)

/-- Assignment through a reference to the `second` of the node with identity `it`. -/
def assign_node {K V : Type} : List (Nat × K × V) → Nat → V → Option (List (Nat × K × V))
  | [], _, _ => none
  | n :: rest, it, v =>
    if n.1 = it then some ((n.1, n.2.1, v) :: rest)
    else (assign_node rest it v).map (fun r => n :: r)

/-- Result of `at`: the value referred to, or the exception `std::out_of_range`. -/
inductive AtResult (V : Type) where
  | value (v : V)
  | out_of_range
  deriving DecidableEq, Repr

/-- A list iterator handed to the caller: a node of `pairs_` or `pairs_.end()`. -/
inductive Iterator where
  | node (it : Nat)
  | past_the_end
  deriving DecidableEq, Repr

namespace HashMap

variable {K V : Type} [DecidableEq K]

/-- The object before `initial_memory` has run: empty lists, null arrays. -/
def blank (fresh : Nat) : HashMap K V where
  pairs_ := []
  used_positions_ := []
  storage_ := fun _ => none
  mark_indexes_ := fun _ => none
  size_ := 0
  current_workload_ := 0
  capacity_ := 0
  used_ := fun _ => 0
  fresh_ := fresh

def initial_memory (m : HashMap K V) (new_capacity : Nat) : HashMap K V :=
  { m with
    storage_ := fun _ => none
    size_ := 0
    current_workload_ := 0
    capacity_ := new_capacity
    used_ := fun _ => 0
    mark_indexes_ := fun _ => none }

/-- The constructor `HashMap(Hash hash = Hash())`. -/
def init : HashMap K V := initial_memory (blank 0) INITIAL_SIZE

/-- The function `compute_shift_hash`: the loop `res = (res * primary_hash + rate) %
capacity_` over the three constants, from `res = 0`. The product and the sum are taken in
`size_t` before the reduction modulo the capacity. -/
def compute_shift_hash (m : HashMap K V) (primary_hash : Nat) : Nat :=
  SHIFT_HASH_FACTORS.foldl
    (fun res rate => (res * primary_hash + rate) % SIZE_T_MOD % m.capacity_) 0

/-- The condition of the `while` loop of `find_position` at `index`:
`used_[index] == 2 || (used_[index] == 1 && !(storage_[index] -> first == key))`. -/
def probe_condition (m : HashMap K V) (key : K) (index : Nat) : Option Bool :=
  if index < m.capacity_ then
    if m.used_ index = 2 then some true
    else if m.used_ index = 1 then
      match m.storage_ index with
      | none => none
      | some it =>
        match deref m.pairs_ it with
        | none => none
        | some p => some (decide (¬ p.1 = key))
    else some false
  else none

/-- The `while` loop of `find_position`, run for at most `fuel` tests of its condition. -/
def probe (m : HashMap K V) (key : K) (shift_hash : Nat) : Nat → Nat → Option Nat
  | 0, _ => none
  | fuel + 1, index =>
    match probe_condition m key index with
    | none => none
    | some true => probe m key shift_hash fuel ((index + shift_hash) % m.capacity_)
    | some false => some index

/-- The index walks `hash % capacity_ + t * shift_hash` modulo `capacity_`, which repeats
after `capacity_` steps: a loop that has not stopped after `capacity_` tests never stops
(`probe_fuel`). -/
def find_position (hash : K → Nat) (m : HashMap K V) (key : K) : Option Nat :=
  let h := hash key % SIZE_T_MOD
  let shift_hash := compute_shift_hash m h
  probe m key shift_hash m.capacity_ (h % m.capacity_)

/-- The function `check_overload`, with the two products as natural numbers: they are the
products of the machine while they are below `2 ^ 64`, which holds up to the capacity
`2 ^ 58` (`check_overload_size_t_eq`); `check_overload_size_t` is the function with the
products in `size_t`. -/
def check_overload (m : HashMap K V) : Bool :=
  decide (MAX_PERCENT * m.current_workload_ > TOP_LOAD_FACTOR * m.capacity_)

/-- The first seven statements of `create_pair`: the new record and its registration. -/
def place (m : HashMap K V) (index : Nat) (key : K) (value : V) : HashMap K V :=
  { m with
    pairs_ := m.pairs_ ++ [(m.fresh_, key, value)]
    storage_ := write m.storage_ index (some m.fresh_)
    used_positions_ := m.used_positions_ ++ [(m.fresh_ + 1, index)]
    mark_indexes_ := write m.mark_indexes_ index (some (m.fresh_ + 1))
    size_ := m.size_ + 1
    current_workload_ := m.current_workload_ + 1
    used_ := write m.used_ index 1
    fresh_ := m.fresh_ + 2 }

/-- The body of the `for` loop of `rebuild` for the slot `i` of the old table `old`;
`create` is the call of `create_pair` on the new table. -/
def rebuild_step (hash : K → Nat)
    (create : HashMap K V → Nat → K → V → Option (HashMap K V × Bool))
    (old : HashMap K V) (cur : HashMap K V) (i : Nat) : Option (HashMap K V) :=
  if old.used_ i = 1 then
    match old.storage_ i with
    | none => none
    | some it =>
      match deref old.pairs_ it with
      | none => none
      | some p =>
        match find_position hash cur p.1 with
        | none => none
        | some index => (create cur index p.1 p.2).map Prod.fst
  else some cur

/-- The function `rebuild`, with the recursive call of `create_pair` as `create`. The new
table starts with the swapped-in locals; the old lists and arrays are released at the end. -/
def rebuild_with (hash : K → Nat)
    (create : HashMap K V → Nat → K → V → Option (HashMap K V × Bool))
    (m : HashMap K V) (new_capacity : Nat) : Option (HashMap K V) :=
  let swapped : HashMap K V :=
    { pairs_ := []
      used_positions_ := []
      storage_ := fun _ => none
      mark_indexes_ := fun _ => none
      size_ := 0
      current_workload_ := 0
      capacity_ := new_capacity
      used_ := fun _ => 0
      fresh_ := m.fresh_ }
  (List.range m.capacity_).foldlM (rebuild_step hash create m) swapped

/-- The function `create_pair`; `depth` bounds the nesting of `rebuild` inside
`create_pair` inside `rebuild`. The result carries the returned `bool`. The new capacity
`capacity_ * 2` is a natural number: it is the value of the machine up to the capacity
`2 ^ 62` (`doubled_capacity_eq`); `doubled_capacity` is the value in `size_t`. -/
def create_pair (hash : K → Nat) :
    Nat → HashMap K V → Nat → K → V → Option (HashMap K V × Bool)
  | depth, m, index, key, value =>
    if index < m.capacity_ then
      let m1 := place m index key value
      if check_overload m1 then
        match depth with
        | 0 => none
        | d + 1 =>
          (rebuild_with hash (create_pair hash d) m1 (m1.capacity_ * 2)).map
            (fun r => (r, true))
      else some (m1, false)
    else none

def rebuild (hash : K → Nat) (depth : Nat) (m : HashMap K V) (new_capacity : Nat) :
    Option (HashMap K V) :=
  rebuild_with hash (create_pair hash depth) m new_capacity

/-- Nesting allowed to the public operations: a `rebuild` started by `create_pair` and one
more level, which is never entered (`create_pair_depth`). -/
def NESTING : Nat := 2

def insert (hash : K → Nat) (m : HashMap K V) (item : K × V) : Option (HashMap K V) :=
  match find_position hash m item.1 with
  | none => none
  | some index =>
    if m.used_ index = 1 then some m
    else (create_pair hash NESTING m index item.1 item.2).map Prod.fst

/-- The member `erase`. The decrement `size_--` is a subtraction of naturals; it never
wraps in a table that satisfies the invariant, where `size_` counts the occupied slots
(`Loc.count1`) and the slot `index` is one of them. -/
def erase (hash : K → Nat) (m : HashMap K V) (key : K) : Option (HashMap K V) :=
  match find_position hash m key with
  | none => none
  | some index =>
    if m.used_ index ≠ 1 then some m
    else
      match m.storage_ index, m.mark_indexes_ index with
      | some it, some mark =>
        match erase_node m.pairs_ it, erase_node m.used_positions_ mark with
        | some pairs, some positions =>
          some { m with
            pairs_ := pairs
            used_positions_ := positions
            used_ := write m.used_ index 2
            size_ := m.size_ - 1 }
        | _, _ => none
      | _, _ => none

/-- A reference `storage_[index] -> second`: the node it denotes, which must exist. -/
def second_ref (m : HashMap K V) (index : Nat) : Option Nat :=
  if index < m.capacity_ then
    match m.storage_ index with
    | none => none
    | some it => if (deref m.pairs_ it).isSome then some it else none
  else none

/-- The `operator[]`: the table after the call and the node whose `second` is returned. -/
def subscript [Inhabited V] (hash : K → Nat) (m : HashMap K V) (key : K) :
    Option (HashMap K V × Nat) :=
  match find_position hash m key with
  | none => none
  | some index =>
    if m.used_ index ≠ 1 then
      match create_pair hash NESTING m index key default with
      | none => none
      | some (m1, true) =>
        match find_position hash m1 key with
        | none => none
        | some index1 => (second_ref m1 index1).map (fun it => (m1, it))
      | some (m1, false) => (second_ref m1 index).map (fun it => (m1, it))
    else (second_ref m index).map (fun it => (m, it))

/-- The statement `table[key] = value`. -/
def subscript_assign [Inhabited V] (hash : K → Nat) (m : HashMap K V) (key : K) (value : V) :
    Option (HashMap K V) :=
  match subscript hash m key with
  | none => none
  | some (m1, it) =>
    (assign_node m1.pairs_ it value).map (fun pairs => { m1 with pairs_ := pairs })

/-- The member `at`. -/
def at_ (hash : K → Nat) (m : HashMap K V) (key : K) : Option (AtResult V) :=
  match find_position hash m key with
  | none => none
  | some index =>
    if m.used_ index ≠ 1 then some AtResult.out_of_range
    else
      match m.storage_ index with
      | none => none
      | some it => (deref m.pairs_ it).map (fun p => AtResult.value p.2)

def size (m : HashMap K V) : Nat := m.size_

def empty (m : HashMap K V) : Bool := decide (m.size_ = 0)

def clear (m : HashMap K V) : Option (HashMap K V) :=
  (m.used_positions_.foldlM
      (fun (used : Nat → Nat) (j : Nat × Nat) =>
        if j.2 < m.capacity_ then some (write used j.2 2) else none)
      m.used_).map
    (fun used => { m with used_ := used, size_ := 0, used_positions_ := [], pairs_ := [] })

def begin_ (m : HashMap K V) : Iterator :=
  match m.pairs_ with
  | [] => Iterator.past_the_end
  | n :: _ => Iterator.node n.1

def end_ (_m : HashMap K V) : Iterator := Iterator.past_the_end

/-- The pairs visited by `for (it = begin(); it != end(); ++it)`. -/
def traverse (m : HashMap K V) : List (K × V) := m.pairs_.map Prod.snd

def find (hash : K → Nat) (m : HashMap K V) (key : K) : Option Iterator :=
  match find_position hash m key with
  | none => none
  | some index =>
    if m.used_ index ≠ 1 then some (end_ m)
    else (m.storage_ index).map Iterator.node

/-- The body of the `for` loop of the copy constructor and of `operator=`; `hash` is the
member `hash_` of the object that is written. -/
def copy_step (hash : K → Nat) (other : HashMap K V) (cur : HashMap K V) (i : Nat) :
    Option (HashMap K V) :=
  if i < other.capacity_ then
    let after : Option (HashMap K V) :=
      if other.used_ i = 1 then
        match other.storage_ i with
        | none => none
        | some it =>
          match deref other.pairs_ it with
          | none => none
          | some p => (create_pair hash NESTING cur i p.1 p.2).map Prod.fst
      else if other.used_ i = 2 then
        some { cur with current_workload_ := cur.current_workload_ + 1 }
      else some cur
    after.bind (fun c =>
      if i < c.capacity_ then some { c with used_ := write c.used_ i (other.used_ i) }
      else none)
  else none

/-- The loop `for (size_t i = 0; i < capacity_; i++)` of the copy, from `i`. The bound is
the capacity of the table under construction, read again at every test. -/
def copy_loop (hash : K → Nat) (other : HashMap K V) :
    Nat → Nat → HashMap K V → Option (HashMap K V)
  | 0, _, _ => none
  | fuel + 1, i, cur =>
    if i < cur.capacity_ then
      match copy_step hash other cur i with
      | none => none
      | some next => copy_loop hash other fuel (i + 1) next
    else some cur

/-- The copy constructor `HashMap(const HashMap& other)`; `hash` is the member `hash_` of
the new object, which the initializer `hash_(other.hash_)` takes from `other`. The guard
`storage_ != other.storage_` holds, the new object having no array yet. The loop ends, or
reads `other.used_` out of range, at `i = other.capacity_` at the latest. -/
def copy (hash : K → Nat) (other : HashMap K V) : Option (HashMap K V) :=
  copy_loop hash other (other.capacity_ + 1) 0
    (initial_memory (blank other.fresh_) other.capacity_)

/-- The member `operator=` of an object whose `hash_` is `hash`, with another object as
argument (the guard `storage_ != other.storage_` holds). Its statements are those of the
copy constructor: the lists and arrays of the object are released and written again from
`other`. No statement assigns `hash_`, so the object keeps `hash`, whatever the hash
function of `other` is. -/
def assign (hash : K → Nat) (other : HashMap K V) : Option (HashMap K V) :=
  copy hash other

/-- The function `check_overload` as the machine computes it: the two products are taken
in `size_t`. -/
def check_overload_size_t (m : HashMap K V) : Bool :=
  decide ((MAX_PERCENT * m.current_workload_) % SIZE_T_MOD
    > (TOP_LOAD_FACTOR * m.capacity_) % SIZE_T_MOD)

/-- The argument `capacity_ * 2` of the call of `rebuild` in `create_pair`, as the machine
computes it. -/
def doubled_capacity (m : HashMap K V) : Nat := (m.capacity_ * 2) % SIZE_T_MOD

/-- The function `create_pair` as the machine computes it, with the test of
`check_overload` and the new capacity in `size_t`; `depth` bounds the nesting as in
`create_pair`. -/
def create_pair_size_t (hash : K → Nat) :
    Nat → HashMap K V → Nat → K → V → Option (HashMap K V × Bool)
  | depth, m, index, key, value =>
    if index < m.capacity_ then
      let m1 := place m index key value
      if check_overload_size_t m1 then
        match depth with
        | 0 => none
        | d + 1 =>
          (rebuild_with hash (create_pair_size_t hash d) m1 (doubled_capacity m1)).map
            (fun r => (r, true))
      else some (m1, false)
    else none

/-- The member `insert` as the machine computes it, with nesting up to `depth`. -/
def insert_size_t (hash : K → Nat) (depth : Nat) (m : HashMap K V) (item : K × V) :
    Option (HashMap K V) :=
  match find_position hash m item.1 with
  | none => none
  | some index =>
    if m.used_ index = 1 then some m
    else (create_pair_size_t hash depth m index item.1 item.2).map Prod.fst

/-- The table after `n` repetitions of `insert((k, v)); erase(k)` on an empty table, as the
machine computes it. -/
def churn_size_t (hash : K → Nat) (depth : Nat) (k : K) (v : V) : Nat → Option (HashMap K V)
  | 0 => some init
  | n + 1 =>
    (churn_size_t hash depth k v n).bind (fun m =>
      (insert_size_t hash depth m (k, v)).bind (fun r => erase hash r k))

/-- The range and initializer-list constructors. -/
def from_list (hash : K → Nat) (items : List (K × V)) : Option (HashMap K V) :=
  items.foldlM (insert hash) init

end HashMap

/-! ## Observations and invariants -/

section Observations

variable {K V : Type} [DecidableEq K]

/-- The node is not the one with identity `it`. -/
def is_other {α : Type} (it : Nat) (n : Nat × α) : Bool := decide (n.1 ≠ it)

/-- The record that slot `i` refers to, when the slot is occupied. -/
def record_at (m : HashMap K V) (i : Nat) : Option (K × V) :=
  if m.used_ i = 1 then (m.storage_ i).bind (deref m.pairs_) else none

/-- The records of the occupied slots below `n`, by increasing slot index. -/
def slot_records (m : HashMap K V) (n : Nat) : List (K × V) :=
  (List.range n).filterMap (record_at m)

/-- The pair has a key other than `k`. -/
def other_key (k : K) (p : K × V) : Bool := decide (p.1 ≠ k)

/-- The table after `erase` has removed the record of slot `i`, whose node is `it` and whose
node in `used_positions_` is `mark`. -/
def erased (m : HashMap K V) (i it mark : Nat) : HashMap K V :=
  { m with
    pairs_ := m.pairs_.filter (is_other it)
    used_positions_ := m.used_positions_.filter (is_other mark)
    used_ := write m.used_ i 2
    size_ := m.size_ - 1 }

/-- The table after `clear`: the slots listed in `used_positions_` are tombstones. -/
def cleared (m : HashMap K V) : HashMap K V :=
  { m with
    used_ := fun j => if j ∈ m.used_positions_.map Prod.snd then 2 else m.used_ j
    size_ := 0
    used_positions_ := []
    pairs_ := [] }

/-- The pair with its value replaced by `v` when its key is `k`. -/
def set_value (k : K) (v : V) (p : K × V) : K × V := if p.1 = k then (p.1, v) else p

/-- The node with its value replaced by `v` when its identity is `it`. -/
def set_node (it : Nat) (v : V) (n : Nat × K × V) : Nat × K × V :=
  if n.1 = it then (n.1, n.2.1, v) else n

/-- The table after an assignment of `v` through a reference to the value of node `it`. -/
def assigned (m : HashMap K V) (it : Nat) (v : V) : HashMap K V :=
  { m with pairs_ := m.pairs_.map (set_node it v) }

/-- Number of indices below `n` that satisfy `p`. -/
def count_slots (n : Nat) (p : Nat → Bool) : Nat := (List.range n).countP p

/-- The probe sequence `h, h + s, h + 2 s, ...` modulo the capacity stops at slot `i` after
`t` steps: the loop condition holds at the slots before and fails at `i`. -/
def StopsAt (m : HashMap K V) (key : K) (h s t i : Nat) : Prop :=
  (h + t * s) % m.capacity_ = i ∧ HashMap.probe_condition m key i = some false ∧
    ∀ u, u < t → HashMap.probe_condition m key ((h + u * s) % m.capacity_) = some true

/-- Consistency of the counters, of the slot arrays and of the two lists. -/
structure Loc (m : HashMap K V) : Prop where
  size : m.size_ = m.pairs_.length
  pos_len : m.used_positions_.length = m.size_
  count1 : count_slots m.capacity_ (fun i => decide (m.used_ i = 1)) = m.size_
  count12 : count_slots m.capacity_ (fun i => decide (m.used_ i = 1 ∨ m.used_ i = 2))
    = m.current_workload_
  ids : (m.pairs_.map Prod.fst).Nodup
  fresh : ∀ n ∈ m.pairs_, n.1 < m.fresh_
  occ : ∀ i, i < m.capacity_ → m.used_ i = 1 →
    ∃ it, m.storage_ i = some it ∧ it ∈ m.pairs_.map Prod.fst
  onto : ∀ n ∈ m.pairs_, ∃ i, i < m.capacity_ ∧ m.used_ i = 1 ∧ m.storage_ i = some n.1
  pos_ids : (m.used_positions_.map Prod.fst).Nodup
  pos_fresh : ∀ n ∈ m.used_positions_, n.1 < m.fresh_
  pos_mem : ∀ n ∈ m.used_positions_,
    n.2 < m.capacity_ ∧ m.used_ n.2 = 1 ∧ m.mark_indexes_ n.2 = some n.1
  pos_occ : ∀ i, i < m.capacity_ → m.used_ i = 1 →
    ∃ mark, m.mark_indexes_ i = some mark ∧ (mark, i) ∈ m.used_positions_

/-- The table is consistent, its capacity is `16 * 2 ^ j`, and the probe of the key of
every occupied slot stops at that slot. -/
structure Core (hash : K → Nat) (m : HashMap K V) : Prop where
  loc : Loc m
  cap : ∃ j, m.capacity_ = INITIAL_SIZE * 2 ^ j
  probe : ∀ i p, i < m.capacity_ → record_at m i = some p →
    HashMap.find_position hash m p.1 = some i

/-- The invariant of the table between public operations. -/
structure Inv (hash : K → Nat) (m : HashMap K V) : Prop where
  core : Core hash m
  load : 2 * m.current_workload_ ≤ m.capacity_

/-- The state of the copy loop before slot `i`: the table under construction `cur` agrees
with `other` on the slots below `i` and is free from `i` on. -/
structure CopyState (other : HashMap K V) (i : Nat) (cur : HashMap K V) : Prop where
  loc : Loc cur
  cap : cur.capacity_ = other.capacity_
  below : ∀ j, j < i → cur.used_ j = other.used_ j
  above : ∀ j, i ≤ j → cur.used_ j = 0
  records : ∀ j, j < i → record_at cur j = record_at other j
  order : HashMap.traverse cur = slot_records other i

/-- A public operation on a table. `subscript k` is the expression `table[k]`,
`subscript_assign k v` the statement `table[k] = v`, `copy` goes on with the object that the
copy constructor makes from the table, which has the hash function of the table. -/
inductive Op (K V : Type) where
  | insert (k : K) (v : V)
  | erase (k : K)
  | subscript (k : K)
  | subscript_assign (k : K) (v : V)
  | clear
  | copy

/-- The table after one public operation on an object whose `hash_` is `hash`. -/
def step [Inhabited V] (hash : K → Nat) (m : HashMap K V) : Op K V → Option (HashMap K V)
  | Op.insert k v => HashMap.insert hash m (k, v)
  | Op.erase k => HashMap.erase hash m k
  | Op.subscript k => (HashMap.subscript hash m k).map Prod.fst
  | Op.subscript_assign k v => HashMap.subscript_assign hash m k v
  | Op.clear => HashMap.clear m
  | Op.copy => HashMap.copy hash m

/-- The table after a sequence of public operations on an empty table constructed with the
hash function `hash`. -/
def run [Inhabited V] (hash : K → Nat) (ops : List (Op K V)) : Option (HashMap K V) :=
  ops.foldlM (step hash) HashMap.init

/-- The tables that the public operations of `Op` produce from an empty table constructed
with the hash function `hash`. An object to which `operator=` has given the slots of an
object with another hash function is not among them; such objects are in `Object`. -/
def Reachable [Inhabited V] (hash : K → Nat) (m : HashMap K V) : Prop :=
  ∃ ops, run hash ops = some m

/-- Reference model of one operation, from the specification: the live pairs in the order
in which their keys were inserted. An insertion of a present key changes nothing, a new key
goes to the end, an erased key leaves, `clear` empties, a copy has the same pairs. -/
def model_step [Inhabited V] (l : List (K × V)) : Op K V → List (K × V)
  | Op.insert k v => if k ∈ l.map Prod.fst then l else l ++ [(k, v)]
  | Op.erase k => l.filter (other_key k)
  | Op.subscript k => if k ∈ l.map Prod.fst then l else l ++ [(k, default)]
  | Op.subscript_assign k v =>
    (if k ∈ l.map Prod.fst then l else l ++ [(k, default)]).map (set_value k v)
  | Op.clear => []
  | Op.copy => l

/-- Reference model of a sequence of operations on an empty table. -/
def model [Inhabited V] (ops : List (Op K V)) : List (K × V) :=
  ops.foldl model_step []

/-- Reference set of keys, from the specification: a key enters the set when `insert` or
`operator[]` creates it and leaves it when it is erased or the table is cleared. -/
def key_set_step (s : Finset K) : Op K V → Finset K
  | Op.insert k _ => Insert.insert k s
  | Op.erase k => s.erase k
  | Op.subscript k => Insert.insert k s
  | Op.subscript_assign k _ => Insert.insert k s
  | Op.clear => ∅
  | Op.copy => s

/-- Reference set of keys after a sequence of operations on an empty table. -/
def key_set (ops : List (Op K V)) : Finset K :=
  ops.foldl key_set_step ∅

/-- The value of the first pair with key `k`. -/
def first_value : List (K × V) → K → Option V
  | [], _ => none
  | p :: rest, k => if p.1 = k then some p.2 else first_value rest k

/-- The insertions made by the range and initializer-list constructors. -/
def inserts (items : List (K × V)) : List (Op K V) :=
  items.map (fun p => Op.insert p.1 p.2)

/-- The identity on keys that are numbers, as hash function of the examples. -/
def id_hash (k : Nat) : Nat := k

/-- The table after `insert((1, 10))` on an empty table, with the hash `id_hash`. -/
def one_entry : HashMap Nat Nat := HashMap.place HashMap.init 1 1 10

/-- Eight insertions under `id_hash`: the keys 15, 0, 1, ..., 6 with value twice the key.
They fill eight of the sixteen slots. -/
def eight_inserts : List (Op Nat Nat) :=
  [Op.insert 15 30, Op.insert 0 0, Op.insert 1 2, Op.insert 2 4, Op.insert 3 6,
    Op.insert 4 8, Op.insert 5 10, Op.insert 6 12]

/-- The eight insertions and a ninth, of key 7, which triggers the rebuild. -/
def nine_inserts : List (Op Nat Nat) := eight_inserts ++ [Op.insert 7 14]

/-- The slot index is not `i`. -/
def other_slot (i : Nat) (j : Nat) : Bool := decide (j ≠ i)

/-- The operations of `n` repetitions of `insert((k, v)); erase(k)`. -/
def cycles (k : K) (v : V) : Nat → List (Op K V)
  | 0 => []
  | n + 1 => cycles k v n ++ [Op.insert k v, Op.erase k]

/-- The table after the operations `ops` on the table `m`. -/
def run_from [Inhabited V] (hash : K → Nat) (m : HashMap K V) (ops : List (Op K V)) :
    Option (HashMap K V) :=
  ops.foldlM (step hash) m

/-- An object of the class, given by the way it was made: by the constructor
`HashMap(hash)`, by a public operation on an object (for `Op.copy`, by the copy constructor
from it), or by the assignment `o = other` of another object. -/
inductive Object (K V : Type) where
  | make (hash : K → Nat)
  | apply (o : Object K V) (op : Op K V)
  | assign (o : Object K V) (other : Object K V)

/-- The member `hash_` of the object: set by the constructor, taken over by the copy
constructor, kept by every member function, `operator=` included. -/
def Object.hash_ : Object K V → K → Nat
  | Object.make hash => hash
  | Object.apply o _ => Object.hash_ o
  | Object.assign o _ => Object.hash_ o

/-- The table of the object. -/
def Object.table [Inhabited V] : Object K V → Option (HashMap K V)
  | Object.make _ => some HashMap.init
  | Object.apply o op => (Object.table o).bind (fun m => step (Object.hash_ o) m op)
  | Object.assign o other =>
    (Object.table o).bind (fun _ =>
      (Object.table other).bind (fun t => HashMap.assign (Object.hash_ o) t))

/-- Every assignment in the making of the object was from an object with the same hash
function. -/
def Object.uniform : Object K V → Prop
  | Object.make _ => True
  | Object.apply o _ => Object.uniform o
  | Object.assign o other =>
    Object.uniform o ∧ Object.uniform other ∧ Object.hash_ other = Object.hash_ o

/-- The object after the operations `ops`, one after the other. -/
def Object.apply_all (o : Object K V) (ops : List (Op K V)) : Object K V :=
  ops.foldl Object.apply o

/-- The pairs visited by an iteration over the object. -/
def Object.traverse [Inhabited V] (o : Object K V) : Option (List (K × V)) :=
  (Object.table o).map HashMap.traverse

/-- The call `o.at(k)`. -/
def Object.at_ [Inhabited V] (o : Object K V) (k : K) : Option (AtResult V) :=
  (Object.table o).bind (fun t => HashMap.at_ (Object.hash_ o) t k)

/-- The call `o.find(k)`. -/
def Object.find [Inhabited V] (o : Object K V) (k : K) : Option Iterator :=
  (Object.table o).bind (fun t => HashMap.find (Object.hash_ o) t k)

/-- The pair that the iterator `o.find(k)` points to; `some none` for `end()`. -/
def Object.find_record [Inhabited V] (o : Object K V) (k : K) : Option (Option (K × V)) :=
  (Object.table o).bind (fun t =>
    (HashMap.find (Object.hash_ o) t k).map (fun it =>
      match it with
      | Iterator.node n => deref t.pairs_ n
      | Iterator.past_the_end => none))

/-- The slot at which the probe of `k` stops in the object. -/
def Object.find_position [Inhabited V] (o : Object K V) (k : K) : Option Nat :=
  (Object.table o).bind (fun t => HashMap.find_position (Object.hash_ o) t k)

/-- The pair whose `second` the expression `o[k]` refers to. -/
def Object.subscript_record [Inhabited V] (o : Object K V) (k : K) : Option (Option (K × V)) :=
  (Object.table o).bind (fun t =>
    (HashMap.subscript (Object.hash_ o) t k).map (fun r => deref r.1.pairs_ r.2))

/-- The state of the slots and the records that the occupied slots refer to. -/
def slot_states (m : HashMap K V) : List (Nat × Option (K × V)) :=
  (List.range m.capacity_).map (fun i => (m.used_ i, record_at m i))

/-- The hash function on numbers that is 0 on every key. -/
def zero_hash (_k : Nat) : Nat := 0

/-- The hash function on numbers that sends 15 to 0 and every other key to itself. -/
def fold_hash (k : Nat) : Nat := if k = 15 then 0 else k

/-- The object `a`: constructed with `id_hash`, then `a.insert((15, 1))`. -/
def source_object : Object Nat Nat := Object.apply (Object.make id_hash) (Op.insert 15 1)

/-- The object `b`: constructed with `zero_hash`, then `b = a`. -/
def zero_object : Object Nat Nat := Object.assign (Object.make zero_hash) source_object

/-- The object `c`: constructed with `fold_hash`, then `c = a`. -/
def fold_object : Object Nat Nat := Object.assign (Object.make fold_hash) source_object

/-- The insertions of the keys 1, ..., 6 with value twice the key. -/
def six_inserts : List (Op Nat Nat) :=
  [Op.insert 1 2, Op.insert 2 4, Op.insert 3 6, Op.insert 4 8, Op.insert 5 10,
    Op.insert 6 12]

end Observations

/-! ## Lists of nodes -/

section Nodes
variable {α : Type}

theorem is_other_eq_true {it : Nat} {n : Nat × α} (h : n.1 ≠ it) : is_other it n = true := by
  simp [is_other, h]

theorem is_other_eq_false {it : Nat} {n : Nat × α} (h : n.1 = it) : is_other it n = false := by
  simp [is_other, h]

theorem deref_some_mem {l : List (Nat × α)} {it : Nat} {a : α} (h : deref l it = some a) :
    (it, a) ∈ l := by
  induction l with
  | nil => simp [deref] at h
  | cons n rest ih =>
    unfold deref at h
    split at h
    · next hn =>
      cases h
      rw [← hn]
      exact List.mem_cons_self _ _
    · exact List.mem_cons_of_mem _ (ih h)

theorem deref_none_of_not_mem {l : List (Nat × α)} {it : Nat} (h : it ∉ l.map Prod.fst) :
    deref l it = none := by
  cases hd : deref l it with
  | none => rfl
  | some a => exact absurd (List.mem_map_of_mem Prod.fst (deref_some_mem hd)) h

theorem deref_of_mem {l : List (Nat × α)} (hn : (l.map Prod.fst).Nodup) {it : Nat} {a : α}
    (h : (it, a) ∈ l) : deref l it = some a := by
  induction l with
  | nil => simp at h
  | cons n rest ih =>
    rw [List.map_cons, List.nodup_cons] at hn
    rcases List.mem_cons.mp h with h | h
    · subst h
      simp [deref]
    · have hne : n.1 ≠ it := by
        intro he
        exact hn.1 (he ▸ List.mem_map_of_mem Prod.fst h)
      simp [deref, hne, ih hn.2 h]

theorem deref_isSome_iff {l : List (Nat × α)} {it : Nat} :
    (deref l it).isSome ↔ it ∈ l.map Prod.fst := by
  constructor
  · intro h
    obtain ⟨a, ha⟩ := Option.isSome_iff_exists.mp h
    exact List.mem_map_of_mem Prod.fst (deref_some_mem ha)
  · intro h
    cases hd : deref l it with
    | some a => rfl
    | none =>
      exfalso
      induction l with
      | nil => simp at h
      | cons n rest ih =>
        unfold deref at hd
        split at hd
        · cases hd
        · next hne =>
          rw [List.map_cons, List.mem_cons] at h
          rcases h with h | h
          · exact hne h.symm
          · exact ih h hd

theorem deref_append_of_some {l : List (Nat × α)} {it : Nat} {a : α} (h : deref l it = some a)
    (l2 : List (Nat × α)) : deref (l ++ l2) it = some a := by
  induction l with
  | nil => simp [deref] at h
  | cons n rest ih =>
    rw [List.cons_append]
    unfold deref at h ⊢
    split
    · next hn => simpa [hn] using h
    · next hn => rw [if_neg hn] at h; exact ih h

theorem deref_append_of_none {l : List (Nat × α)} {it : Nat} (h : deref l it = none)
    (l2 : List (Nat × α)) : deref (l ++ l2) it = deref l2 it := by
  induction l with
  | nil => rfl
  | cons n rest ih =>
    rw [List.cons_append]
    unfold deref at h
    split at h
    · cases h
    · next hn =>
      show (if n.1 = it then some n.2 else deref (rest ++ l2) it) = _
      rw [if_neg hn]; exact ih h

theorem deref_append_fresh {l : List (Nat × α)} {it : Nat} (a : α)
    (h : it ∉ l.map Prod.fst) : deref (l ++ [(it, a)]) it = some a := by
  rw [deref_append_of_none (deref_none_of_not_mem h)]
  simp [deref]

theorem deref_append_ne {l : List (Nat × α)} {it i2 : Nat} (a : α) (h : it ≠ i2) :
    deref (l ++ [(it, a)]) i2 = deref l i2 := by
  cases hd : deref l i2 with
  | some b => exact deref_append_of_some hd _
  | none =>
    rw [deref_append_of_none hd]
    simp [deref, h]

theorem erase_node_eq_filter {l : List (Nat × α)} (hn : (l.map Prod.fst).Nodup) {it : Nat}
    (h : it ∈ l.map Prod.fst) :
    erase_node l it = some (l.filter (is_other it)) := by
  induction l with
  | nil => simp at h
  | cons n rest ih =>
    rw [List.map_cons, List.nodup_cons] at hn
    unfold erase_node
    by_cases hne : n.1 = it
    · rw [if_pos hne]
      have : rest.filter (is_other it) = rest := by
        apply List.filter_eq_self.mpr
        intro x hx
        apply is_other_eq_true
        intro hxe
        exact hn.1 (by rw [hne, ← hxe]; exact List.mem_map_of_mem Prod.fst hx)
      rw [List.filter_cons_of_neg (by rw [is_other_eq_false hne]; simp), this]
    · rw [if_neg hne]
      rw [List.map_cons, List.mem_cons] at h
      have h2 : it ∈ rest.map Prod.fst := by
        rcases h with h | h
        · exact absurd h.symm hne
        · exact h
      rw [ih hn.2 h2, List.filter_cons_of_pos (is_other_eq_true hne)]
      rfl

theorem erase_node_none {l : List (Nat × α)} {it : Nat} (h : it ∉ l.map Prod.fst) :
    erase_node l it = none := by
  induction l with
  | nil => rfl
  | cons n rest ih =>
    rw [List.map_cons, List.mem_cons, not_or] at h
    unfold erase_node
    rw [if_neg (fun he => h.1 he.symm), ih h.2]
    rfl

theorem length_filter_ne {l : List (Nat × α)} (hn : (l.map Prod.fst).Nodup) {it : Nat}
    (h : it ∈ l.map Prod.fst) :
    (l.filter (is_other it)).length + 1 = l.length := by
  induction l with
  | nil => simp at h
  | cons n rest ih =>
    rw [List.map_cons, List.nodup_cons] at hn
    by_cases hne : n.1 = it
    · have : rest.filter (is_other it) = rest := by
        apply List.filter_eq_self.mpr
        intro x hx
        apply is_other_eq_true
        intro hxe
        exact hn.1 (by rw [hne, ← hxe]; exact List.mem_map_of_mem Prod.fst hx)
      rw [List.filter_cons_of_neg (by rw [is_other_eq_false hne]; simp), this]
      simp
    · rw [List.map_cons, List.mem_cons] at h
      have h2 : it ∈ rest.map Prod.fst := by
        rcases h with h | h
        · exact absurd h.symm hne
        · exact h
      have := ih hn.2 h2
      rw [List.filter_cons_of_pos (is_other_eq_true hne), List.length_cons, List.length_cons]
      omega

theorem deref_filter_ne {l : List (Nat × α)} {it i2 : Nat} (h : i2 ≠ it) :
    deref (l.filter (is_other it)) i2 = deref l i2 := by
  induction l with
  | nil => rfl
  | cons n rest ih =>
    by_cases hne : n.1 = it
    · have h3 : ¬ n.1 = i2 := fun he => h (he ▸ hne)
      rw [List.filter_cons_of_neg (by rw [is_other_eq_false hne]; simp), ih]
      simp [deref, h3]
    · rw [List.filter_cons_of_pos (is_other_eq_true hne)]
      by_cases h3 : n.1 = i2
      · simp [deref, h3]
      · simp [deref, h3, ih]

theorem nodup_filter_ids {l : List (Nat × α)} (hn : (l.map Prod.fst).Nodup)
    (p : Nat × α → Bool) : ((l.filter p).map Prod.fst).Nodup :=
  hn.sublist ((List.filter_sublist l).map Prod.fst)

end Nodes

section Assign
variable {K V : Type}

theorem assign_node_eq_map {l : List (Nat × K × V)} {it : Nat} (v : V)
    (h : it ∈ l.map Prod.fst) (hn : (l.map Prod.fst).Nodup) :
    assign_node l it v
      = some (l.map (fun n => if n.1 = it then (n.1, n.2.1, v) else n)) := by
  induction l with
  | nil => simp at h
  | cons n rest ih =>
    rw [List.map_cons, List.nodup_cons] at hn
    unfold assign_node
    by_cases hne : n.1 = it
    · rw [if_pos hne]
      have : rest.map (fun n => if n.1 = it then (n.1, n.2.1, v) else n) = rest := by
        conv_rhs => rw [← List.map_id rest]
        apply List.map_congr_left
        intro x hx
        have : ¬ x.1 = it := by
          intro hxe
          exact hn.1 (by rw [hne, ← hxe]; exact List.mem_map_of_mem Prod.fst hx)
        simp [this]
      simp [hne, this]
    · rw [if_neg hne]
      rw [List.map_cons, List.mem_cons] at h
      have h2 : it ∈ rest.map Prod.fst := by
        rcases h with h | h
        · exact absurd h.symm hne
        · exact h
      rw [ih h2 hn.2]
      simp [hne]

end Assign

/-! ## Counting slots -/

section Counting

theorem count_slots_succ (n : Nat) (p : Nat → Bool) :
    count_slots (n + 1) p = count_slots n p + (if p n = true then 1 else 0) := by
  unfold count_slots
  rw [List.range_succ, List.countP_append, List.countP_cons, List.countP_nil]
  simp

theorem count_slots_congr {n : Nat} {p q : Nat → Bool} (h : ∀ i, i < n → p i = q i) :
    count_slots n p = count_slots n q := by
  induction n with
  | zero => rfl
  | succ n ih =>
    rw [count_slots_succ, count_slots_succ, ih (fun i hi => h i (by omega)), h n (by omega)]

theorem count_slots_le (n : Nat) (p : Nat → Bool) : count_slots n p ≤ n := by
  induction n with
  | zero => simp [count_slots]
  | succ n ih =>
    rw [count_slots_succ]
    split <;> omega

theorem count_slots_mono {n : Nat} {p q : Nat → Bool} (h : ∀ i, i < n → p i = true → q i = true) :
    count_slots n p ≤ count_slots n q := by
  induction n with
  | zero => simp [count_slots]
  | succ n ih =>
    rw [count_slots_succ, count_slots_succ]
    have h1 := ih (fun i hi => h i (by omega))
    have h2 := h n (by omega)
    by_cases hp : p n = true
    · rw [if_pos hp, if_pos (h2 hp)]; omega
    · rw [if_neg hp]; split <;> omega

theorem count_slots_le_of_le {n k : Nat} (p : Nat → Bool) (h : n ≤ k) :
    count_slots n p ≤ count_slots k p := by
  induction k with
  | zero =>
    have : n = 0 := by omega
    subst this; exact Nat.le_refl _
  | succ k ih =>
    by_cases hk : n = k + 1
    · subst hk; exact Nat.le_refl _
    · have := ih (by omega)
      rw [count_slots_succ]; omega

theorem exists_of_count_slots_lt {n : Nat} {p : Nat → Bool} (h : count_slots n p < n) :
    ∃ i, i < n ∧ p i = false := by
  induction n with
  | zero => omega
  | succ n ih =>
    rw [count_slots_succ] at h
    by_cases hp : p n = true
    · rw [if_pos hp] at h
      obtain ⟨i, hi, hpi⟩ := ih (by omega)
      exact ⟨i, by omega, hpi⟩
    · exact ⟨n, by omega, by simpa using hp⟩

theorem count_slots_write {n e : Nat} (he : e < n) (u : Nat → Nat) (v : Nat) (q : Nat → Bool) :
    count_slots n (fun i => q (write u e v i)) + (if q (u e) = true then 1 else 0)
      = count_slots n (fun i => q (u i)) + (if q v = true then 1 else 0) := by
  induction n with
  | zero => omega
  | succ n ih =>
    rw [count_slots_succ, count_slots_succ]
    by_cases hn : e = n
    · subst hn
      have hc : count_slots e (fun i => q (write u e v i)) = count_slots e (fun i => q (u i)) := by
        apply count_slots_congr
        intro i hi
        have : ¬ i = e := by omega
        simp [write, this]
      have hw : write u e v e = v := by simp [write]
      rw [hc]
      simp only [hw]
      omega
    · have := ih (by omega)
      have hw : write u e v n = u n := by
        have : ¬ n = e := fun h => hn h.symm
        simp [write, this]
      simp only [hw]
      omega

theorem count_slots_false (n : Nat) : count_slots n (fun _ => false) = 0 := by
  induction n with
  | zero => rfl
  | succ n ih => rw [count_slots_succ, ih]; simp

end Counting

/-! ## The probe sequence -/

section Stride

theorem mod_mod_two {a c : Nat} (hc : 2 ∣ c) : a % c % 2 = a % 2 :=
  Nat.mod_mod_of_dvd a hc

theorem two_dvd_capacity {c : Nat} (hc : ∃ j, c = INITIAL_SIZE * 2 ^ j) : 2 ∣ c := by
  obtain ⟨j, rfl⟩ := hc
  exact Dvd.dvd.mul_right (by decide) _

theorem capacity_pos {c : Nat} (hc : ∃ j, c = INITIAL_SIZE * 2 ^ j) : 16 ≤ c := by
  obtain ⟨j, rfl⟩ := hc
  have : 1 ≤ 2 ^ j := Nat.one_le_two_pow
  simp only [INITIAL_SIZE]
  omega

theorem stride_odd (c h : Nat) (hc : 2 ∣ c) :
    ([239, 179, 191].foldl (fun res rate => (res * h + rate) % SIZE_T_MOD % c) 0) % 2 = 1 := by
  have hM : 2 ∣ SIZE_T_MOD := by
    unfold SIZE_T_MOD
    exact Dvd.intro (2 ^ 63) (by norm_num)
  have red : ∀ x, x % SIZE_T_MOD % c % 2 = x % 2 := by
    intro x
    rw [mod_mod_two hc, mod_mod_two hM]
  simp only [List.foldl]
  rw [red]
  have h1 : (0 * h + 239) % SIZE_T_MOD % c % 2 = 1 := by rw [red]; simp
  generalize (0 * h + 239) % SIZE_T_MOD % c = r1 at h1 ⊢
  have h2 : (r1 * h + 179) % SIZE_T_MOD % c % 2 = (h + 1) % 2 := by
    rw [red, Nat.add_mod, Nat.mul_mod, h1]
    rcases Nat.mod_two_eq_zero_or_one h with hh | hh <;> simp [hh] <;> omega
  generalize (r1 * h + 179) % SIZE_T_MOD % c = r2 at h2 ⊢
  rw [Nat.add_mod, Nat.mul_mod, h2]
  rcases Nat.mod_two_eq_zero_or_one h with hh | hh
  · have : (h + 1) % 2 = 1 := by omega
    simp [hh, this]
  · have : (h + 1) % 2 = 0 := by omega
    simp [hh, this]

variable {K V : Type}

theorem compute_shift_hash_odd (m : HashMap K V) (h : Nat) (hc : 2 ∣ m.capacity_) :
    HashMap.compute_shift_hash m h % 2 = 1 :=
  stride_odd m.capacity_ h hc

theorem compute_shift_hash_congr {m m2 : HashMap K V} (hc : m2.capacity_ = m.capacity_)
    (h : Nat) : HashMap.compute_shift_hash m2 h = HashMap.compute_shift_hash m h := by
  unfold HashMap.compute_shift_hash
  rw [hc]

theorem exists_step_to {c s : Nat} (hc : ∃ j, c = INITIAL_SIZE * 2 ^ j) (hs : s % 2 = 1)
    (h e : Nat) (he : e < c) : ∃ t, t < c ∧ (h + t * s) % c = e := by
  have hpos : 16 ≤ c := capacity_pos hc
  have hcop : Nat.Coprime s c := by
    obtain ⟨j, rfl⟩ := hc
    have h2 : Nat.Coprime s 2 := Nat.coprime_two_right.mpr (Nat.odd_iff.mpr hs)
    have : INITIAL_SIZE * 2 ^ j = 2 ^ (j + 4) := by
      simp only [INITIAL_SIZE]; ring
    rw [this]
    exact Nat.Coprime.pow_right _ h2
  obtain ⟨u, hu⟩ := Nat.exists_mul_emod_eq_one_of_coprime hcop (by omega)
  refine ⟨((e + (c - h % c)) * u) % c, Nat.mod_lt _ (by omega), ?_⟩
  have hlt : h % c < c := Nat.mod_lt _ (by omega)
  have key : ((h + ((e + (c - h % c)) * u) % c * s : ℕ) : ZMod c) = (e : ZMod c) := by
    have hu2 : ((s : ZMod c)) * (u : ZMod c) = 1 := by
      have : ((s * u : ℕ) : ZMod c) = ((1 : ℕ) : ZMod c) := by
        rw [ZMod.natCast_eq_natCast_iff']
        rw [hu]; exact (Nat.mod_eq_of_lt (by omega)).symm
      simpa using this
    have hh : ((h % c : ℕ) : ZMod c) = (h : ZMod c) := ZMod.natCast_mod h c
    push_cast
    rw [ZMod.natCast_mod]
    push_cast [Nat.cast_sub (le_of_lt hlt)]
    rw [hh, ZMod.natCast_self]
    linear_combination ((e : ZMod c) - h) * hu2
  have := (ZMod.natCast_eq_natCast_iff' _ _ _).mp key
  rw [this, Nat.mod_eq_of_lt he]

end Stride

section Records

variable {K V : Type}

theorem record_at_used {m : HashMap K V} {i : Nat} {p : K × V} (h : record_at m i = some p) :
    m.used_ i = 1 := by
  by_contra hn
  simp [record_at, hn] at h

theorem record_at_of_used {m : HashMap K V} {i : Nat} (h : m.used_ i = 1) :
    record_at m i = (m.storage_ i).bind (deref m.pairs_) := by
  simp [record_at, h]

theorem write_same {α : Type} (a : Nat → α) (i : Nat) (v : α) : write a i v i = v := by
  simp [write]

theorem write_ne {α : Type} (a : Nat → α) {i j : Nat} (v : α) (h : j ≠ i) :
    write a i v j = a j := by
  simp [write, h]

end Records

section Probe

variable {K V : Type} [DecidableEq K]

theorem probe_condition_eq (m : HashMap K V) (key : K) (i : Nat) :
    HashMap.probe_condition m key i =
      if i < m.capacity_ then
        if m.used_ i = 2 then some true
        else if m.used_ i = 1 then (record_at m i).map (fun p => decide (¬ p.1 = key))
        else some false
      else none := by
  unfold HashMap.probe_condition record_at
  by_cases h1 : i < m.capacity_
  · by_cases h2 : m.used_ i = 2
    · simp [h1, h2]
    · by_cases h3 : m.used_ i = 1
      · simp only [h1, h2, h3, if_true, if_false]
        cases hs : m.storage_ i with
        | none => rfl
        | some it =>
          cases hd : deref m.pairs_ it with
          | none => simp [hd]
          | some p => simp [hd]
      · simp [h1, h2, h3]
  · simp [h1]

theorem probe_condition_lt {m : HashMap K V} {key : K} {i : Nat} {b : Bool}
    (h : HashMap.probe_condition m key i = some b) : i < m.capacity_ := by
  by_contra hn
  rw [probe_condition_eq, if_neg hn] at h
  cases h

theorem probe_condition_tomb {m : HashMap K V} (key : K) {i : Nat} (hi : i < m.capacity_)
    (h : m.used_ i = 2) : HashMap.probe_condition m key i = some true := by
  rw [probe_condition_eq, if_pos hi, if_pos h]

theorem probe_condition_free {m : HashMap K V} (key : K) {i : Nat} (hi : i < m.capacity_)
    (h1 : m.used_ i ≠ 1) (h2 : m.used_ i ≠ 2) :
    HashMap.probe_condition m key i = some false := by
  rw [probe_condition_eq, if_pos hi, if_neg h2, if_neg h1]

theorem probe_condition_occ {m : HashMap K V} (key : K) {i : Nat} (hi : i < m.capacity_)
    (h1 : m.used_ i = 1) :
    HashMap.probe_condition m key i = (record_at m i).map (fun p => decide (¬ p.1 = key)) := by
  have h2 : ¬ m.used_ i = 2 := by omega
  rw [probe_condition_eq, if_pos hi, if_neg h2, if_pos h1]

theorem probe_condition_record {m : HashMap K V} (key : K) {i : Nat} {p : K × V}
    (hi : i < m.capacity_) (h : record_at m i = some p) :
    HashMap.probe_condition m key i = some (decide (¬ p.1 = key)) := by
  rw [probe_condition_occ key hi (record_at_used h), h]
  rfl

/-- A stop of the loop: the slot is free, or occupied by a record with the key. -/
theorem probe_condition_false {m : HashMap K V} {key : K} {i : Nat}
    (h : HashMap.probe_condition m key i = some false) :
    i < m.capacity_ ∧ m.used_ i ≠ 2 ∧
      (m.used_ i = 1 → ∃ v, record_at m i = some (key, v)) := by
  have hi := probe_condition_lt h
  refine ⟨hi, ?_, ?_⟩
  · intro h2
    rw [probe_condition_tomb key hi h2] at h
    cases h
  · intro h1
    rw [probe_condition_occ key hi h1] at h
    cases hr : record_at m i with
    | none => rw [hr] at h; cases h
    | some p =>
      rw [hr] at h
      simp only [Option.map_some', Option.some.injEq, decide_eq_false_iff_not, not_not] at h
      exact ⟨p.2, by rw [← h]⟩

theorem probe_eq_some_iff (m : HashMap K V) (key : K) (s fuel h i : Nat) :
    HashMap.probe m key s fuel (h % m.capacity_) = some i ↔
      ∃ t, t < fuel ∧ StopsAt m key h s t i := by
  induction fuel generalizing h with
  | zero =>
    constructor
    · intro hp; simp [HashMap.probe] at hp
    · rintro ⟨t, ht, _⟩; omega
  | succ fuel ih =>
    unfold HashMap.probe
    cases hc : HashMap.probe_condition m key (h % m.capacity_) with
    | none =>
      constructor
      · intro hp; cases hp
      · rintro ⟨t, _, h1, h2, h3⟩
        exfalso
        cases t with
        | zero =>
          simp only [Nat.zero_mul, Nat.add_zero] at h1
          rw [h1, h2] at hc; cases hc
        | succ t =>
          have := h3 0 (by omega)
          simp only [Nat.zero_mul, Nat.add_zero] at this
          rw [this] at hc; cases hc
    | some b =>
      cases b with
      | true =>
        show HashMap.probe m key s fuel ((h % m.capacity_ + s) % m.capacity_) = some i ↔ _
        rw [Nat.mod_add_mod, ih (h + s)]
        constructor
        · rintro ⟨t, ht, h1, h2, h3⟩
          refine ⟨t + 1, by omega, ?_, h2, ?_⟩
          · rw [← h1]; congr 1; ring
          · intro u hu
            cases u with
            | zero => simpa using hc
            | succ u =>
              have := h3 u (by omega)
              rw [← this]; congr 2; ring
        · rintro ⟨t, ht, h1, h2, h3⟩
          cases t with
          | zero =>
            exfalso
            simp only [Nat.zero_mul, Nat.add_zero] at h1
            rw [h1, h2] at hc; cases hc
          | succ t =>
            refine ⟨t, by omega, ?_, h2, ?_⟩
            · rw [← h1]; congr 1; ring
            · intro u hu
              have := h3 (u + 1) (by omega)
              rw [← this]; congr 2; ring
      | false =>
        show some (h % m.capacity_) = some i ↔ _
        constructor
        · intro hp
          cases hp
          refine ⟨0, by omega, by simp, hc, ?_⟩
          intro u hu; omega
        · rintro ⟨t, ht, h1, h2, h3⟩
          cases t with
          | zero =>
            simp only [Nat.zero_mul, Nat.add_zero] at h1
            rw [h1]
          | succ t =>
            exfalso
            have := h3 0 (by omega)
            simp only [Nat.zero_mul, Nat.add_zero] at this
            rw [this] at hc; cases hc

theorem find_position_eq_some_iff (hash : K → Nat) (m : HashMap K V) (key : K) (i : Nat) :
    HashMap.find_position hash m key = some i ↔
      ∃ t, t < m.capacity_ ∧
        StopsAt m key (hash key % SIZE_T_MOD)
          (HashMap.compute_shift_hash m (hash key % SIZE_T_MOD)) t i := by
  unfold HashMap.find_position
  exact probe_eq_some_iff m key _ _ _ i

theorem find_position_stop {hash : K → Nat} {m : HashMap K V} {key : K} {i : Nat}
    (h : HashMap.find_position hash m key = some i) :
    HashMap.probe_condition m key i = some false := by
  obtain ⟨t, _, _, h2, _⟩ := (find_position_eq_some_iff hash m key i).mp h
  exact h2

theorem find_position_lt {hash : K → Nat} {m : HashMap K V} {key : K} {i : Nat}
    (h : HashMap.find_position hash m key = some i) : i < m.capacity_ :=
  probe_condition_lt (find_position_stop h)

/-- The probe of a key stops at the same slot in a second table of the same capacity, when
the loop condition still fails there and still holds wherever it held. -/
theorem find_position_transfer {hash : K → Nat} {m m2 : HashMap K V} {key : K} {i : Nat}
    (hc : m2.capacity_ = m.capacity_)
    (hf : HashMap.find_position hash m key = some i)
    (hstop : HashMap.probe_condition m2 key i = some false)
    (hpath : ∀ j, HashMap.probe_condition m key j = some true →
      HashMap.probe_condition m2 key j = some true) :
    HashMap.find_position hash m2 key = some i := by
  rw [find_position_eq_some_iff] at hf ⊢
  obtain ⟨t, ht, h1, _, h3⟩ := hf
  rw [hc, compute_shift_hash_congr hc]
  refine ⟨t, ht, ?_, hstop, ?_⟩
  · rw [hc]; exact h1
  · intro u hu
    rw [hc]
    exact hpath _ (h3 u hu)

/-- The loop of `find_position` stops when one slot is free, the capacity is `16 * 2 ^ j`
and every occupied slot refers to a node of the record list. -/
theorem find_position_total (hash : K → Nat) {m : HashMap K V} (hL : Loc m)
    (hcap : ∃ j, m.capacity_ = INITIAL_SIZE * 2 ^ j)
    (hw : m.current_workload_ < m.capacity_) (key : K) :
    ∃ i, HashMap.find_position hash m key = some i := by
  obtain ⟨e, he, hfree⟩ := exists_of_count_slots_lt (hL.count12.symm ▸ hw :
    count_slots m.capacity_ (fun i => decide (m.used_ i = 1 ∨ m.used_ i = 2)) < m.capacity_)
  simp only [decide_eq_false_iff_not, not_or] at hfree
  have hstop : HashMap.probe_condition m key e = some false :=
    probe_condition_free key he hfree.1 hfree.2
  have hdef : ∀ j, j < m.capacity_ → HashMap.probe_condition m key j ≠ none := by
    intro j hj
    rw [probe_condition_eq, if_pos hj]
    by_cases h2 : m.used_ j = 2
    · simp [h2]
    · by_cases h1 : m.used_ j = 1
      · obtain ⟨it, hs, hmem⟩ := hL.occ j hj h1
        obtain ⟨p, hp⟩ := Option.isSome_iff_exists.mp (deref_isSome_iff.mpr hmem)
        simp [h1, record_at, hs, hp]
      · simp [h1, h2]
  set h := hash key % SIZE_T_MOD with hh
  set s := HashMap.compute_shift_hash m h with hs
  obtain ⟨t0, ht0, hidx⟩ := exists_step_to hcap
    (compute_shift_hash_odd m h (two_dvd_capacity hcap)) h e he
  have hex : ∃ t, HashMap.probe_condition m key ((h + t * s) % m.capacity_) = some false :=
    ⟨t0, by rw [hidx]; exact hstop⟩
  have hpos : 0 < m.capacity_ := by omega
  refine ⟨(h + Nat.find hex * s) % m.capacity_, ?_⟩
  rw [find_position_eq_some_iff]
  refine ⟨Nat.find hex, ?_, rfl, Nat.find_spec hex, ?_⟩
  · exact lt_of_le_of_lt (Nat.find_min' hex (by rw [hidx]; exact hstop)) ht0
  · intro u hu
    have hne := Nat.find_min hex hu
    have hd := hdef ((h + u * s) % m.capacity_) (Nat.mod_lt _ hpos)
    cases hc : HashMap.probe_condition m key ((h + u * s) % m.capacity_) with
    | none => exact absurd hc hd
    | some b =>
      cases b with
      | true => rfl
      | false => exact absurd hc hne

end Probe

/-! ## Registration of a new record -/

section Place

variable {K V : Type}

theorem loc_init : Loc (HashMap.init : HashMap K V) where
  size := rfl
  pos_len := rfl
  count1 := by
    show count_slots INITIAL_SIZE (fun _ => decide ((0 : Nat) = 1)) = 0
    simpa using count_slots_false INITIAL_SIZE
  count12 := by
    show count_slots INITIAL_SIZE (fun _ => decide ((0 : Nat) = 1 ∨ (0 : Nat) = 2)) = 0
    simpa using count_slots_false INITIAL_SIZE
  ids := List.nodup_nil
  fresh := by intro n hn; cases hn
  occ := by
    intro i _ h
    have h0 : (0 : Nat) = 1 := h
    omega
  onto := by intro n hn; cases hn
  pos_ids := List.nodup_nil
  pos_fresh := by intro n hn; cases hn
  pos_mem := by intro n hn; cases hn
  pos_occ := by
    intro i _ h
    have h0 : (0 : Nat) = 1 := h
    omega

theorem loc_place {m : HashMap K V} (hL : Loc m) {e : Nat} (he : e < m.capacity_)
    (h1 : m.used_ e ≠ 1) (h2 : m.used_ e ≠ 2) (k : K) (v : V) :
    Loc (HashMap.place m e k v) where
  size := by simp [HashMap.place, hL.size]
  pos_len := by simp [HashMap.place, hL.pos_len]
  count1 := by
    have := count_slots_write he m.used_ 1 (fun x => decide (x = 1))
    simp only [decide_eq_true_eq, if_neg h1] at this
    show count_slots m.capacity_ (fun i => decide (write m.used_ e 1 i = 1)) = m.size_ + 1
    rw [← hL.count1]
    simpa using this
  count12 := by
    have := count_slots_write he m.used_ 1 (fun x => decide (x = 1 ∨ x = 2))
    have hn : ¬ (m.used_ e = 1 ∨ m.used_ e = 2) := by omega
    simp only [decide_eq_true_eq, if_neg hn] at this
    show count_slots m.capacity_ (fun i => decide (write m.used_ e 1 i = 1 ∨
      write m.used_ e 1 i = 2)) = m.current_workload_ + 1
    rw [← hL.count12]
    simpa using this
  ids := by
    show ((m.pairs_ ++ [(m.fresh_, k, v)]).map Prod.fst).Nodup
    rw [List.map_append, List.nodup_append]
    refine ⟨hL.ids, by simp, ?_⟩
    intro a ha hb
    simp only [List.map_cons, List.map_nil, List.mem_singleton] at hb
    obtain ⟨n, hn, rfl⟩ := List.mem_map.mp ha
    have := hL.fresh n hn
    omega
  fresh := by
    intro n hn
    show n.1 < m.fresh_ + 2
    rcases List.mem_append.mp hn with h | h
    · have := hL.fresh n h; omega
    · simp only [List.mem_singleton] at h
      subst h
      show m.fresh_ < m.fresh_ + 2
      omega
  occ := by
    intro i hi hu
    show ∃ it, write m.storage_ e (some m.fresh_) i = some it ∧
      it ∈ (m.pairs_ ++ [(m.fresh_, k, v)]).map Prod.fst
    by_cases hie : i = e
    · subst hie
      exact ⟨m.fresh_, write_same _ _ _, by simp⟩
    · have hu2 : m.used_ i = 1 := by
        have : write m.used_ e 1 i = 1 := hu
        rwa [write_ne _ _ hie] at this
      obtain ⟨it, hs, hmem⟩ := hL.occ i hi hu2
      refine ⟨it, by rw [write_ne _ _ hie]; exact hs, ?_⟩
      rw [List.map_append]
      exact List.mem_append_left _ hmem
  onto := by
    intro n hn
    show ∃ i, i < m.capacity_ ∧ write m.used_ e 1 i = 1 ∧
      write m.storage_ e (some m.fresh_) i = some n.1
    rcases List.mem_append.mp hn with h | h
    · obtain ⟨i, hi, hu, hs⟩ := hL.onto n h
      have hie : i ≠ e := fun hh => h1 (hh ▸ hu)
      exact ⟨i, hi, by rw [write_ne _ _ hie]; exact hu, by rw [write_ne _ _ hie]; exact hs⟩
    · simp only [List.mem_singleton] at h
      subst h
      exact ⟨e, he, write_same _ _ _, write_same _ _ _⟩
  pos_ids := by
    show ((m.used_positions_ ++ [(m.fresh_ + 1, e)]).map Prod.fst).Nodup
    rw [List.map_append, List.nodup_append]
    refine ⟨hL.pos_ids, by simp, ?_⟩
    intro a ha hb
    simp only [List.map_cons, List.map_nil, List.mem_singleton] at hb
    obtain ⟨n, hn, rfl⟩ := List.mem_map.mp ha
    have := hL.pos_fresh n hn
    omega
  pos_fresh := by
    intro n hn
    show n.1 < m.fresh_ + 2
    rcases List.mem_append.mp hn with h | h
    · have := hL.pos_fresh n h; omega
    · simp only [List.mem_singleton] at h
      subst h
      show m.fresh_ + 1 < m.fresh_ + 2
      omega
  pos_mem := by
    intro n hn
    show n.2 < m.capacity_ ∧ write m.used_ e 1 n.2 = 1 ∧
      write m.mark_indexes_ e (some (m.fresh_ + 1)) n.2 = some n.1
    rcases List.mem_append.mp hn with h | h
    · obtain ⟨hi, hu, hmk⟩ := hL.pos_mem n h
      have hie : n.2 ≠ e := fun hh => h1 (hh ▸ hu)
      exact ⟨hi, by rw [write_ne _ _ hie]; exact hu, by rw [write_ne _ _ hie]; exact hmk⟩
    · simp only [List.mem_singleton] at h
      subst h
      exact ⟨he, write_same _ _ _, write_same _ _ _⟩
  pos_occ := by
    intro i hi hu
    show ∃ mark, write m.mark_indexes_ e (some (m.fresh_ + 1)) i = some mark ∧
      (mark, i) ∈ m.used_positions_ ++ [(m.fresh_ + 1, e)]
    by_cases hie : i = e
    · subst hie
      exact ⟨m.fresh_ + 1, write_same _ _ _, by simp⟩
    · have hu2 : m.used_ i = 1 := by
        have : write m.used_ e 1 i = 1 := hu
        rwa [write_ne _ _ hie] at this
      obtain ⟨mk, hs, hmem⟩ := hL.pos_occ i hi hu2
      exact ⟨mk, by rw [write_ne _ _ hie]; exact hs, List.mem_append_left _ hmem⟩

theorem fresh_not_mem {m : HashMap K V} (hL : Loc m) : m.fresh_ ∉ m.pairs_.map Prod.fst := by
  intro h
  obtain ⟨n, hn, he⟩ := List.mem_map.mp h
  have := hL.fresh n hn
  omega

theorem record_at_place_same {m : HashMap K V} (hL : Loc m) (e : Nat) (k : K) (v : V) :
    record_at (HashMap.place m e k v) e = some (k, v) := by
  have hu : (HashMap.place m e k v).used_ e = 1 := write_same _ _ _
  rw [record_at_of_used hu]
  show (write m.storage_ e (some m.fresh_) e).bind (deref (m.pairs_ ++ [(m.fresh_, k, v)])) = _
  rw [write_same]
  exact deref_append_fresh (k, v) (fresh_not_mem hL)

theorem record_at_place_ne {m : HashMap K V} (hL : Loc m) {e j : Nat} (hj : j < m.capacity_)
    (hne : j ≠ e) (k : K) (v : V) :
    record_at (HashMap.place m e k v) j = record_at m j := by
  unfold record_at
  show (if write m.used_ e 1 j = 1 then
      (write m.storage_ e (some m.fresh_) j).bind (deref (m.pairs_ ++ [(m.fresh_, k, v)]))
    else none) = _
  rw [write_ne _ _ hne, write_ne _ _ hne]
  by_cases hu : m.used_ j = 1
  · rw [if_pos hu, if_pos hu]
    obtain ⟨it, hs, hmem⟩ := hL.occ j hj hu
    obtain ⟨p, hp⟩ := Option.isSome_iff_exists.mp (deref_isSome_iff.mpr hmem)
    rw [hs]
    show deref (m.pairs_ ++ [(m.fresh_, k, v)]) it = deref m.pairs_ it
    rw [hp]
    exact deref_append_of_some hp _
  · rw [if_neg hu, if_neg hu]

theorem check_overload_iff (m : HashMap K V) :
    HashMap.check_overload m = true ↔ m.capacity_ < 2 * m.current_workload_ := by
  simp only [HashMap.check_overload, MAX_PERCENT, TOP_LOAD_FACTOR, decide_eq_true_eq]
  omega

theorem check_overload_false_iff (m : HashMap K V) :
    HashMap.check_overload m = false ↔ 2 * m.current_workload_ ≤ m.capacity_ := by
  rw [← Bool.not_eq_true, check_overload_iff]
  omega

end Place

section PlaceProbe

variable {K V : Type} [DecidableEq K]

theorem probe_condition_place_ne {m : HashMap K V} (hL : Loc m) {e j : Nat} (hne : j ≠ e)
    (k : K) (v : V) (key : K) :
    HashMap.probe_condition (HashMap.place m e k v) key j = HashMap.probe_condition m key j := by
  rw [probe_condition_eq, probe_condition_eq]
  show (if j < m.capacity_ then
      if write m.used_ e 1 j = 2 then some true
      else if write m.used_ e 1 j = 1 then
        (record_at (HashMap.place m e k v) j).map (fun p => decide (¬ p.1 = key))
      else some false
    else none) = _
  by_cases hj : j < m.capacity_
  · rw [write_ne _ _ hne, record_at_place_ne hL hj hne]
  · rw [if_neg hj, if_neg hj]

theorem create_pair_no_overload (hash : K → Nat) (d : Nat) {m : HashMap K V} {e : Nat}
    (he : e < m.capacity_) (k : K) (v : V)
    (h : HashMap.check_overload (HashMap.place m e k v) = false) :
    HashMap.create_pair hash d m e k v = some (HashMap.place m e k v, false) := by
  cases d <;> simp [HashMap.create_pair, he, h]

theorem create_pair_overload (hash : K → Nat) (d : Nat) {m : HashMap K V} {e : Nat}
    (he : e < m.capacity_) (k : K) (v : V)
    (h : HashMap.check_overload (HashMap.place m e k v) = true) :
    HashMap.create_pair hash (d + 1) m e k v =
      (HashMap.rebuild hash d (HashMap.place m e k v)
        ((HashMap.place m e k v).capacity_ * 2)).map (fun r => (r, true)) := by
  simp [HashMap.create_pair, he, h, HashMap.rebuild]

/-- Registering a record for `k` at the slot where the probe of `k` stopped on a free slot
keeps the table consistent and keeps every key at the end of its probe. -/
theorem core_place {hash : K → Nat} {m : HashMap K V} (hC : Core hash m) {k : K} {e : Nat}
    (hf : HashMap.find_position hash m k = some e) (h1 : m.used_ e ≠ 1) (v : V) :
    Core hash (HashMap.place m e k v) := by
  have hstop := find_position_stop hf
  obtain ⟨he, h2, _⟩ := probe_condition_false hstop
  have hfree : ∀ key, HashMap.probe_condition m key e = some false :=
    fun key => probe_condition_free key he h1 h2
  have hcap : (HashMap.place m e k v).capacity_ = m.capacity_ := rfl
  refine ⟨loc_place hC.loc he h1 h2 k v, hC.cap, ?_⟩
  intro i p hi hr
  have hi2 : i < m.capacity_ := hi
  have hpath : ∀ j, HashMap.probe_condition m p.1 j = some true →
      HashMap.probe_condition (HashMap.place m e k v) p.1 j = some true := by
    intro j hj
    have hje : j ≠ e := by
      intro hh
      rw [hh, hfree] at hj
      cases hj
    rw [probe_condition_place_ne hC.loc hje]
    exact hj
  by_cases hie : i = e
  · subst hie
    rw [record_at_place_same hC.loc] at hr
    cases hr
    refine find_position_transfer hcap hf ?_ hpath
    rw [probe_condition_record k hi (record_at_place_same hC.loc i k v)]
    simp
  · rw [record_at_place_ne hC.loc hi2 hie] at hr
    have hfi := hC.probe i p hi2 hr
    refine find_position_transfer hcap hfi ?_ hpath
    rw [probe_condition_place_ne hC.loc hie]
    exact find_position_stop hfi

end PlaceProbe

/-! ## Records and slots of a consistent table -/

section Content

variable {K V : Type}

theorem record_at_eq_some_iff {m : HashMap K V} {i : Nat} {p : K × V} :
    record_at m i = some p ↔
      m.used_ i = 1 ∧ ∃ it, m.storage_ i = some it ∧ deref m.pairs_ it = some p := by
  constructor
  · intro h
    have hu := record_at_used h
    rw [record_at_of_used hu] at h
    cases hs : m.storage_ i with
    | none => rw [hs] at h; cases h
    | some it =>
      rw [hs] at h
      exact ⟨hu, it, rfl, h⟩
  · rintro ⟨hu, it, hs, hd⟩
    rw [record_at_of_used hu, hs]
    exact hd

theorem record_at_isSome {m : HashMap K V} (hL : Loc m) {i : Nat} (hi : i < m.capacity_)
    (hu : m.used_ i = 1) : ∃ p, record_at m i = some p := by
  obtain ⟨it, hs, hmem⟩ := hL.occ i hi hu
  obtain ⟨p, hp⟩ := Option.isSome_iff_exists.mp (deref_isSome_iff.mpr hmem)
  exact ⟨p, record_at_eq_some_iff.mpr ⟨hu, it, hs, hp⟩⟩

theorem mem_traverse_iff {m : HashMap K V} (hL : Loc m) (p : K × V) :
    p ∈ HashMap.traverse m ↔ ∃ i, i < m.capacity_ ∧ record_at m i = some p := by
  unfold HashMap.traverse
  constructor
  · intro h
    obtain ⟨n, hn, rfl⟩ := List.mem_map.mp h
    obtain ⟨i, hi, hu, hs⟩ := hL.onto n hn
    exact ⟨i, hi, record_at_eq_some_iff.mpr ⟨hu, n.1, hs, deref_of_mem hL.ids hn⟩⟩
  · rintro ⟨i, _, h⟩
    obtain ⟨_, it, _, hd⟩ := record_at_eq_some_iff.mp h
    exact List.mem_map.mpr ⟨(it, p), deref_some_mem hd, rfl⟩

theorem slot_records_succ (m : HashMap K V) (n : Nat) :
    slot_records m (n + 1) = slot_records m n ++ (record_at m n).toList := by
  unfold slot_records
  rw [List.range_succ, List.filterMap_append]
  cases h : record_at m n <;> simp [List.filterMap_cons, h]

theorem mem_slot_records_iff (m : HashMap K V) (n : Nat) (p : K × V) :
    p ∈ slot_records m n ↔ ∃ i, i < n ∧ record_at m i = some p := by
  unfold slot_records
  rw [List.mem_filterMap]
  constructor
  · rintro ⟨i, hi, h⟩
    exact ⟨i, List.mem_range.mp hi, h⟩
  · rintro ⟨i, hi, h⟩
    exact ⟨i, List.mem_range.mpr hi, h⟩

theorem length_slot_records_le (m : HashMap K V) (n : Nat) :
    (slot_records m n).length ≤ n := by
  unfold slot_records
  have := List.length_filterMap_le (record_at m) (List.range n)
  rwa [List.length_range] at this

end Content

section Keys

variable {K V : Type} [DecidableEq K]

/-- Two occupied slots whose records have the same key are the same slot. -/
theorem slot_unique {hash : K → Nat} {m : HashMap K V} (hC : Core hash m) {i j : Nat}
    {p q : K × V} (hi : i < m.capacity_) (hj : j < m.capacity_)
    (hp : record_at m i = some p) (hq : record_at m j = some q) (hk : p.1 = q.1) : i = j := by
  have h1 := hC.probe i p hi hp
  have h2 := hC.probe j q hj hq
  rw [hk, h2] at h1
  exact (Option.some.inj h1).symm

theorem traverse_keys_nodup {hash : K → Nat} {m : HashMap K V} (hC : Core hash m) :
    ((HashMap.traverse m).map Prod.fst).Nodup := by
  unfold HashMap.traverse
  rw [List.map_map]
  refine List.Nodup.map_on ?_ (List.Nodup.of_map _ hC.loc.ids)
  intro a ha b hb hab
  obtain ⟨i, hi, hui, hsi⟩ := hC.loc.onto a ha
  obtain ⟨j, hj, huj, hsj⟩ := hC.loc.onto b hb
  have hra : record_at m i = some a.2 :=
    record_at_eq_some_iff.mpr ⟨hui, a.1, hsi, deref_of_mem hC.loc.ids ha⟩
  have hrb : record_at m j = some b.2 :=
    record_at_eq_some_iff.mpr ⟨huj, b.1, hsj, deref_of_mem hC.loc.ids hb⟩
  have hij := slot_unique hC hi hj hra hrb hab
  subst hij
  rw [hra] at hrb
  have h2 : a.2 = b.2 := Option.some.inj hrb
  have h1 : a.1 = b.1 := by
    rw [hsi] at hsj
    exact Option.some.inj hsj
  exact Prod.ext h1 h2

theorem traverse_nodup {hash : K → Nat} {m : HashMap K V} (hC : Core hash m) :
    (HashMap.traverse m).Nodup :=
  List.Nodup.of_map _ (traverse_keys_nodup hC)

theorem slot_records_nodup {hash : K → Nat} {m : HashMap K V} (hC : Core hash m) {n : Nat}
    (hn : n ≤ m.capacity_) : (slot_records m n).Nodup := by
  induction n with
  | zero => simp [slot_records]
  | succ n ih =>
    rw [slot_records_succ]
    cases hr : record_at m n with
    | none => simpa using ih (by omega)
    | some p =>
      rw [Option.toList_some, List.nodup_append]
      refine ⟨ih (by omega), List.nodup_singleton _, ?_⟩
      intro q hq hq2
      rw [List.mem_singleton] at hq2
      subst hq2
      obtain ⟨j, hj, hrj⟩ := (mem_slot_records_iff m n q).mp hq
      have := slot_unique hC (by omega) (by omega) hrj hr rfl
      omega

/-- The occupied slots, read by increasing index, hold the records of the list. -/
theorem slot_records_perm {hash : K → Nat} {m : HashMap K V} (hC : Core hash m) :
    (slot_records m m.capacity_).Perm (HashMap.traverse m) := by
  rw [List.perm_ext_iff_of_nodup (slot_records_nodup hC (Nat.le_refl _)) (traverse_nodup hC)]
  intro p
  rw [mem_slot_records_iff, mem_traverse_iff hC.loc]

end Keys

/-! ## Rebuild -/

section Fresh

variable {K V : Type}

theorem traverse_place (m : HashMap K V) (e : Nat) (k : K) (v : V) :
    HashMap.traverse (HashMap.place m e k v) = HashMap.traverse m ++ [(k, v)] := by
  simp [HashMap.traverse, HashMap.place]

theorem loc_initial_memory (f c : Nat) :
    Loc (HashMap.initial_memory (HashMap.blank f) c : HashMap K V) where
  size := rfl
  pos_len := rfl
  count1 := by
    show count_slots c (fun _ => decide ((0 : Nat) = 1)) = 0
    simpa using count_slots_false c
  count12 := by
    show count_slots c (fun _ => decide ((0 : Nat) = 1 ∨ (0 : Nat) = 2)) = 0
    simpa using count_slots_false c
  ids := List.nodup_nil
  fresh := by intro n hn; cases hn
  occ := by
    intro i _ h
    have h0 : (0 : Nat) = 1 := h
    omega
  onto := by intro n hn; cases hn
  pos_ids := List.nodup_nil
  pos_fresh := by intro n hn; cases hn
  pos_mem := by intro n hn; cases hn
  pos_occ := by
    intro i _ h
    have h0 : (0 : Nat) = 1 := h
    omega

end Fresh

section Rebuild

variable {K V : Type} [DecidableEq K]

theorem inv_initial_memory (hash : K → Nat) (f : Nat) {c : Nat}
    (hc : ∃ j, c = INITIAL_SIZE * 2 ^ j) :
    Inv hash (HashMap.initial_memory (HashMap.blank f) c : HashMap K V) := by
  refine ⟨⟨loc_initial_memory f c, hc, ?_⟩, Nat.zero_le _⟩
  intro i p _ hr
  have h0 : (0 : Nat) = 1 := record_at_used hr
  omega

theorem inv_init (hash : K → Nat) : Inv hash (HashMap.init : HashMap K V) :=
  inv_initial_memory hash 0 ⟨0, rfl⟩

theorem capacity_double {c : Nat} (hc : ∃ j, c = INITIAL_SIZE * 2 ^ j) :
    ∃ j, c * 2 = INITIAL_SIZE * 2 ^ j := by
  obtain ⟨j, rfl⟩ := hc
  exact ⟨j + 1, by rw [pow_succ]; ring⟩

/-- The loop of `rebuild` over the first `n` slots of the old table: it registers their
records in the new table, in this order, and never starts a nested rebuild. -/
theorem rebuild_loop {hash : K → Nat} (d : Nat) {old : HashMap K V} (hC : Core hash old)
    (n : Nat) (hn : n ≤ old.capacity_) :
    ∃ cur, (List.range n).foldlM (HashMap.rebuild_step hash (HashMap.create_pair hash d) old)
        (HashMap.initial_memory (HashMap.blank old.fresh_) (old.capacity_ * 2)) = some cur ∧
      Inv hash cur ∧ cur.capacity_ = old.capacity_ * 2 ∧
      cur.current_workload_ = cur.size_ ∧
      HashMap.traverse cur = slot_records old n ∧ (∀ i, cur.used_ i ≠ 2) ∧
      (∀ x ∈ cur.pairs_, old.fresh_ ≤ x.1) ∧ old.fresh_ ≤ cur.fresh_ := by
  induction n with
  | zero =>
    refine ⟨_, rfl, inv_initial_memory hash _ (capacity_double hC.cap), rfl, rfl, rfl, ?_,
      ?_, Nat.le_refl _⟩
    · intro i h
      have h0 : (0 : Nat) = 2 := h
      omega
    · intro x hx
      cases hx
  | succ n ih =>
    obtain ⟨cur, hfold, hI, hcap, hws, htr, hno, hnew, hfr⟩ := ih (by omega)
    rw [List.range_succ, List.foldlM_append, hfold]
    simp only [Option.some_bind, List.foldlM_cons, List.foldlM_nil, Option.pure_def,
      Option.bind_eq_bind, Option.bind_some]
    have hsize : cur.size_ ≤ n := by
      have h1 : cur.size_ = (HashMap.traverse cur).length := by
        rw [hI.core.loc.size]; simp [HashMap.traverse]
      rw [h1, htr]
      exact length_slot_records_le old n
    by_cases hu : old.used_ n = 1
    · obtain ⟨p, hp⟩ := record_at_isSome hC.loc (by omega : n < old.capacity_) hu
      obtain ⟨_, it, hs, hd⟩ := record_at_eq_some_iff.mp hp
      obtain ⟨e, hf⟩ := find_position_total hash hI.core.loc hI.core.cap
        (by rw [hws, hcap]; omega) p.1
      have he : e < cur.capacity_ := find_position_lt hf
      have h1 : cur.used_ e ≠ 1 := by
        intro h1
        obtain ⟨_, _, hrec⟩ := probe_condition_false (find_position_stop hf)
        obtain ⟨v, hv⟩ := hrec h1
        have hmem : (p.1, v) ∈ HashMap.traverse cur :=
          (mem_traverse_iff hI.core.loc _).mpr ⟨e, he, hv⟩
        rw [htr] at hmem
        obtain ⟨j, hj, hrj⟩ := (mem_slot_records_iff old n _).mp hmem
        have := slot_unique hC (by omega) (by omega) hrj hp rfl
        omega
      have hov : HashMap.check_overload (HashMap.place cur e p.1 p.2) = false := by
        rw [check_overload_false_iff]
        show 2 * (cur.current_workload_ + 1) ≤ cur.capacity_
        rw [hws, hcap]; omega
      refine ⟨HashMap.place cur e p.1 p.2, ?_, ⟨core_place hI.core hf h1 p.2, ?_⟩, hcap, ?_, ?_, ?_,
        ?_, ?_⟩
      · simp only [HashMap.rebuild_step, if_pos hu, hs, hd, hf,
          create_pair_no_overload hash d he p.1 p.2 hov, Option.map_some']
      · exact (check_overload_false_iff _).mp hov
      · show cur.current_workload_ + 1 = cur.size_ + 1
        rw [hws]
      · rw [traverse_place, htr, slot_records_succ, hp]
        rfl
      · intro i
        show write cur.used_ e 1 i ≠ 2
        by_cases hie : i = e
        · subst hie; rw [write_same]; decide
        · rw [write_ne _ _ hie]; exact hno i
      · intro x hx
        have hx2 : x ∈ cur.pairs_ ++ [(cur.fresh_, p.1, p.2)] := hx
        rcases List.mem_append.mp hx2 with h | h
        · exact hnew x h
        · rw [List.mem_singleton] at h
          rw [h]
          exact hfr
      · show old.fresh_ ≤ cur.fresh_ + 2
        omega
    · refine ⟨cur, ?_, hI, hcap, hws, ?_, hno, hnew, hfr⟩
      · simp only [HashMap.rebuild_step, if_neg hu]
      · have : record_at old n = none := by simp [record_at, hu]
        rw [htr, slot_records_succ, this]
        simp

/-- The call `rebuild(capacity_ * 2)` returns; the new table satisfies the invariant, has
no tombstone, and its list holds the records of the old occupied slots by increasing index. -/
theorem rebuild_spec {hash : K → Nat} (d : Nat) {old : HashMap K V} (hC : Core hash old) :
    ∃ r, HashMap.rebuild hash d old (old.capacity_ * 2) = some r ∧
      Inv hash r ∧ r.capacity_ = old.capacity_ * 2 ∧
      r.current_workload_ = r.size_ ∧
      HashMap.traverse r = slot_records old old.capacity_ ∧ (∀ i, r.used_ i ≠ 2) ∧
      (∀ x ∈ r.pairs_, old.fresh_ ≤ x.1) ∧ old.fresh_ ≤ r.fresh_ :=
  rebuild_loop d hC old.capacity_ (Nat.le_refl _)

end Rebuild

/-! ## Lookup and insertion on a table that satisfies the invariant -/

section Membership

variable {K V : Type}

/-- A key has a record or has none. -/
theorem mem_or_not_mem (m : HashMap K V) (k : K) :
    (∃ v, (k, v) ∈ HashMap.traverse m) ∨ ∀ v, (k, v) ∉ HashMap.traverse m := by
  by_cases h : ∃ v, (k, v) ∈ HashMap.traverse m
  · exact Or.inl h
  · exact Or.inr (fun v hv => h ⟨v, hv⟩)

end Membership

section Lookup

variable {K V : Type} [DecidableEq K]

theorem workload_lt {hash : K → Nat} {m : HashMap K V} (hI : Inv hash m) :
    m.current_workload_ < m.capacity_ := by
  have := capacity_pos hI.core.cap
  have := hI.load
  omega

theorem find_position_of_inv {hash : K → Nat} {m : HashMap K V} (hI : Inv hash m) (key : K) :
    ∃ i, HashMap.find_position hash m key = some i :=
  find_position_total hash hI.core.loc hI.core.cap (workload_lt hI) key

/-- The probe of a key that has a record stops at the slot of this record. -/
theorem find_position_of_mem {hash : K → Nat} {m : HashMap K V} (hC : Core hash m) {k : K}
    {v : V} (h : (k, v) ∈ HashMap.traverse m) :
    ∃ i it, HashMap.find_position hash m k = some i ∧ i < m.capacity_ ∧ m.used_ i = 1 ∧
      m.storage_ i = some it ∧ deref m.pairs_ it = some (k, v) := by
  obtain ⟨i, hi, hr⟩ := (mem_traverse_iff hC.loc _).mp h
  obtain ⟨hu, it, hs, hd⟩ := record_at_eq_some_iff.mp hr
  exact ⟨i, it, hC.probe i _ hi hr, hi, hu, hs, hd⟩

/-- The probe of a key without record stops at a slot that is not occupied. -/
theorem find_position_of_not_mem {hash : K → Nat} {m : HashMap K V} (hI : Inv hash m) {k : K}
    (h : ∀ v, (k, v) ∉ HashMap.traverse m) :
    ∃ i, HashMap.find_position hash m k = some i ∧ i < m.capacity_ ∧ m.used_ i ≠ 1 := by
  obtain ⟨i, hf⟩ := find_position_of_inv hI k
  refine ⟨i, hf, find_position_lt hf, ?_⟩
  intro hu
  obtain ⟨hi, _, hrec⟩ := probe_condition_false (find_position_stop hf)
  obtain ⟨v, hv⟩ := hrec hu
  exact h v ((mem_traverse_iff hI.core.loc _).mpr ⟨i, hi, hv⟩)

theorem at_of_mem {hash : K → Nat} {m : HashMap K V} (hC : Core hash m) {k : K} {v : V}
    (h : (k, v) ∈ HashMap.traverse m) : HashMap.at_ hash m k = some (AtResult.value v) := by
  obtain ⟨i, it, hf, _, hu, hs, hd⟩ := find_position_of_mem hC h
  simp [HashMap.at_, hf, hu, hs, hd]

theorem at_of_not_mem {hash : K → Nat} {m : HashMap K V} (hI : Inv hash m) {k : K}
    (h : ∀ v, (k, v) ∉ HashMap.traverse m) :
    HashMap.at_ hash m k = some AtResult.out_of_range := by
  obtain ⟨i, hf, _, hu⟩ := find_position_of_not_mem hI h
  simp [HashMap.at_, hf, hu]

theorem find_of_mem {hash : K → Nat} {m : HashMap K V} (hC : Core hash m) {k : K} {v : V}
    (h : (k, v) ∈ HashMap.traverse m) :
    ∃ it, HashMap.find hash m k = some (Iterator.node it) ∧
      deref m.pairs_ it = some (k, v) := by
  obtain ⟨i, it, hf, _, hu, hs, hd⟩ := find_position_of_mem hC h
  exact ⟨it, by simp [HashMap.find, hf, hu, hs], hd⟩

theorem find_of_not_mem {hash : K → Nat} {m : HashMap K V} (hI : Inv hash m) {k : K}
    (h : ∀ v, (k, v) ∉ HashMap.traverse m) :
    HashMap.find hash m k = some Iterator.past_the_end := by
  obtain ⟨i, hf, _, hu⟩ := find_position_of_not_mem hI h
  simp [HashMap.find, hf, hu, HashMap.end_]

theorem value_unique {hash : K → Nat} {m : HashMap K V} (hC : Core hash m) {k : K} {v w : V}
    (hv : (k, v) ∈ HashMap.traverse m) (hw : (k, w) ∈ HashMap.traverse m) : v = w := by
  have h1 := at_of_mem hC hv
  rw [at_of_mem hC hw] at h1
  cases h1
  rfl

end Lookup

section Create

variable {K V : Type} [DecidableEq K]

/-- The call of `create_pair` made by `insert` and `operator[]` for a key without record:
it returns, the invariant holds again, and either nothing but the registration of the new
record happened, or the table was rebuilt at twice the capacity. -/
theorem create_pair_spec {hash : K → Nat} {m : HashMap K V} (hI : Inv hash m) {k : K}
    {e : Nat} (hf : HashMap.find_position hash m k = some e) (h1 : m.used_ e ≠ 1) (v : V)
    (d : Nat) :
    ∃ r b, HashMap.create_pair hash (d + 1) m e k v = some (r, b) ∧ Inv hash r ∧
      ((b = false ∧ r = HashMap.place m e k v) ∨
        (b = true ∧ r.capacity_ = m.capacity_ * 2 ∧ r.current_workload_ = r.size_ ∧
          HashMap.traverse r = slot_records (HashMap.place m e k v) m.capacity_ ∧
          (∀ i, r.used_ i ≠ 2) ∧ (∀ x ∈ r.pairs_, m.fresh_ + 2 ≤ x.1))) := by
  have he : e < m.capacity_ := find_position_lt hf
  have hC := core_place hI.core hf h1 v
  cases hov : HashMap.check_overload (HashMap.place m e k v) with
  | false =>
    refine ⟨_, false, create_pair_no_overload hash (d + 1) he k v hov, ⟨hC, ?_⟩,
      Or.inl ⟨rfl, rfl⟩⟩
    exact (check_overload_false_iff _).mp hov
  | true =>
    obtain ⟨r, hr, hIr, hcap, hws, htr, hno, hnew, _⟩ := rebuild_spec d hC
    refine ⟨r, true, ?_, hIr, Or.inr ⟨rfl, hcap, hws, htr, hno, hnew⟩⟩
    rw [create_pair_overload hash d he k v hov, hr]
    rfl

/-- After `create_pair` the list holds the old records and the new one. -/
theorem create_pair_perm {hash : K → Nat} {m : HashMap K V} (hI : Inv hash m) {k : K}
    {e : Nat} (hf : HashMap.find_position hash m k = some e) (h1 : m.used_ e ≠ 1) (v : V)
    {d : Nat} {r : HashMap K V} {b : Bool}
    (h : HashMap.create_pair hash (d + 1) m e k v = some (r, b)) :
    Inv hash r ∧ (HashMap.traverse r).Perm (HashMap.traverse m ++ [(k, v)]) ∧
      r.size_ = m.size_ + 1 ∧ m.capacity_ ≤ r.capacity_ := by
  obtain ⟨r2, b2, h2, hIr, hcase⟩ := create_pair_spec hI hf h1 v d
  rw [h] at h2
  cases h2
  have hperm : (HashMap.traverse r).Perm (HashMap.traverse m ++ [(k, v)]) := by
    rcases hcase with ⟨_, hr⟩ | ⟨_, _, _, htr, _⟩
    · rw [hr, traverse_place]
    · rw [htr, ← traverse_place m e k v]
      exact slot_records_perm (core_place hI.core hf h1 v)
  refine ⟨hIr, hperm, ?_, ?_⟩
  · have h3 : r.size_ = (HashMap.traverse r).length := by
      rw [hIr.core.loc.size]; simp [HashMap.traverse]
    have h4 : m.size_ = (HashMap.traverse m).length := by
      rw [hI.core.loc.size]; simp [HashMap.traverse]
    rw [h3, hperm.length_eq, h4]
    simp
  · rcases hcase with ⟨_, hr⟩ | ⟨_, hcap, _⟩
    · rw [hr]; exact Nat.le_refl _
    · rw [hcap]; omega

theorem insert_present {hash : K → Nat} {m : HashMap K V} (hC : Core hash m) {k : K} {v : V}
    (h : (k, v) ∈ HashMap.traverse m) (w : V) : HashMap.insert hash m (k, w) = some m := by
  obtain ⟨i, it, hf, _, hu, _, _⟩ := find_position_of_mem hC h
  simp [HashMap.insert, hf, hu]

theorem insert_absent {hash : K → Nat} {m : HashMap K V} (hI : Inv hash m) {k : K}
    (h : ∀ v, (k, v) ∉ HashMap.traverse m) (w : V) :
    ∃ r e b, HashMap.find_position hash m k = some e ∧ m.used_ e ≠ 1 ∧
      HashMap.create_pair hash HashMap.NESTING m e k w = some (r, b) ∧
      HashMap.insert hash m (k, w) = some r := by
  obtain ⟨e, hf, _, hu⟩ := find_position_of_not_mem hI h
  obtain ⟨r, b, hcp, _⟩ := create_pair_spec hI hf hu w 1
  refine ⟨r, e, b, hf, hu, hcp, ?_⟩
  have hcp2 : HashMap.create_pair hash HashMap.NESTING m e k w = some (r, b) := hcp
  simp [HashMap.insert, hf, hu, hcp2]

end Create

/-! ## Erase -/

section Erased

variable {K V : Type}

theorem record_at_erased_self (m : HashMap K V) (i it mark : Nat) :
    record_at (erased m i it mark) i = none := by
  unfold record_at
  have : (erased m i it mark).used_ i = 2 := write_same _ _ _
  rw [this]
  rfl

theorem mem_filter_other {α : Type} {l : List (Nat × α)} {it : Nat} {n : Nat × α} :
    n ∈ l.filter (is_other it) ↔ n ∈ l ∧ n.1 ≠ it := by
  rw [List.mem_filter]
  simp [is_other]

end Erased

section Erase

variable {K V : Type} [DecidableEq K]

theorem storage_unique {hash : K → Nat} {m : HashMap K V} (hC : Core hash m) {i j it : Nat}
    (hi : i < m.capacity_) (hj : j < m.capacity_) (hui : m.used_ i = 1) (huj : m.used_ j = 1)
    (hsi : m.storage_ i = some it) (hsj : m.storage_ j = some it) : i = j := by
  obtain ⟨p, hp⟩ := record_at_isSome hC.loc hi hui
  have hq : record_at m j = some p := by
    rw [record_at_of_used huj, hsj, ← hsi, ← record_at_of_used hui]
    exact hp
  exact slot_unique hC hi hj hp hq rfl

theorem record_at_erased {hash : K → Nat} {m : HashMap K V} (hC : Core hash m)
    {i it mark : Nat} (hi : i < m.capacity_) (hu : m.used_ i = 1)
    (hs : m.storage_ i = some it) {j : Nat} (hj : j < m.capacity_) (hne : j ≠ i) :
    record_at (erased m i it mark) j = record_at m j := by
  unfold record_at
  show (if write m.used_ i 2 j = 1 then
      (m.storage_ j).bind (deref (m.pairs_.filter (is_other it))) else none) = _
  rw [write_ne _ _ hne]
  by_cases huj : m.used_ j = 1
  · rw [if_pos huj, if_pos huj]
    obtain ⟨it2, hs2, _⟩ := hC.loc.occ j hj huj
    rw [hs2]
    show deref (m.pairs_.filter (is_other it)) it2 = deref m.pairs_ it2
    apply deref_filter_ne
    intro h
    subst h
    exact hne (storage_unique hC hj hi huj hu hs2 hs)
  · rw [if_neg huj, if_neg huj]

theorem loc_erased {hash : K → Nat} {m : HashMap K V} (hC : Core hash m)
    {i it mark : Nat} (hi : i < m.capacity_) (hu : m.used_ i = 1)
    (hs : m.storage_ i = some it) (hit : it ∈ m.pairs_.map Prod.fst)
    (hmk : m.mark_indexes_ i = some mark) (hmem : (mark, i) ∈ m.used_positions_) :
    Loc (erased m i it mark) := by
  have hL := hC.loc
  have hlen1 := length_filter_ne hL.ids hit
  have hmk2 : mark ∈ m.used_positions_.map Prod.fst := List.mem_map_of_mem Prod.fst hmem
  have hlen2 := length_filter_ne hL.pos_ids hmk2
  have hsz := hL.size
  have hpl := hL.pos_len
  refine ⟨?_, ?_, ?_, ?_, nodup_filter_ids hL.ids _, ?_, ?_, ?_, nodup_filter_ids hL.pos_ids _,
    ?_, ?_, ?_⟩
  · show m.size_ - 1 = (m.pairs_.filter (is_other it)).length
    omega
  · show (m.used_positions_.filter (is_other mark)).length = m.size_ - 1
    omega
  · have := count_slots_write hi m.used_ 2 (fun x => decide (x = 1))
    simp only [decide_eq_true_eq, if_pos hu] at this
    have h2 := hL.count1
    show count_slots m.capacity_ (fun j => decide (write m.used_ i 2 j = 1)) = m.size_ - 1
    rw [if_neg (by decide)] at this
    omega
  · have := count_slots_write hi m.used_ 2 (fun x => decide (x = 1 ∨ x = 2))
    have h1 : m.used_ i = 1 ∨ m.used_ i = 2 := Or.inl hu
    simp only [decide_eq_true_eq, if_pos h1] at this
    have h2 := hL.count12
    show count_slots m.capacity_ (fun j => decide (write m.used_ i 2 j = 1 ∨
      write m.used_ i 2 j = 2)) = m.current_workload_
    rw [if_pos (by simp)] at this
    omega
  · intro n hn
    exact hL.fresh n (mem_filter_other.mp hn).1
  · intro j hj huj
    have hne : j ≠ i := by
      intro h
      subst h
      have : write m.used_ j 2 j = 1 := huj
      rw [write_same] at this
      omega
    have huj2 : m.used_ j = 1 := by
      have : write m.used_ i 2 j = 1 := huj
      rwa [write_ne _ _ hne] at this
    obtain ⟨it2, hs2, hmem2⟩ := hL.occ j hj huj2
    refine ⟨it2, hs2, ?_⟩
    obtain ⟨n, hn, hn1⟩ := List.mem_map.mp hmem2
    refine List.mem_map.mpr ⟨n, mem_filter_other.mpr ⟨hn, ?_⟩, hn1⟩
    intro h
    rw [hn1] at h
    subst h
    exact hne (storage_unique hC hj hi huj2 hu hs2 hs)
  · intro n hn
    obtain ⟨hn1, hn2⟩ := mem_filter_other.mp hn
    obtain ⟨j, hj, huj, hsj⟩ := hL.onto n hn1
    have hne : j ≠ i := by
      intro h
      subst h
      rw [hs] at hsj
      exact hn2 (Option.some.inj hsj).symm
    exact ⟨j, hj, by show write m.used_ i 2 j = 1; rw [write_ne _ _ hne]; exact huj, hsj⟩
  · intro n hn
    exact hL.pos_fresh n (mem_filter_other.mp hn).1
  · intro n hn
    obtain ⟨hn1, hn2⟩ := mem_filter_other.mp hn
    obtain ⟨hj, huj, hmj⟩ := hL.pos_mem n hn1
    have hne : n.2 ≠ i := by
      intro h
      rw [h, hmk] at hmj
      exact hn2 (Option.some.inj hmj).symm
    exact ⟨hj, by show write m.used_ i 2 n.2 = 1; rw [write_ne _ _ hne]; exact huj, hmj⟩
  · intro j hj huj
    have hne : j ≠ i := by
      intro h
      subst h
      have : write m.used_ j 2 j = 1 := huj
      rw [write_same] at this
      omega
    have huj2 : m.used_ j = 1 := by
      have : write m.used_ i 2 j = 1 := huj
      rwa [write_ne _ _ hne] at this
    obtain ⟨mk2, hm2, hmem2⟩ := hL.pos_occ j hj huj2
    refine ⟨mk2, hm2, mem_filter_other.mpr ⟨hmem2, ?_⟩⟩
    intro h
    have h3 : mk2 = mark := h
    subst h3
    have h1 := deref_of_mem hL.pos_ids hmem
    have h2 := deref_of_mem hL.pos_ids hmem2
    rw [h1] at h2
    exact hne (Option.some.inj h2).symm

/-- Erasing the record of an occupied slot keeps the invariant: the slot becomes a
tombstone, which the probes of the other keys pass as they passed the record. -/
theorem inv_erased {hash : K → Nat} {m : HashMap K V} (hI : Inv hash m)
    {i it mark : Nat} (hi : i < m.capacity_) (hu : m.used_ i = 1)
    (hs : m.storage_ i = some it) (hit : it ∈ m.pairs_.map Prod.fst)
    (hmk : m.mark_indexes_ i = some mark) (hmem : (mark, i) ∈ m.used_positions_) :
    Inv hash (erased m i it mark) := by
  have hC := hI.core
  have hcap : (erased m i it mark).capacity_ = m.capacity_ := rfl
  refine ⟨⟨loc_erased hC hi hu hs hit hmk hmem, hC.cap, ?_⟩, hI.load⟩
  intro j p hj hr
  have hj2 : j < m.capacity_ := hj
  have hne : j ≠ i := by
    intro h
    subst h
    rw [record_at_erased_self] at hr
    cases hr
  have hr2 : record_at m j = some p := by
    rw [← @record_at_erased _ _ _ hash m hC i it mark hi hu hs j hj2 hne]
    exact hr
  refine find_position_transfer hcap (hC.probe j p hj2 hr2) ?_ ?_
  · rw [probe_condition_record p.1 hj hr]
    simp
  · intro l hl
    have hl2 : l < m.capacity_ := probe_condition_lt hl
    by_cases hli : l = i
    · subst hli
      exact probe_condition_tomb _ hl2 (write_same _ _ _)
    · rw [probe_condition_eq] at hl ⊢
      rw [if_pos hl2] at hl
      have hlc : l < (erased m i it mark).capacity_ := hl2
      rw [if_pos hlc]
      show (if write m.used_ i 2 l = 2 then some true
        else if write m.used_ i 2 l = 1 then
          (record_at (erased m i it mark) l).map (fun p_1 => decide (¬ p_1.1 = p.1))
        else some false) = some true
      rw [write_ne _ _ hli, record_at_erased hC hi hu hs hl2 hli]
      exact hl

theorem traverse_erased {hash : K → Nat} {m : HashMap K V} (hC : Core hash m)
    {i it mark : Nat} {k : K} {v : V} (hi : i < m.capacity_) (hu : m.used_ i = 1)
    (hs : m.storage_ i = some it) (hd : deref m.pairs_ it = some (k, v)) :
    HashMap.traverse (erased m i it mark) = (HashMap.traverse m).filter (other_key k) := by
  unfold HashMap.traverse
  show (m.pairs_.filter (is_other it)).map Prod.snd = _
  rw [List.filter_map]
  congr 1
  apply List.filter_congr
  intro n hn
  show is_other it n = other_key k n.2
  have hri : record_at m i = some (k, v) := record_at_eq_some_iff.mpr ⟨hu, it, hs, hd⟩
  by_cases h1 : n.1 = it
  · have h2 : deref m.pairs_ n.1 = some n.2 := deref_of_mem hC.loc.ids hn
    rw [h1, hd] at h2
    have h3 : n.2.1 = k := by rw [← Option.some.inj h2]
    simp [is_other, other_key, h1, h3]
  · have h3 : n.2.1 ≠ k := by
      intro h3
      obtain ⟨j, hj, huj, hsj⟩ := hC.loc.onto n hn
      have hrj : record_at m j = some n.2 :=
        record_at_eq_some_iff.mpr ⟨huj, n.1, hsj, deref_of_mem hC.loc.ids hn⟩
      have hji := slot_unique hC hj hi hrj hri h3
      subst hji
      rw [hs] at hsj
      exact h1 (Option.some.inj hsj).symm
    simp [is_other, other_key, h1, h3]

theorem erase_absent {hash : K → Nat} {m : HashMap K V} (hI : Inv hash m) {k : K}
    (h : ∀ v, (k, v) ∉ HashMap.traverse m) : HashMap.erase hash m k = some m := by
  obtain ⟨i, hf, _, hu⟩ := find_position_of_not_mem hI h
  simp [HashMap.erase, hf, hu]

/-- The call `erase(k)` for a key with a record at slot `i`. -/
theorem erase_present {hash : K → Nat} {m : HashMap K V} (hI : Inv hash m) {k : K} {v : V}
    (h : (k, v) ∈ HashMap.traverse m) :
    ∃ i it mark, HashMap.find_position hash m k = some i ∧ i < m.capacity_ ∧ m.used_ i = 1 ∧
      m.storage_ i = some it ∧ deref m.pairs_ it = some (k, v) ∧
      m.mark_indexes_ i = some mark ∧ (mark, i) ∈ m.used_positions_ ∧
      HashMap.erase hash m k = some (erased m i it mark) ∧
      Inv hash (erased m i it mark) ∧
      HashMap.traverse (erased m i it mark) = (HashMap.traverse m).filter (other_key k) := by
  obtain ⟨i, it, hf, hi, hu, hs, hd⟩ := find_position_of_mem hI.core h
  obtain ⟨mark, hmk, hmem⟩ := hI.core.loc.pos_occ i hi hu
  have hit : it ∈ m.pairs_.map Prod.fst := List.mem_map_of_mem Prod.fst (deref_some_mem hd)
  refine ⟨i, it, mark, hf, hi, hu, hs, hd, hmk, hmem, ?_,
    inv_erased hI hi hu hs hit hmk hmem, traverse_erased hI.core hi hu hs hd⟩
  have h1 := erase_node_eq_filter hI.core.loc.ids hit
  have hmk2 : mark ∈ m.used_positions_.map Prod.fst := List.mem_map_of_mem Prod.fst hmem
  have h2 := erase_node_eq_filter hI.core.loc.pos_ids hmk2
  simp only [HashMap.erase, hf, hu, hs, hmk, h1, h2, erased]
  simp

end Erase

/-! ## Clear -/

section Clear

variable {K V : Type}

theorem clear_fold (c : Nat) (l : List (Nat × Nat)) (u : Nat → Nat)
    (h : ∀ n ∈ l, n.2 < c) :
    l.foldlM (fun (used : Nat → Nat) (j : Nat × Nat) =>
        if j.2 < c then some (write used j.2 2) else none) u
      = some (fun x => if x ∈ l.map Prod.snd then 2 else u x) := by
  induction l generalizing u with
  | nil => simp
  | cons n rest ih =>
    rw [List.foldlM_cons]
    have hn : n.2 < c := h n (List.mem_cons_self _ _)
    simp only [if_pos hn, Option.bind_eq_bind, Option.some_bind]
    rw [ih _ (fun x hx => h x (List.mem_cons_of_mem _ hx))]
    congr 1
    funext x
    by_cases hx : x = n.2
    · subst hx
      simp [write]
    · by_cases hx2 : x ∈ rest.map Prod.snd
      · have : x ∈ (n :: rest).map Prod.snd := by
          rw [List.map_cons]; exact List.mem_cons_of_mem _ hx2
        rw [if_pos hx2, if_pos this]
      · have : x ∉ (n :: rest).map Prod.snd := by
          rw [List.map_cons, List.mem_cons]
          rintro (h1 | h1)
          · exact hx h1
          · exact hx2 h1
        rw [if_neg hx2, if_neg this, write_ne _ _ hx]

theorem clear_eq {m : HashMap K V} (hL : Loc m) : HashMap.clear m = some (cleared m) := by
  unfold HashMap.clear
  rw [clear_fold m.capacity_ m.used_positions_ m.used_ (fun n hn => (hL.pos_mem n hn).1)]
  rfl

theorem cleared_used {m : HashMap K V} (hL : Loc m) {j : Nat} (hj : j < m.capacity_) :
    (cleared m).used_ j = if m.used_ j = 1 then 2 else m.used_ j := by
  show (if j ∈ m.used_positions_.map Prod.snd then 2 else m.used_ j) = _
  by_cases hu : m.used_ j = 1
  · obtain ⟨mark, _, hmem⟩ := hL.pos_occ j hj hu
    have : j ∈ m.used_positions_.map Prod.snd := List.mem_map_of_mem Prod.snd hmem
    rw [if_pos this, if_pos hu]
  · have : j ∉ m.used_positions_.map Prod.snd := by
      intro h
      obtain ⟨n, hn, hn2⟩ := List.mem_map.mp h
      have := (hL.pos_mem n hn).2.1
      rw [hn2] at this
      exact hu this
    rw [if_neg this, if_neg hu]

theorem cleared_used_ne_one {m : HashMap K V} (hL : Loc m) {j : Nat} (hj : j < m.capacity_) :
    (cleared m).used_ j ≠ 1 := by
  rw [cleared_used hL hj]
  split
  · decide
  · assumption

theorem loc_cleared {m : HashMap K V} (hL : Loc m) : Loc (cleared m) := by
  refine ⟨rfl, rfl, ?_, ?_, List.nodup_nil, ?_, ?_, ?_, List.nodup_nil, ?_, ?_, ?_⟩
  · show count_slots m.capacity_ (fun i => decide ((cleared m).used_ i = 1)) = 0
    rw [← count_slots_false m.capacity_]
    apply count_slots_congr
    intro i hi
    simpa using cleared_used_ne_one hL hi
  · show count_slots m.capacity_ (fun i => decide ((cleared m).used_ i = 1 ∨
      (cleared m).used_ i = 2)) = m.current_workload_
    rw [← hL.count12]
    apply count_slots_congr
    intro i hi
    rw [cleared_used hL hi]
    by_cases hu : m.used_ i = 1
    · simp [hu]
    · simp [hu]
  · intro n hn; cases hn
  · intro i hi hu
    exact absurd hu (cleared_used_ne_one hL hi)
  · intro n hn; cases hn
  · intro n hn; cases hn
  · intro n hn; cases hn
  · intro i hi hu
    exact absurd hu (cleared_used_ne_one hL hi)

end Clear

section ClearInv

variable {K V : Type} [DecidableEq K]

theorem inv_cleared {hash : K → Nat} {m : HashMap K V} (hI : Inv hash m) :
    Inv hash (cleared m) := by
  refine ⟨⟨loc_cleared hI.core.loc, hI.core.cap, ?_⟩, hI.load⟩
  intro i p hi hr
  exact absurd (record_at_used hr) (cleared_used_ne_one hI.core.loc hi)

end ClearInv

/-! ## Assignment through a reference -/

section Assigned

variable {K V : Type}

theorem set_node_fst (it : Nat) (v : V) (n : Nat × K × V) : (set_node it v n).1 = n.1 := by
  unfold set_node
  split <;> rfl

theorem set_node_key (it : Nat) (v : V) (n : Nat × K × V) :
    (set_node it v n).2.1 = n.2.1 := by
  unfold set_node
  split <;> rfl

theorem map_set_node_ids (l : List (Nat × K × V)) (it : Nat) (v : V) :
    (l.map (set_node it v)).map Prod.fst = l.map Prod.fst := by
  rw [List.map_map]
  apply List.map_congr_left
  intro n _
  exact set_node_fst it v n

theorem deref_map_set_node (l : List (Nat × K × V)) (it : Nat) (v : V) (i2 : Nat) :
    deref (l.map (set_node it v)) i2
      = (deref l i2).map (fun p => if i2 = it then (p.1, v) else p) := by
  induction l with
  | nil => rfl
  | cons n rest ih =>
    rw [List.map_cons]
    unfold deref
    rw [set_node_fst]
    by_cases h : n.1 = i2
    · rw [if_pos h, if_pos h]
      unfold set_node
      by_cases h2 : n.1 = it
      · have : i2 = it := by rw [← h, h2]
        simp [h2, this]
      · have : ¬ i2 = it := by rw [← h]; exact h2
        simp [h2, this]
    · rw [if_neg h, if_neg h]
      exact ih

theorem loc_assigned {m : HashMap K V} (hL : Loc m) (it : Nat) (v : V) :
    Loc (assigned m it v) := by
  refine ⟨?_, hL.pos_len, hL.count1, hL.count12, ?_, ?_, ?_, ?_, hL.pos_ids, hL.pos_fresh,
    hL.pos_mem, hL.pos_occ⟩
  · show m.size_ = (m.pairs_.map (set_node it v)).length
    rw [List.length_map]; exact hL.size
  · show ((m.pairs_.map (set_node it v)).map Prod.fst).Nodup
    rw [map_set_node_ids]; exact hL.ids
  · intro n hn
    obtain ⟨n0, hn0, rfl⟩ := List.mem_map.mp hn
    rw [set_node_fst]
    exact hL.fresh n0 hn0
  · intro i hi hu
    obtain ⟨it2, hs, hmem⟩ := hL.occ i hi hu
    refine ⟨it2, hs, ?_⟩
    show it2 ∈ (m.pairs_.map (set_node it v)).map Prod.fst
    rw [map_set_node_ids]; exact hmem
  · intro n hn
    obtain ⟨n0, hn0, rfl⟩ := List.mem_map.mp hn
    rw [set_node_fst]
    exact hL.onto n0 hn0

theorem record_at_assigned (m : HashMap K V) (it : Nat) (v : V) (i : Nat) :
    record_at (assigned m it v) i
      = (record_at m i).map (fun p => if m.storage_ i = some it then (p.1, v) else p) := by
  unfold record_at
  show (if m.used_ i = 1 then (m.storage_ i).bind (deref (m.pairs_.map (set_node it v)))
    else none) = _
  by_cases hu : m.used_ i = 1
  · rw [if_pos hu, if_pos hu]
    cases hs : m.storage_ i with
    | none => rfl
    | some i2 =>
      show deref (m.pairs_.map (set_node it v)) i2 = _
      rw [deref_map_set_node]
      simp
  · rw [if_neg hu, if_neg hu]
    rfl

end Assigned

section AssignedInv

variable {K V : Type} [DecidableEq K]

theorem probe_condition_assigned (m : HashMap K V) (it : Nat) (v : V) (key : K) (i : Nat) :
    HashMap.probe_condition (assigned m it v) key i = HashMap.probe_condition m key i := by
  rw [probe_condition_eq, probe_condition_eq, record_at_assigned]
  show (if i < m.capacity_ then
      if m.used_ i = 2 then some true
      else if m.used_ i = 1 then _ else some false
    else none) = _
  cases hr : record_at m i with
  | none => rfl
  | some p =>
    by_cases hs : m.storage_ i = some it
    · simp [hs]
    · simp [hs]

theorem inv_assigned {hash : K → Nat} {m : HashMap K V} (hI : Inv hash m) (it : Nat)
    (v : V) : Inv hash (assigned m it v) := by
  have hcap : (assigned m it v).capacity_ = m.capacity_ := rfl
  refine ⟨⟨loc_assigned hI.core.loc it v, hI.core.cap, ?_⟩, hI.load⟩
  intro i p hi hr
  rw [record_at_assigned] at hr
  cases hr0 : record_at m i with
  | none => rw [hr0] at hr; cases hr
  | some p0 =>
    rw [hr0] at hr
    have hk : p.1 = p0.1 := by
      have hr2 := Option.some.inj hr
      rw [← hr2]
      split <;> rfl
    have hf := hI.core.probe i p0 hi hr0
    rw [hk]
    refine find_position_transfer hcap hf ?_ ?_
    · rw [probe_condition_assigned]; exact find_position_stop hf
    · intro j hj
      rw [probe_condition_assigned]; exact hj

theorem traverse_assigned {hash : K → Nat} {m : HashMap K V} (hC : Core hash m)
    {i it : Nat} {k : K} {v0 : V} (hi : i < m.capacity_) (hu : m.used_ i = 1)
    (hs : m.storage_ i = some it) (hd : deref m.pairs_ it = some (k, v0)) (v : V) :
    HashMap.traverse (assigned m it v) = (HashMap.traverse m).map (set_value k v) := by
  unfold HashMap.traverse
  show (m.pairs_.map (set_node it v)).map Prod.snd = _
  rw [List.map_map, List.map_map]
  apply List.map_congr_left
  intro n hn
  show (set_node it v n).2 = set_value k v n.2
  have hri : record_at m i = some (k, v0) := record_at_eq_some_iff.mpr ⟨hu, it, hs, hd⟩
  by_cases h1 : n.1 = it
  · have h2 : deref m.pairs_ n.1 = some n.2 := deref_of_mem hC.loc.ids hn
    rw [h1, hd] at h2
    have h3 : n.2.1 = k := by rw [← Option.some.inj h2]
    simp [set_node, set_value, h1, h3]
  · have h3 : n.2.1 ≠ k := by
      intro h3
      obtain ⟨j, hj, huj, hsj⟩ := hC.loc.onto n hn
      have hrj : record_at m j = some n.2 :=
        record_at_eq_some_iff.mpr ⟨huj, n.1, hsj, deref_of_mem hC.loc.ids hn⟩
      have hji := slot_unique hC hj hi hrj hri h3
      subst hji
      rw [hs] at hsj
      exact h1 (Option.some.inj hsj).symm
    simp [set_node, set_value, h1, h3]

end AssignedInv

/-! ## The subscript operator -/

section SecondRef

variable {K V : Type}

theorem second_ref_eq {m : HashMap K V} {i it : Nat} {p : K × V} (hi : i < m.capacity_)
    (hs : m.storage_ i = some it) (hd : deref m.pairs_ it = some p) :
    HashMap.second_ref m i = some it := by
  simp [HashMap.second_ref, hi, hs, hd]

end SecondRef

section Subscript

variable {K V : Type} [DecidableEq K]

theorem subscript_present [Inhabited V] {hash : K → Nat} {m : HashMap K V} (hC : Core hash m)
    {k : K} {v : V} (h : (k, v) ∈ HashMap.traverse m) :
    ∃ i it, HashMap.find_position hash m k = some i ∧ i < m.capacity_ ∧ m.used_ i = 1 ∧
      m.storage_ i = some it ∧ deref m.pairs_ it = some (k, v) ∧
      HashMap.subscript hash m k = some (m, it) := by
  obtain ⟨i, it, hf, hi, hu, hs, hd⟩ := find_position_of_mem hC h
  refine ⟨i, it, hf, hi, hu, hs, hd, ?_⟩
  simp [HashMap.subscript, hf, hu, second_ref_eq hi hs hd]

theorem subscript_absent [Inhabited V] {hash : K → Nat} {m : HashMap K V} (hI : Inv hash m)
    {k : K} (h : ∀ v, (k, v) ∉ HashMap.traverse m) :
    ∃ r e b i it, HashMap.find_position hash m k = some e ∧ m.used_ e ≠ 1 ∧
      HashMap.create_pair hash HashMap.NESTING m e k default = some (r, b) ∧
      HashMap.subscript hash m k = some (r, it) ∧
      HashMap.find_position hash r k = some i ∧ i < r.capacity_ ∧ r.used_ i = 1 ∧
      r.storage_ i = some it ∧ deref r.pairs_ it = some (k, default) := by
  obtain ⟨e, hf, _, hu⟩ := find_position_of_not_mem hI h
  obtain ⟨r, b, hcp, hIr, hcase⟩ := create_pair_spec hI hf hu (default : V) 1
  have hcp2 : HashMap.create_pair hash HashMap.NESTING m e k default = some (r, b) := hcp
  obtain ⟨_, hperm, _, _⟩ := create_pair_perm hI hf hu (default : V) hcp
  have hmem : (k, (default : V)) ∈ HashMap.traverse r :=
    hperm.symm.subset (List.mem_append_right _ (List.mem_singleton_self _))
  obtain ⟨i, it, hfr, hi, hur, hs, hd⟩ := find_position_of_mem hIr.core hmem
  refine ⟨r, e, b, i, it, hf, hu, hcp2, ?_, hfr, hi, hur, hs, hd⟩
  rcases hcase with ⟨hb, hr⟩ | ⟨hb, _⟩
  · subst hb
    have hie : i = e := by
      have h1 : record_at r e = some (k, default) := by
        rw [hr]; exact record_at_place_same hI.core.loc e k default
      have he : e < r.capacity_ := by
        rw [hr]
        show e < m.capacity_
        exact find_position_lt hf
      have h2 := hIr.core.probe e _ he h1
      rw [hfr] at h2
      exact Option.some.inj h2
    subst hie
    simp [HashMap.subscript, hf, hu, hcp2, second_ref_eq hi hs hd]
  · subst hb
    simp [HashMap.subscript, hf, hu, hcp2, hfr, second_ref_eq hi hs hd]

theorem subscript_assign_eq [Inhabited V] {hash : K → Nat} {m r : HashMap K V} {k : K}
    {it : Nat} (hL : Loc r) (h : HashMap.subscript hash m k = some (r, it))
    (hit : it ∈ r.pairs_.map Prod.fst) (v : V) :
    HashMap.subscript_assign hash m k v = some (assigned r it v) := by
  have := assign_node_eq_map v hit hL.ids
  simp only [HashMap.subscript_assign, h, this]
  rfl

end Subscript

/-! ## Copy -/

section CopyLoc

variable {K V : Type}

theorem write_write_same {α : Type} (a : Nat → α) (i : Nat) (v : α) :
    write (write a i v) i v = write a i v := by
  funext j
  by_cases h : j = i
  · subst h; rw [write_same, write_same]
  · rw [write_ne _ _ h]

/-- Marking a free slot with a value other than 1. -/
theorem loc_write {m : HashMap K V} (hL : Loc m) {i : Nat} (hi : i < m.capacity_)
    (h1 : m.used_ i ≠ 1) (h2 : m.used_ i ≠ 2) {x : Nat} (hx : x ≠ 1) {w : Nat}
    (hw : w = m.current_workload_ + (if x = 2 then 1 else 0)) :
    Loc { m with current_workload_ := w, used_ := write m.used_ i x } := by
  have hne : ∀ j, write m.used_ i x j = 1 → j ≠ i ∧ m.used_ j = 1 := by
    intro j hj
    have hji : j ≠ i := by
      intro h
      subst h
      rw [write_same] at hj
      exact hx hj
    rw [write_ne _ _ hji] at hj
    exact ⟨hji, hj⟩
  refine ⟨hL.size, hL.pos_len, ?_, ?_, hL.ids, hL.fresh, ?_, ?_, hL.pos_ids, hL.pos_fresh,
    ?_, ?_⟩
  · have := count_slots_write hi m.used_ x (fun y => decide (y = 1))
    simp only [decide_eq_true_eq, if_neg h1, if_neg hx] at this
    show count_slots m.capacity_ (fun j => decide (write m.used_ i x j = 1)) = m.size_
    rw [← hL.count1]
    simpa using this
  · have := count_slots_write hi m.used_ x (fun y => decide (y = 1 ∨ y = 2))
    have hn : ¬ (m.used_ i = 1 ∨ m.used_ i = 2) := by omega
    simp only [decide_eq_true_eq, if_neg hn] at this
    show count_slots m.capacity_ (fun j => decide (write m.used_ i x j = 1 ∨
      write m.used_ i x j = 2)) = w
    have h12 := hL.count12
    by_cases hx2 : x = 2
    · rw [if_pos (Or.inr hx2)] at this
      rw [if_pos hx2] at hw
      omega
    · rw [if_neg (by omega)] at this
      rw [if_neg hx2] at hw
      omega
  · intro j hj hu
    obtain ⟨_, hu2⟩ := hne j hu
    exact hL.occ j hj hu2
  · intro n hn
    obtain ⟨j, hj, hu, hs⟩ := hL.onto n hn
    have hji : j ≠ i := fun h => h1 (h ▸ hu)
    exact ⟨j, hj, by show write m.used_ i x j = 1; rw [write_ne _ _ hji]; exact hu, hs⟩
  · intro n hn
    obtain ⟨hj, hu, hmk⟩ := hL.pos_mem n hn
    have hji : n.2 ≠ i := fun h => h1 (h ▸ hu)
    exact ⟨hj, by show write m.used_ i x n.2 = 1; rw [write_ne _ _ hji]; exact hu, hmk⟩
  · intro j hj hu
    obtain ⟨_, hu2⟩ := hne j hu
    exact hL.pos_occ j hj hu2

theorem record_at_write (m : HashMap K V) {i j : Nat} (x w : Nat) (h : j ≠ i) :
    record_at { m with current_workload_ := w, used_ := write m.used_ i x } j
      = record_at m j := by
  unfold record_at
  show (if write m.used_ i x j = 1 then _ else none) = _
  rw [write_ne _ _ h]

theorem record_at_write_same (m : HashMap K V) {i : Nat} {x : Nat} (w : Nat) (hx : x ≠ 1) :
    record_at { m with current_workload_ := w, used_ := write m.used_ i x } i = none := by
  unfold record_at
  show (if write m.used_ i x i = 1 then _ else none) = _
  rw [write_same, if_neg hx]

theorem record_at_none_of_ne {m : HashMap K V} {i : Nat} (h : m.used_ i ≠ 1) :
    record_at m i = none := by
  simp [record_at, h]

end CopyLoc

section Copy

variable {K V : Type} [DecidableEq K]

theorem copy_step_spec {hash : K → Nat} {other : HashMap K V} (hI : Inv hash other)
    {i : Nat} {cur : HashMap K V} (hi : i < other.capacity_) (hJ : CopyState other i cur) :
    ∃ next, HashMap.copy_step hash other cur i = some next ∧ CopyState other (i + 1) next := by
  have hic : i < cur.capacity_ := by rw [hJ.cap]; exact hi
  have hfree : cur.used_ i = 0 := hJ.above i (Nat.le_refl _)
  have h1 : cur.used_ i ≠ 1 := by omega
  have h2 : cur.used_ i ≠ 2 := by omega
  by_cases hu : other.used_ i = 1
  · obtain ⟨p, hp⟩ := record_at_isSome hI.core.loc hi hu
    obtain ⟨_, it, hs, hd⟩ := record_at_eq_some_iff.mp hp
    have hL := loc_place hJ.loc hic h1 h2 p.1 p.2
    have hov : HashMap.check_overload (HashMap.place cur i p.1 p.2) = false := by
      rw [check_overload_false_iff, ← hL.count12]
      have hle : count_slots (HashMap.place cur i p.1 p.2).capacity_
          (fun j => decide ((HashMap.place cur i p.1 p.2).used_ j = 1 ∨
            (HashMap.place cur i p.1 p.2).used_ j = 2))
          ≤ count_slots other.capacity_
            (fun j => decide (other.used_ j = 1 ∨ other.used_ j = 2)) := by
        show count_slots cur.capacity_ _ ≤ _
        rw [hJ.cap]
        apply count_slots_mono
        intro j hj hq
        simp only [decide_eq_true_eq] at hq ⊢
        have hq2 : write cur.used_ i 1 j = 1 ∨ write cur.used_ i 1 j = 2 := hq
        by_cases hji : j = i
        · subst hji; exact Or.inl hu
        · rw [write_ne _ _ hji] at hq2
          by_cases hlt : j < i
          · rw [← hJ.below j hlt]; exact hq2
          · have := hJ.above j (by omega)
            omega
      have h3 := hI.core.loc.count12
      have h4 := hI.load
      have h5 : (HashMap.place cur i p.1 p.2).capacity_ = other.capacity_ := hJ.cap
      omega
    refine ⟨HashMap.place cur i p.1 p.2, ?_, hL, hJ.cap, ?_, ?_, ?_, ?_⟩
    · have hcp := create_pair_no_overload hash HashMap.NESTING hic p.1 p.2 hov
      simp only [HashMap.copy_step, if_pos hi, if_pos hu, hs, hd, hcp, Option.map_some',
        Option.some_bind]
      have hc2 : i < (HashMap.place cur i p.1 p.2).capacity_ := hic
      rw [if_pos hc2]
      have : write (HashMap.place cur i p.1 p.2).used_ i 1
          = (HashMap.place cur i p.1 p.2).used_ := write_write_same _ _ _
      rw [hu, this]
    · intro j hj
      show write cur.used_ i 1 j = other.used_ j
      by_cases hji : j = i
      · subst hji; rw [write_same, hu]
      · rw [write_ne _ _ hji]; exact hJ.below j (by omega)
    · intro j hj
      show write cur.used_ i 1 j = 0
      have hji : j ≠ i := by omega
      rw [write_ne _ _ hji]; exact hJ.above j (by omega)
    · intro j hj
      by_cases hji : j = i
      · subst hji
        rw [record_at_place_same hJ.loc, hp]
      · rw [record_at_place_ne hJ.loc (by omega) hji]
        exact hJ.records j (by omega)
    · rw [traverse_place, hJ.order, slot_records_succ, hp]
      rfl
  · have hx : other.used_ i ≠ 1 := hu
    have hrn : record_at other i = none := record_at_none_of_ne hu
    by_cases hu2 : other.used_ i = 2
    · have hL := loc_write hJ.loc hic h1 h2 (x := 2) (by decide)
        (w := cur.current_workload_ + 1) (by simp)
      refine ⟨{ cur with current_workload_ := cur.current_workload_ + 1,
                         used_ := write cur.used_ i 2 }, ?_, hL, hJ.cap, ?_, ?_, ?_, ?_⟩
      · simp only [HashMap.copy_step, if_pos hi, if_neg hu, if_pos hu2, Option.some_bind]
        have hc2 : i < ({ cur with current_workload_ := cur.current_workload_ + 1 } :
          HashMap K V).capacity_ := hic
        rw [if_pos hc2, hu2]
      · intro j hj
        show write cur.used_ i 2 j = other.used_ j
        by_cases hji : j = i
        · subst hji; rw [write_same, hu2]
        · rw [write_ne _ _ hji]; exact hJ.below j (by omega)
      · intro j hj
        show write cur.used_ i 2 j = 0
        have hji : j ≠ i := by omega
        rw [write_ne _ _ hji]; exact hJ.above j (by omega)
      · intro j hj
        by_cases hji : j = i
        · subst hji
          rw [record_at_write_same cur _ (by decide), hrn]
        · rw [record_at_write cur _ _ hji]
          exact hJ.records j (by omega)
      · show HashMap.traverse cur = _
        rw [hJ.order, slot_records_succ, hrn]
        simp
    · have hL := loc_write hJ.loc hic h1 h2 (x := other.used_ i) hx
        (w := cur.current_workload_) (by simp [hu2])
      refine ⟨{ cur with used_ := write cur.used_ i (other.used_ i) }, ?_, hL, hJ.cap,
        ?_, ?_, ?_, ?_⟩
      · simp only [HashMap.copy_step, if_pos hi, if_neg hu, if_neg hu2, Option.some_bind]
        rw [if_pos hic]
      · intro j hj
        show write cur.used_ i (other.used_ i) j = other.used_ j
        by_cases hji : j = i
        · subst hji; rw [write_same]
        · rw [write_ne _ _ hji]; exact hJ.below j (by omega)
      · intro j hj
        show write cur.used_ i (other.used_ i) j = 0
        have hji : j ≠ i := by omega
        rw [write_ne _ _ hji]; exact hJ.above j (by omega)
      · intro j hj
        by_cases hji : j = i
        · subst hji
          rw [record_at_write_same cur _ hx, hrn]
        · rw [record_at_write cur _ _ hji]
          exact hJ.records j (by omega)
      · show HashMap.traverse cur = _
        rw [hJ.order, slot_records_succ, hrn]
        simp

theorem copy_loop_spec {hash : K → Nat} {other : HashMap K V} (hI : Inv hash other) :
    ∀ (fuel i : Nat) (cur : HashMap K V), fuel + i = other.capacity_ + 1 →
      i ≤ other.capacity_ → CopyState other i cur →
      ∃ r, HashMap.copy_loop hash other fuel i cur = some r ∧
        CopyState other other.capacity_ r := by
  intro fuel
  induction fuel with
  | zero => intro i cur h1 h2 _; omega
  | succ fuel ih =>
    intro i cur h1 h2 hJ
    unfold HashMap.copy_loop
    by_cases hi : i < other.capacity_
    · have hic : i < cur.capacity_ := by rw [hJ.cap]; exact hi
      obtain ⟨next, hstep, hJ2⟩ := copy_step_spec hI hi hJ
      rw [if_pos hic, hstep]
      exact ih (i + 1) next (by omega) (by omega) hJ2
    · have hic : ¬ i < cur.capacity_ := by rw [hJ.cap]; exact hi
      have : i = other.capacity_ := by omega
      rw [if_neg hic]
      exact ⟨cur, rfl, this ▸ hJ⟩

/-- The copy returns; it has the slot states of `other`, with equal records at the
occupied slots, and its list holds them by increasing slot index. -/
theorem copy_spec {hash : K → Nat} {other : HashMap K V} (hI : Inv hash other) :
    ∃ r, HashMap.copy hash other = some r ∧ Inv hash r ∧
      r.capacity_ = other.capacity_ ∧
      (∀ j, j < other.capacity_ → r.used_ j = other.used_ j) ∧
      (∀ j, j < other.capacity_ → record_at r j = record_at other j) ∧
      HashMap.traverse r = slot_records other other.capacity_ ∧
      r.current_workload_ = other.current_workload_ ∧ r.size_ = other.size_ := by
  have h0 : CopyState other 0
      (HashMap.initial_memory (HashMap.blank other.fresh_) other.capacity_) := by
    refine ⟨loc_initial_memory _ _, rfl, ?_, ?_, ?_, rfl⟩
    · intro j hj; omega
    · intro j _; rfl
    · intro j hj; omega
  obtain ⟨r, hr, hJ⟩ := copy_loop_spec hI (other.capacity_ + 1) 0 _ (by omega) (by omega) h0
  have hw : r.current_workload_ = other.current_workload_ := by
    rw [← hJ.loc.count12, ← hI.core.loc.count12, hJ.cap]
    apply count_slots_congr
    intro j hj
    rw [hJ.below j hj]
  have hsz : r.size_ = other.size_ := by
    rw [← hJ.loc.count1, ← hI.core.loc.count1, hJ.cap]
    apply count_slots_congr
    intro j hj
    rw [hJ.below j hj]
  have hpc : ∀ key l,
      HashMap.probe_condition r key l = HashMap.probe_condition other key l := by
    intro key l
    rw [probe_condition_eq, probe_condition_eq, hJ.cap]
    by_cases hl : l < other.capacity_
    · rw [hJ.below l hl, hJ.records l hl]
    · rw [if_neg hl, if_neg hl]
  refine ⟨r, hr, ⟨⟨hJ.loc, by rw [hJ.cap]; exact hI.core.cap, ?_⟩,
    by rw [hw, hJ.cap]; exact hI.load⟩, hJ.cap, hJ.below, hJ.records, hJ.order, hw, hsz⟩
  intro j p hj hrec
  have hj2 : j < other.capacity_ := by rw [← hJ.cap]; exact hj
  rw [hJ.records j hj2] at hrec
  have hf := hI.core.probe j p hj2 hrec
  refine find_position_transfer hJ.cap hf ?_ ?_
  · rw [hpc]; exact find_position_stop hf
  · intro l hl
    rw [hpc]; exact hl

end Copy

/-! ## The bounds of the loops are exact

The two bounds that the model puts on the recursion of the code lose nothing, in any
state: a probe that stops at all stops within `capacity_` tests of its condition, and a
rebuild started by `create_pair` never starts a second one. -/

section Bounds

variable {K V : Type} [DecidableEq K]

theorem stops_lt_capacity {m : HashMap K V} {key : K} {h s t i : Nat}
    (hst : StopsAt m key h s t i) : t < m.capacity_ := by
  obtain ⟨h1, h2, h3⟩ := hst
  by_contra hge
  have hge2 : m.capacity_ ≤ t := by omega
  have hpos : 0 < m.capacity_ := by
    have := probe_condition_lt h2
    omega
  have hu := h3 (t - m.capacity_) (by omega)
  have hidx : (h + (t - m.capacity_) * s) % m.capacity_ = i := by
    rw [← h1]
    have : h + t * s = h + (t - m.capacity_) * s + m.capacity_ * s := by
      have ht : t = (t - m.capacity_) + m.capacity_ := by omega
      conv_lhs => rw [ht]
      ring
    rw [this, Nat.add_mul_mod_self_left]
  rw [hidx, h2] at hu
  cases hu

/-- More tests than `capacity_` change nothing in the result of the probing loop. -/
theorem probe_fuel (m : HashMap K V) (key : K) (s fuel h : Nat) (hf : m.capacity_ ≤ fuel) :
    HashMap.probe m key s fuel (h % m.capacity_)
      = HashMap.probe m key s m.capacity_ (h % m.capacity_) := by
  apply Option.ext
  intro i
  rw [Option.mem_def, Option.mem_def, probe_eq_some_iff, probe_eq_some_iff]
  constructor
  · rintro ⟨t, _, hst⟩
    exact ⟨t, stops_lt_capacity hst, hst⟩
  · rintro ⟨t, ht, hst⟩
    exact ⟨t, by omega, hst⟩

/-- The loop of `rebuild` at twice the capacity does the same at every depth: none of its
calls of `create_pair` finds the new table overloaded. -/
theorem rebuild_loop_depth (hash : K → Nat) (d : Nat) (m : HashMap K V) (n : Nat)
    (hn : n ≤ m.capacity_) :
    (List.range n).foldlM (HashMap.rebuild_step hash (HashMap.create_pair hash d) m)
        (HashMap.initial_memory (HashMap.blank m.fresh_) (m.capacity_ * 2))
      = (List.range n).foldlM (HashMap.rebuild_step hash (HashMap.create_pair hash 0) m)
        (HashMap.initial_memory (HashMap.blank m.fresh_) (m.capacity_ * 2)) ∧
    ∀ r, (List.range n).foldlM (HashMap.rebuild_step hash (HashMap.create_pair hash 0) m)
        (HashMap.initial_memory (HashMap.blank m.fresh_) (m.capacity_ * 2)) = some r →
      r.capacity_ = m.capacity_ * 2 ∧ r.current_workload_ ≤ n := by
  induction n with
  | zero =>
    refine ⟨rfl, ?_⟩
    intro r hr
    cases hr
    exact ⟨rfl, Nat.le_refl _⟩
  | succ n ih =>
    obtain ⟨heq, hinv⟩ := ih (by omega)
    rw [List.range_succ, List.foldlM_append, List.foldlM_append, heq]
    cases hcur : (List.range n).foldlM
        (HashMap.rebuild_step hash (HashMap.create_pair hash 0) m)
        (HashMap.initial_memory (HashMap.blank m.fresh_) (m.capacity_ * 2)) with
    | none =>
      refine ⟨rfl, ?_⟩
      intro r hr
      cases hr
    | some cur =>
      obtain ⟨hcap, hw⟩ := hinv cur hcur
      simp only [Option.some_bind, List.foldlM_cons, List.foldlM_nil, Option.pure_def,
        Option.bind_eq_bind, Option.bind_some]
      have hcreate : ∀ (e : Nat) (k : K) (v : V) (d2 : Nat),
          HashMap.create_pair hash d2 cur e k v
            = if e < cur.capacity_ then some (HashMap.place cur e k v, false) else none := by
        intro e k v d2
        by_cases he : e < cur.capacity_
        · rw [if_pos he]
          apply create_pair_no_overload hash d2 he
          rw [check_overload_false_iff]
          show 2 * (cur.current_workload_ + 1) ≤ cur.capacity_
          omega
        · cases d2 <;> simp [HashMap.create_pair, he]
      have hstep : ∀ d2, HashMap.rebuild_step hash (HashMap.create_pair hash d2) m cur n
          = HashMap.rebuild_step hash (HashMap.create_pair hash 0) m cur n := by
        intro d2
        unfold HashMap.rebuild_step
        simp only [hcreate]
      refine ⟨hstep d, ?_⟩
      intro r hr
      by_cases hu : m.used_ n = 1
      · cases hs : m.storage_ n with
        | none => simp [HashMap.rebuild_step, hu, hs] at hr
        | some it =>
          cases hd : deref m.pairs_ it with
          | none => simp [HashMap.rebuild_step, hu, hs, hd] at hr
          | some p =>
            cases hfp : HashMap.find_position hash cur p.1 with
            | none => simp [HashMap.rebuild_step, hu, hs, hd, hfp] at hr
            | some e =>
              simp only [HashMap.rebuild_step, if_pos hu, hs, hd, hfp, hcreate] at hr
              by_cases he : e < cur.capacity_
              · rw [if_pos he] at hr
                cases hr
                exact ⟨hcap, by show cur.current_workload_ + 1 ≤ n + 1; omega⟩
              · rw [if_neg he] at hr
                cases hr
      · simp only [HashMap.rebuild_step, if_neg hu] at hr
        cases hr
        exact ⟨hcap, by omega⟩

theorem rebuild_depth (hash : K → Nat) (d : Nat) (m : HashMap K V) :
    HashMap.rebuild hash d m (m.capacity_ * 2) = HashMap.rebuild hash 0 m (m.capacity_ * 2) :=
  (rebuild_loop_depth hash d m m.capacity_ (Nat.le_refl _)).1

/-- The result of `create_pair` is the same at every depth from 1 on: the rebuild that it
starts does not start another. -/
theorem create_pair_depth (hash : K → Nat) (d : Nat) (m : HashMap K V) (index : Nat) (key : K)
    (value : V) :
    HashMap.create_pair hash (d + 1) m index key value
      = HashMap.create_pair hash 1 m index key value := by
  by_cases hi : index < m.capacity_
  · cases hov : HashMap.check_overload (HashMap.place m index key value) with
    | false =>
      rw [create_pair_no_overload hash (d + 1) hi key value hov,
        create_pair_no_overload hash 1 hi key value hov]
    | true =>
      rw [create_pair_overload hash d hi key value hov,
        create_pair_overload hash 0 hi key value hov]
      have := rebuild_depth hash d (HashMap.place m index key value)
      rw [this]
  · simp [HashMap.create_pair, hi]

end Bounds

/-! ## Refinement of the reference model -/

section Lists

variable {K V : Type}

theorem mem_keys_iff {l : List (K × V)} {k : K} :
    k ∈ l.map Prod.fst ↔ ∃ v, (k, v) ∈ l := by
  constructor
  · intro h
    obtain ⟨p, hp, rfl⟩ := List.mem_map.mp h
    exact ⟨p.2, hp⟩
  · rintro ⟨v, hv⟩
    exact List.mem_map_of_mem Prod.fst hv

theorem traverse_length {m : HashMap K V} (hL : Loc m) :
    (HashMap.traverse m).length = m.size_ := by
  rw [hL.size]
  simp [HashMap.traverse]

theorem run_nil [DecidableEq K] [Inhabited V] (hash : K → Nat) :
    run hash ([] : List (Op K V)) = some HashMap.init := rfl

theorem run_append [DecidableEq K] [Inhabited V] (hash : K → Nat) (ops : List (Op K V))
    (op : Op K V) : run hash (ops ++ [op]) = (run hash ops).bind (fun m => step hash m op) := by
  unfold run
  rw [List.foldlM_append]
  cases List.foldlM (step hash) HashMap.init ops with
  | none => rfl
  | some m => simp [List.foldlM_cons, List.foldlM_nil]

end Lists

section Keys2

variable {K V : Type} [DecidableEq K]

theorem filter_other_key_of_not_mem {l : List (K × V)} {k : K} (h : ∀ v, (k, v) ∉ l) :
    l.filter (other_key k) = l := by
  apply List.filter_eq_self.mpr
  intro p hp
  have : p.1 ≠ k := by
    intro hk
    exact h p.2 (by rw [← hk]; exact hp)
  simp [other_key, this]

theorem not_mem_filter_other_key (l : List (K × V)) (k : K) (v : V) :
    (k, v) ∉ l.filter (other_key k) := by
  intro h
  have := (List.mem_filter.mp h).2
  simp [other_key] at this

theorem map_set_value_of_not_mem {l : List (K × V)} {k : K} (h : ∀ v, (k, v) ∉ l) (w : V) :
    l.map (set_value k w) = l := by
  conv_rhs => rw [← List.map_id l]
  apply List.map_congr_left
  intro p hp
  have : p.1 ≠ k := by
    intro hk
    exact h p.2 (by rw [← hk]; exact hp)
  simp [set_value, this]

theorem model_append [Inhabited V] (ops : List (Op K V)) (op : Op K V) :
    model (ops ++ [op]) = model_step (model ops) op := by
  unfold model
  rw [List.foldl_append]
  rfl

theorem key_set_append (ops : List (Op K V)) (op : Op K V) :
    key_set (ops ++ [op]) = key_set_step (key_set ops) op := by
  unfold key_set
  rw [List.foldl_append]
  rfl

end Keys2

section Refinement

variable {K V : Type} [DecidableEq K]

/-- The call `insert((k, v))` on a table that satisfies the invariant. -/
theorem insert_spec {hash : K → Nat} {m : HashMap K V} (hI : Inv hash m) (k : K) (v : V) :
    ∃ r, HashMap.insert hash m (k, v) = some r ∧ Inv hash r ∧ m.capacity_ ≤ r.capacity_ ∧
      (((∃ v0, (k, v0) ∈ HashMap.traverse m) ∧ r = m) ∨
        ((∀ v0, (k, v0) ∉ HashMap.traverse m) ∧ r.size_ = m.size_ + 1 ∧
          (HashMap.traverse r).Perm (HashMap.traverse m ++ [(k, v)]) ∧
          (r.capacity_ = m.capacity_ → HashMap.traverse r = HashMap.traverse m ++ [(k, v)]))) := by
  rcases mem_or_not_mem m k with ⟨v0, hv0⟩ | hno
  · exact ⟨m, insert_present hI.core hv0 v, hI, Nat.le_refl _, Or.inl ⟨⟨v0, hv0⟩, rfl⟩⟩
  · obtain ⟨r, e, b, hf, hu, hcp, hins⟩ := insert_absent hI hno v
    obtain ⟨hIr, hperm, hsz, hcap⟩ := create_pair_perm hI hf hu v hcp
    refine ⟨r, hins, hIr, hcap, Or.inr ⟨hno, hsz, hperm, ?_⟩⟩
    intro hc
    obtain ⟨r2, b2, h2, _, hcase⟩ := create_pair_spec hI hf hu v 1
    have h3 : HashMap.create_pair hash HashMap.NESTING m e k v = some (r2, b2) := h2
    rw [hcp] at h3
    cases h3
    rcases hcase with ⟨_, hr⟩ | ⟨_, hcap2, _⟩
    · rw [hr, traverse_place]
    · have := capacity_pos hI.core.cap
      omega

/-- The call `erase(k)` on a table that satisfies the invariant. -/
theorem erase_spec {hash : K → Nat} {m : HashMap K V} (hI : Inv hash m) (k : K) :
    ∃ r, HashMap.erase hash m k = some r ∧ Inv hash r ∧ r.capacity_ = m.capacity_ ∧
      HashMap.traverse r = (HashMap.traverse m).filter (other_key k) := by
  rcases mem_or_not_mem m k with ⟨v0, hv0⟩ | hno
  · obtain ⟨i, it, mark, _, _, _, _, _, _, _, her, hIr, htr⟩ := erase_present hI hv0
    exact ⟨_, her, hIr, rfl, htr⟩
  · exact ⟨m, erase_absent hI hno, hI, rfl, (filter_other_key_of_not_mem hno).symm⟩

/-- The expression `table[k]` on a table that satisfies the invariant. -/
theorem subscript_spec [Inhabited V] {hash : K → Nat} {m : HashMap K V} (hI : Inv hash m)
    (k : K) :
    ∃ r it i v0, HashMap.subscript hash m k = some (r, it) ∧ Inv hash r ∧
      m.capacity_ ≤ r.capacity_ ∧
      HashMap.find_position hash r k = some i ∧ i < r.capacity_ ∧ r.used_ i = 1 ∧
      r.storage_ i = some it ∧ deref r.pairs_ it = some (k, v0) ∧
      (((k, v0) ∈ HashMap.traverse m ∧ r = m) ∨
        ((∀ v1, (k, v1) ∉ HashMap.traverse m) ∧ v0 = default ∧ r.size_ = m.size_ + 1 ∧
          (HashMap.traverse r).Perm (HashMap.traverse m ++ [(k, default)]) ∧
          (r.capacity_ = m.capacity_ →
            HashMap.traverse r = HashMap.traverse m ++ [(k, default)]))) := by
  rcases mem_or_not_mem m k with ⟨v0, hv0⟩ | hno
  · obtain ⟨i, it, hf, hi, hu, hs, hd, hsub⟩ := subscript_present hI.core hv0
    exact ⟨m, it, i, v0, hsub, hI, Nat.le_refl _, hf, hi, hu, hs, hd, Or.inl ⟨hv0, rfl⟩⟩
  · obtain ⟨r, e, b, i, it, hf, hu, hcp, hsub, hfr, hi, hur, hs, hd⟩ := subscript_absent hI hno
    obtain ⟨hIr, hperm, hsz, hcap⟩ := create_pair_perm hI hf hu (default : V) hcp
    refine ⟨r, it, i, default, hsub, hIr, hcap, hfr, hi, hur, hs, hd,
      Or.inr ⟨hno, rfl, hsz, hperm, ?_⟩⟩
    intro hc
    obtain ⟨r2, b2, h2, _, hcase⟩ := create_pair_spec hI hf hu (default : V) 1
    have h3 : HashMap.create_pair hash HashMap.NESTING m e k default = some (r2, b2) := h2
    rw [hcp] at h3
    cases h3
    rcases hcase with ⟨_, hr⟩ | ⟨_, hcap2, _⟩
    · rw [hr, traverse_place]
    · have := capacity_pos hI.core.cap
      omega

/-- The statement `table[k] = v` on a table that satisfies the invariant. -/
theorem subscript_assign_spec [Inhabited V] {hash : K → Nat} {m : HashMap K V}
    (hI : Inv hash m) (k : K) (v : V) :
    ∃ r0 it r, HashMap.subscript hash m k = some (r0, it) ∧
      HashMap.subscript_assign hash m k v = some r ∧ Inv hash r ∧
      r.capacity_ = r0.capacity_ ∧ r.size_ = r0.size_ ∧
      HashMap.traverse r = (HashMap.traverse r0).map (set_value k v) := by
  obtain ⟨r0, it, i, v0, hsub, hIr, _, _, hi, hu, hs, hd, _⟩ := subscript_spec hI k
  have hit : it ∈ r0.pairs_.map Prod.fst := List.mem_map_of_mem Prod.fst (deref_some_mem hd)
  exact ⟨r0, it, assigned r0 it v, hsub, subscript_assign_eq hIr.core.loc hsub hit v,
    inv_assigned hIr it v, rfl, rfl, traverse_assigned hIr.core hi hu hs hd v⟩

/-- One public operation on a table that satisfies the invariant and whose list is a
permutation of the reference list `l`: the operation returns, the invariant holds again and
the new list is a permutation of the new reference list; it is the new reference list when
the old list was the old reference list, the capacity did not change and no copy was made. -/
theorem step_refines [Inhabited V] {hash : K → Nat} {m : HashMap K V} (hI : Inv hash m)
    {l : List (K × V)} (hp : (HashMap.traverse m).Perm l) (op : Op K V) :
    ∃ r, step hash m op = some r ∧ Inv hash r ∧
      (HashMap.traverse r).Perm (model_step l op) ∧ m.capacity_ ≤ r.capacity_ ∧
      (HashMap.traverse m = l → r.capacity_ = m.capacity_ → op ≠ Op.copy →
        HashMap.traverse r = model_step l op) := by
  have hkeys : ∀ k, k ∈ l.map Prod.fst ↔ ∃ v, (k, v) ∈ HashMap.traverse m := by
    intro k
    rw [mem_keys_iff]
    constructor
    · rintro ⟨v, hv⟩; exact ⟨v, hp.symm.subset hv⟩
    · rintro ⟨v, hv⟩; exact ⟨v, hp.subset hv⟩
  cases op with
  | insert k v =>
    obtain ⟨r, hins, hIr, hcap, hcase⟩ := insert_spec hI k v
    refine ⟨r, hins, hIr, ?_, hcap, ?_⟩
    · rcases hcase with ⟨hmem, hr⟩ | ⟨hno, _, hperm, _⟩
      · simp only [model_step, if_pos ((hkeys k).mpr hmem)]
        rw [hr]; exact hp
      · have : k ∉ l.map Prod.fst := fun h => by
          obtain ⟨v0, hv0⟩ := (hkeys k).mp h
          exact hno v0 hv0
        simp only [model_step, if_neg this]
        exact hperm.trans (hp.append_right _)
    · intro hl hc _
      rcases hcase with ⟨hmem, hr⟩ | ⟨hno, _, _, hexact⟩
      · simp only [model_step, if_pos ((hkeys k).mpr hmem)]
        rw [hr]; exact hl
      · have : k ∉ l.map Prod.fst := fun h => by
          obtain ⟨v0, hv0⟩ := (hkeys k).mp h
          exact hno v0 hv0
        simp only [model_step, if_neg this]
        rw [hexact hc, hl]
  | erase k =>
    obtain ⟨r, her, hIr, hcap, htr⟩ := erase_spec hI k
    refine ⟨r, her, hIr, ?_, by rw [hcap], ?_⟩
    · rw [htr]
      exact hp.filter _
    · intro hl _ _
      rw [htr, hl]
      rfl
  | subscript k =>
    obtain ⟨r, it, i, v0, hsub, hIr, hcap, _, _, _, _, _, hcase⟩ := subscript_spec hI k
    refine ⟨r, by simp [step, hsub], hIr, ?_, hcap, ?_⟩
    · rcases hcase with ⟨hmem, hr⟩ | ⟨hno, _, _, hperm, _⟩
      · simp only [model_step, if_pos ((hkeys k).mpr ⟨v0, hmem⟩)]
        rw [hr]; exact hp
      · have : k ∉ l.map Prod.fst := fun h => by
          obtain ⟨v1, hv1⟩ := (hkeys k).mp h
          exact hno v1 hv1
        simp only [model_step, if_neg this]
        exact hperm.trans (hp.append_right _)
    · intro hl hc _
      rcases hcase with ⟨hmem, hr⟩ | ⟨hno, _, _, _, hexact⟩
      · simp only [model_step, if_pos ((hkeys k).mpr ⟨v0, hmem⟩)]
        rw [hr]; exact hl
      · have : k ∉ l.map Prod.fst := fun h => by
          obtain ⟨v1, hv1⟩ := (hkeys k).mp h
          exact hno v1 hv1
        simp only [model_step, if_neg this]
        rw [hexact hc, hl]
  | subscript_assign k v =>
    obtain ⟨r0, it, r, hsub, hasg, hIr, hcap0, _, htr⟩ := subscript_assign_spec hI k v
    obtain ⟨r1, it1, i, v0, hsub1, _, hcap, _, _, _, _, _, hcase⟩ := subscript_spec hI k
    rw [hsub] at hsub1
    cases hsub1
    refine ⟨r, hasg, hIr, ?_, by rw [hcap0]; exact hcap, ?_⟩
    · rw [htr]
      apply List.Perm.map
      rcases hcase with ⟨hmem, hr⟩ | ⟨hno, _, _, hperm, _⟩
      · rw [if_pos ((hkeys k).mpr ⟨v0, hmem⟩), hr]; exact hp
      · have : k ∉ l.map Prod.fst := fun h => by
          obtain ⟨v1, hv1⟩ := (hkeys k).mp h
          exact hno v1 hv1
        rw [if_neg this]
        exact hperm.trans (hp.append_right _)
    · intro hl hc _
      rw [htr]
      show _ = (if k ∈ l.map Prod.fst then l else l ++ [(k, default)]).map (set_value k v)
      congr 1
      rcases hcase with ⟨hmem, hr⟩ | ⟨hno, _, _, _, hexact⟩
      · rw [if_pos ((hkeys k).mpr ⟨v0, hmem⟩), hr]; exact hl
      · have : k ∉ l.map Prod.fst := fun h => by
          obtain ⟨v1, hv1⟩ := (hkeys k).mp h
          exact hno v1 hv1
        rw [if_neg this, hexact (by rw [← hcap0]; exact hc), hl]
  | clear =>
    refine ⟨cleared m, clear_eq hI.core.loc, inv_cleared hI, ?_, Nat.le_refl _, ?_⟩
    · exact List.Perm.refl _
    · intro _ _ _; rfl
  | copy =>
    obtain ⟨r, hr, hIr, hcap, _, _, htr, _, _⟩ := copy_spec hI
    refine ⟨r, hr, hIr, ?_, by rw [hcap], ?_⟩
    · rw [htr]
      exact (slot_records_perm hI.core).trans hp
    · intro _ _ h; exact absurd rfl h

/-- Every sequence of public operations on an empty table returns a table that satisfies
the invariant and whose list is a permutation of the reference list; it is the reference
list when the capacity is still the initial one and no copy was made. -/
theorem run_refines [Inhabited V] (hash : K → Nat) (ops : List (Op K V)) :
    ∃ m, run hash ops = some m ∧ Inv hash m ∧ (HashMap.traverse m).Perm (model ops) ∧
      INITIAL_SIZE ≤ m.capacity_ ∧
      (Op.copy ∉ ops → m.capacity_ = INITIAL_SIZE → HashMap.traverse m = model ops) := by
  induction ops using List.reverseRecOn with
  | nil =>
    exact ⟨HashMap.init, rfl, inv_init hash, List.Perm.refl _, Nat.le_refl _, fun _ _ => rfl⟩
  | append_singleton ops op ih =>
    obtain ⟨m, hrun, hI, hp, hcap, hexact⟩ := ih
    obtain ⟨r, hstep, hIr, hpr, hcr, hex⟩ := step_refines hI hp op
    refine ⟨r, by rw [run_append, hrun]; exact hstep, hIr, by rw [model_append]; exact hpr,
      by omega, ?_⟩
    intro hno hc
    have h1 : Op.copy ∉ ops := fun h => hno (List.mem_append_left _ h)
    have h2 : op ≠ Op.copy := fun h => hno (by rw [h]; simp)
    have h3 : m.capacity_ = INITIAL_SIZE := by omega
    rw [model_append]
    exact hex (hexact h1 h3) (by rw [hc, h3]) h2

theorem inv_of_reachable [Inhabited V] {hash : K → Nat} {m : HashMap K V}
    (h : Reachable hash m) : Inv hash m := by
  obtain ⟨ops, hops⟩ := h
  obtain ⟨m2, hrun, hI, _⟩ := run_refines hash ops
  rw [hops] at hrun
  cases hrun
  exact hI

end Refinement

/-! ## The constructors from a list -/

section FromList

variable {K V : Type} [DecidableEq K]

theorem first_value_of_nodup {l : List (K × V)} (hn : (l.map Prod.fst).Nodup) {k : K} {v : V}
    (h : (k, v) ∈ l) : first_value l k = some v := by
  induction l with
  | nil => cases h
  | cons p rest ih =>
    rw [List.map_cons, List.nodup_cons] at hn
    unfold first_value
    rcases List.mem_cons.mp h with h1 | h1
    · rw [← h1]
      simp
    · have hne : ¬ p.1 = k := by
        intro hk
        exact hn.1 (by rw [hk]; exact List.mem_map_of_mem Prod.fst h1)
      rw [if_neg hne]
      exact ih hn.2 h1

theorem from_list_eq_run [Inhabited V] (hash : K → Nat) (items : List (K × V)) :
    HashMap.from_list hash items = run hash (inserts items) := by
  unfold HashMap.from_list run inserts
  generalize (HashMap.init : HashMap K V) = m0
  induction items generalizing m0 with
  | nil => rfl
  | cons p rest ih =>
    rw [List.map_cons, List.foldlM_cons, List.foldlM_cons]
    show (HashMap.insert hash m0 p).bind _ = (HashMap.insert hash m0 (p.1, p.2)).bind _
    cases h : HashMap.insert hash m0 p with
    | none => rfl
    | some m1 => exact ih m1

theorem model_inserts_nodup [Inhabited V] (items : List (K × V)) (l0 : List (K × V))
    (hn : (items.map Prod.fst).Nodup)
    (hd : ∀ k, k ∈ items.map Prod.fst → k ∉ l0.map Prod.fst) :
    (inserts items).foldl model_step l0 = l0 ++ items := by
  induction items generalizing l0 with
  | nil => simp [inserts]
  | cons p rest ih =>
    rw [List.map_cons, List.nodup_cons] at hn
    show (inserts rest).foldl model_step (model_step l0 (Op.insert p.1 p.2)) = _
    have hp : p.1 ∉ l0.map Prod.fst := hd p.1 (by simp)
    have hstep : model_step l0 (Op.insert p.1 p.2) = l0 ++ [p] := by
      simp only [model_step, if_neg hp]
    rw [hstep, ih (l0 ++ [p]) hn.2]
    · simp
    · intro k hk
      rw [List.map_append, List.mem_append, not_or]
      refine ⟨hd k (by rw [List.map_cons]; exact List.mem_cons_of_mem _ hk), ?_⟩
      intro h2
      simp only [List.map_cons, List.map_nil, List.mem_singleton] at h2
      rw [h2] at hk
      exact hn.1 hk

theorem at_eq_value_iff {hash : K → Nat} {m : HashMap K V} (hI : Inv hash m) (k : K) (v : V) :
    HashMap.at_ hash m k = some (AtResult.value v) ↔ (k, v) ∈ HashMap.traverse m := by
  constructor
  · intro h
    rcases mem_or_not_mem m k with ⟨v0, hv0⟩ | hno
    · rw [at_of_mem hI.core hv0] at h
      cases h
      exact hv0
    · rw [at_of_not_mem hI hno] at h
      cases h
  · exact at_of_mem hI.core

theorem at_eq_out_of_range_iff {hash : K → Nat} {m : HashMap K V} (hI : Inv hash m) (k : K) :
    HashMap.at_ hash m k = some AtResult.out_of_range ↔ ∀ v, (k, v) ∉ HashMap.traverse m := by
  constructor
  · intro h v hv
    rw [at_of_mem hI.core hv] at h
    cases h
  · exact at_of_not_mem hI

theorem from_list_nodup (hash : K → Nat) (items : List (K × V))
    (hn : (items.map Prod.fst).Nodup) :
    ∃ m, HashMap.from_list hash items = some m ∧ Inv hash m ∧
      (HashMap.traverse m).Perm items := by
  cases items with
  | nil => exact ⟨HashMap.init, rfl, inv_init hash, List.Perm.refl _⟩
  | cons p rest =>
    haveI : Inhabited V := ⟨p.2⟩
    obtain ⟨m, hrun, hI, hp, _⟩ := run_refines hash (inserts (p :: rest))
    refine ⟨m, by rw [from_list_eq_run]; exact hrun, hI, ?_⟩
    have := model_inserts_nodup (p :: rest) [] hn (fun k _ h => by cases h)
    rw [show model (inserts (p :: rest)) = (inserts (p :: rest)).foldl model_step [] from rfl,
      this] at hp
    simpa using hp

end FromList

/-! ## The claims -/

section Claims

variable {K V : Type} [DecidableEq K]

/-- C1 (growth correctness): for every hash function and every list of pairs with pairwise
distinct keys, inserting the pairs one by one into an empty table returns a table whose
`size()` is the number of pairs and in which `at(k)` returns `v` for every inserted pair
`(k, v)`, whatever number of rebuilds the insertions cross. -/
theorem C1_insert_distinct_keys (hash : K → Nat) (items : List (K × V))
    (h : (items.map Prod.fst).Nodup) :
    ∃ m, HashMap.from_list hash items = some m ∧ HashMap.size m = items.length ∧
      ∀ p, p ∈ items → HashMap.at_ hash m p.1 = some (AtResult.value p.2) := by
  obtain ⟨m, hm, hI, hp⟩ := from_list_nodup hash items h
  refine ⟨m, hm, ?_, ?_⟩
  · show m.size_ = items.length
    rw [← traverse_length hI.core.loc, hp.length_eq]
  · intro p hpm
    exact at_of_mem hI.core (hp.symm.subset hpm)

/-- Witness of C1: the keys 0..999 with value `key * 2`, under the identity hash, give a
table of size 1000 in which `at(i)` is `i * 2` for every `i` below 1000. -/
theorem C1_witness_thousand_keys :
    (((List.range 1000).map (fun i => (i, i * 2))).map Prod.fst).Nodup ∧
      ∃ m, HashMap.from_list id_hash ((List.range 1000).map (fun i => (i, i * 2))) = some m ∧
        HashMap.size m = 1000 ∧
        ∀ i, i < 1000 → HashMap.at_ id_hash m i = some (AtResult.value (i * 2)) := by
  have hn : (((List.range 1000).map (fun i => (i, i * 2))).map Prod.fst).Nodup := by
    rw [List.map_map]
    have : (Prod.fst ∘ fun i : Nat => (i, i * 2)) = id := rfl
    rw [this, List.map_id]
    exact List.nodup_range 1000
  refine ⟨hn, ?_⟩
  obtain ⟨m, hm, hsz, hat⟩ :=
    C1_insert_distinct_keys id_hash ((List.range 1000).map (fun i => (i, i * 2))) hn
  refine ⟨m, hm, by simpa using hsz, ?_⟩
  intro i hi
  exact hat (i, i * 2) (List.mem_map.mpr ⟨i, List.mem_range.mpr hi, rfl⟩)

/-- The member `at` on objects that share one hash function: in every table of `Reachable`,
`at(k)` returns or throws; it throws `std::out_of_range` exactly when no record of the record
list has key `k`, otherwise it returns the value of the record with key `k`, which is
unique. The other public operations return without an error. -/
theorem at_throws_iff_no_record [Inhabited V] (hash : K → Nat) (m : HashMap K V) (k : K)
    (h : Reachable hash m) :
    (HashMap.at_ hash m k = some AtResult.out_of_range ↔
        ∀ p, p ∈ HashMap.traverse m → p.1 ≠ k) ∧
      (∀ v, (k, v) ∈ HashMap.traverse m → HashMap.at_ hash m k = some (AtResult.value v)) ∧
      (∀ v w, (k, v) ∈ HashMap.traverse m → (k, w) ∈ HashMap.traverse m → v = w) ∧
      (∃ r, HashMap.at_ hash m k = some r) ∧
      (∀ item, ∃ r, HashMap.insert hash m item = some r) ∧
      (∃ r, HashMap.erase hash m k = some r) ∧
      (∃ r it, HashMap.subscript hash m k = some (r, it)) ∧
      (∃ it, HashMap.find hash m k = some it) ∧
      (∃ r, HashMap.clear m = some r) := by
  have hI := inv_of_reachable h
  refine ⟨?_, fun v hv => at_of_mem hI.core hv, fun v w hv hw => value_unique hI.core hv hw,
    ?_, ?_, ?_, ?_, ?_, ?_⟩
  · rw [at_eq_out_of_range_iff hI]
    constructor
    · intro hno p hp hk
      exact hno p.2 (by rw [← hk]; exact hp)
    · intro hno v hv
      exact hno (k, v) hv rfl
  · rcases mem_or_not_mem m k with ⟨v, hv⟩ | hno
    · exact ⟨_, at_of_mem hI.core hv⟩
    · exact ⟨_, at_of_not_mem hI hno⟩
  · intro item
    obtain ⟨r, hr, _⟩ := insert_spec hI item.1 item.2
    exact ⟨r, hr⟩
  · obtain ⟨r, hr, _⟩ := erase_spec hI k
    exact ⟨r, hr⟩
  · obtain ⟨r, it, _, _, hr, _⟩ := subscript_spec hI k
    exact ⟨r, it, hr⟩
  · rcases mem_or_not_mem m k with ⟨v, hv⟩ | hno
    · obtain ⟨it, hit, _⟩ := find_of_mem hI.core hv
      exact ⟨_, hit⟩
    · exact ⟨_, find_of_not_mem hI hno⟩
  · exact ⟨_, clear_eq hI.core.loc⟩

/-- The member `erase` on objects that share one hash function: in every table of
`Reachable` and for every key `k`, present or not, `erase(k)` returns a table in which
`find(k)` is `end()` and `at(k)` throws `std::out_of_range`. -/
theorem find_after_erase [Inhabited V] (hash : K → Nat) (m : HashMap K V) (k : K)
    (h : Reachable hash m) :
    ∃ r, HashMap.erase hash m k = some r ∧
      HashMap.find hash r k = some (HashMap.end_ r) ∧
      HashMap.at_ hash r k = some AtResult.out_of_range := by
  have hI := inv_of_reachable h
  obtain ⟨r, hr, hIr, _, htr⟩ := erase_spec hI k
  have hno : ∀ v, (k, v) ∉ HashMap.traverse r := by
    intro v
    rw [htr]
    exact not_mem_filter_other_key _ k v
  exact ⟨r, hr, find_of_not_mem hIr hno, at_of_not_mem hIr hno⟩

/-- The `operator[]` on objects that share one hash function: in a table of `Reachable`,
`table[k]` for a key on which `at` throws returns a table with exactly one more record,
`(k, default)`, and size one more, and the returned reference is to the value of the node
registered at slot `find_position(k)` of the returned table, also after a rebuild; a second
`table[k]` returns the same reference and changes nothing. For a key on which `at` returns
`v`, `table[k]` returns a reference to the node holding `(k, v)` and the table unchanged. -/
theorem subscript_cases [Inhabited V] (hash : K → Nat) (m : HashMap K V) (k : K)
    (h : Reachable hash m) :
    (HashMap.at_ hash m k = some AtResult.out_of_range →
      ∃ r it i, HashMap.subscript hash m k = some (r, it) ∧
        HashMap.size r = HashMap.size m + 1 ∧
        (HashMap.traverse r).Perm (HashMap.traverse m ++ [(k, default)]) ∧
        HashMap.find_position hash r k = some i ∧ r.used_ i = 1 ∧
        r.storage_ i = some it ∧ deref r.pairs_ it = some (k, default) ∧
        HashMap.at_ hash r k = some (AtResult.value default) ∧
        HashMap.subscript hash r k = some (r, it)) ∧
      (∀ v, HashMap.at_ hash m k = some (AtResult.value v) →
        ∃ it i, HashMap.subscript hash m k = some (m, it) ∧
          HashMap.find_position hash m k = some i ∧ m.used_ i = 1 ∧
          m.storage_ i = some it ∧ deref m.pairs_ it = some (k, v)) := by
  have hI := inv_of_reachable h
  constructor
  · intro hat
    have hno := (at_eq_out_of_range_iff hI k).mp hat
    obtain ⟨r, it, i, v0, hsub, hIr, _, hf, hi, hu, hs, hd, hcase⟩ := subscript_spec hI k
    rcases hcase with ⟨hmem, _⟩ | ⟨_, hv0, hsz, hperm, _⟩
    · exact absurd hmem (hno v0)
    · subst hv0
      have hmem : (k, (default : V)) ∈ HashMap.traverse r :=
        List.mem_map.mpr ⟨(it, k, default), deref_some_mem hd, rfl⟩
      obtain ⟨i2, it2, hf2, _, _, hs2, _, hsub2⟩ := subscript_present hIr.core hmem
      rw [hf] at hf2
      cases hf2
      rw [hs] at hs2
      cases hs2
      exact ⟨r, it, i, hsub, hsz, hperm, hf, hu, hs, hd, at_of_mem hIr.core hmem, hsub2⟩
  · intro v hat
    have hmem := (at_eq_value_iff hI k v).mp hat
    obtain ⟨i, it, hf, _, hu, hs, hd, hsub⟩ := subscript_present hI.core hmem
    exact ⟨it, i, hsub, hf, hu, hs, hd⟩

end Claims

/-! ## Iteration order, node identity, size, uniqueness, clear -/

section Nodes2

variable {K V : Type} [DecidableEq K]

theorem find_eq_node {hash : K → Nat} {m : HashMap K V} {k : K} {it : Nat}
    (h : HashMap.find hash m k = some (Iterator.node it)) :
    ∃ i, HashMap.find_position hash m k = some i ∧ m.used_ i = 1 ∧ m.storage_ i = some it := by
  unfold HashMap.find at h
  cases hf : HashMap.find_position hash m k with
  | none => rw [hf] at h; cases h
  | some i =>
    rw [hf] at h
    by_cases hu : m.used_ i = 1
    · simp only [ne_eq, hu, not_true_eq_false, if_false] at h
      cases hs : m.storage_ i with
      | none => rw [hs] at h; cases h
      | some it2 =>
        rw [hs] at h
        cases h
        exact ⟨i, rfl, hu, hs⟩
    · simp only [ne_eq, hu, not_false_eq_true, if_true, HashMap.end_] at h
      cases h

/-- The iterator returned by `find` for the key of the record of an occupied slot. -/
theorem find_of_record {hash : K → Nat} {m : HashMap K V} (hC : Core hash m) {i it : Nat}
    {p : K × V} (hi : i < m.capacity_) (hr : record_at m i = some p)
    (hs : m.storage_ i = some it) :
    HashMap.find hash m p.1 = some (Iterator.node it) ∧ deref m.pairs_ it = some p := by
  have hf := hC.probe i p hi hr
  obtain ⟨hu, it2, hs2, hd⟩ := record_at_eq_some_iff.mp hr
  rw [hs] at hs2
  cases hs2
  exact ⟨by simp [HashMap.find, hf, hu, hs], hd⟩

/-- The call `insert((k, v))` that changes the capacity: the key was absent, and the new
list holds the records of the slots of the table as it was before the rebuild. -/
theorem insert_rebuild {hash : K → Nat} {m r : HashMap K V} (hI : Inv hash m) {k : K} {v : V}
    (h : HashMap.insert hash m (k, v) = some r) (hc : r.capacity_ ≠ m.capacity_) :
    ∃ e, HashMap.find_position hash m k = some e ∧ m.used_ e ≠ 1 ∧
      HashMap.traverse r = slot_records (HashMap.place m e k v) m.capacity_ ∧
      (∀ x ∈ r.pairs_, m.fresh_ + 2 ≤ x.1) := by
  rcases mem_or_not_mem m k with ⟨v0, hv0⟩ | hno
  · rw [insert_present hI.core hv0 v] at h
    cases h
    exact absurd rfl hc
  · obtain ⟨r2, e, b, hf, hu, hcp, hins⟩ := insert_absent hI hno v
    rw [h] at hins
    cases hins
    obtain ⟨r3, b3, h3, _, hcase⟩ := create_pair_spec hI hf hu v 1
    have h4 : HashMap.create_pair hash HashMap.NESTING m e k v = some (r3, b3) := h3
    rw [hcp] at h4
    cases h4
    rcases hcase with ⟨_, hr⟩ | ⟨_, _, _, htr, _, hnew⟩
    · rw [hr] at hc
      exact absurd rfl hc
    · exact ⟨e, hf, hu, htr, hnew⟩

/-- The call `insert((k, v))` that keeps the capacity: the table is unchanged or the record
was registered at the free slot where the probe of `k` stopped. -/
theorem insert_no_rebuild {hash : K → Nat} {m r : HashMap K V} (hI : Inv hash m) {k : K}
    {v : V} (h : HashMap.insert hash m (k, v) = some r) (hc : r.capacity_ = m.capacity_) :
    r = m ∨ ∃ e, HashMap.find_position hash m k = some e ∧ m.used_ e ≠ 1 ∧
      r = HashMap.place m e k v := by
  rcases mem_or_not_mem m k with ⟨v0, hv0⟩ | hno
  · rw [insert_present hI.core hv0 v] at h
    cases h
    exact Or.inl rfl
  · obtain ⟨r2, e, b, hf, hu, hcp, hins⟩ := insert_absent hI hno v
    rw [h] at hins
    cases hins
    obtain ⟨r3, b3, h3, _, hcase⟩ := create_pair_spec hI hf hu v 1
    have h4 : HashMap.create_pair hash HashMap.NESTING m e k v = some (r3, b3) := h3
    rw [hcp] at h4
    cases h4
    rcases hcase with ⟨_, hr⟩ | ⟨_, hcap, _⟩
    · exact Or.inr ⟨e, hf, hu, hr⟩
    · have := capacity_pos hI.core.cap
      omega

end Nodes2

section KeySet

variable {K V : Type} [DecidableEq K]

theorem keys_filter_other_key (l : List (K × V)) (k : K) :
    ((l.filter (other_key k)).map Prod.fst).toFinset = (l.map Prod.fst).toFinset.erase k := by
  ext x
  simp only [List.mem_toFinset, Finset.mem_erase, List.mem_map, List.mem_filter]
  constructor
  · rintro ⟨p, ⟨hp, hk⟩, rfl⟩
    have : p.1 ≠ k := by simpa [other_key] using hk
    exact ⟨this, p, hp, rfl⟩
  · rintro ⟨hne, p, hp, rfl⟩
    exact ⟨p, ⟨hp, by simpa [other_key] using hne⟩, rfl⟩

theorem keys_map_set_value (l : List (K × V)) (k : K) (v : V) :
    (l.map (set_value k v)).map Prod.fst = l.map Prod.fst := by
  rw [List.map_map]
  apply List.map_congr_left
  intro p _
  show (set_value k v p).1 = p.1
  unfold set_value
  split <;> rfl

theorem keys_insert_step (l : List (K × V)) (k : K) (v : V) :
    ((if k ∈ l.map Prod.fst then l else l ++ [(k, v)]).map Prod.fst).toFinset
      = Insert.insert k (l.map Prod.fst).toFinset := by
  by_cases h : k ∈ l.map Prod.fst
  · rw [if_pos h]
    exact (Finset.insert_eq_of_mem (List.mem_toFinset.mpr h)).symm
  · rw [if_neg h]
    ext x
    simp only [List.map_append, List.map_cons, List.map_nil, List.toFinset_append,
      List.toFinset_cons, List.toFinset_nil, Finset.mem_union, Finset.mem_insert,
      List.mem_toFinset, Finset.not_mem_empty, or_false]
    tauto

/-- The keys of the reference list are the reference set of keys. -/
theorem keys_model [Inhabited V] (ops : List (Op K V)) :
    ((model ops).map Prod.fst).toFinset = key_set ops := by
  induction ops using List.reverseRecOn with
  | nil => rfl
  | append_singleton ops op ih =>
    rw [model_append, key_set_append, ← ih]
    cases op with
    | insert k v => exact keys_insert_step _ k v
    | erase k => exact keys_filter_other_key _ k
    | subscript k => exact keys_insert_step _ k default
    | subscript_assign k v =>
      show (((if k ∈ (model ops).map Prod.fst then model ops
        else model ops ++ [(k, default)]).map (set_value k v)).map Prod.fst).toFinset = _
      rw [keys_map_set_value]
      exact keys_insert_step _ k default
    | clear => rfl
    | copy => rfl

end KeySet

section Claims2

variable {K V : Type} [DecidableEq K]

/-- Counterexample to C6 as stated: under the identity hash, after the insertions of the
keys 15, 0, 1, ..., 7 (the ninth triggers the rebuild) the iteration visits the pairs by
increasing key, not in insertion order; and a copy taken after the first eight insertions
is iterated by increasing key too. -/
theorem C6_counterexample_slot_order :
    (run id_hash nine_inserts).map HashMap.traverse
        = some [(0, 0), (1, 2), (2, 4), (3, 6), (4, 8), (5, 10), (6, 12), (7, 14), (15, 30)] ∧
      model nine_inserts
        = [(15, 30), (0, 0), (1, 2), (2, 4), (3, 6), (4, 8), (5, 10), (6, 12), (7, 14)] ∧
      (run id_hash (eight_inserts ++ [Op.copy])).map HashMap.traverse
        = some [(0, 0), (1, 2), (2, 4), (3, 6), (4, 8), (5, 10), (6, 12), (15, 30)] ∧
      model (eight_inserts ++ [Op.copy])
        = [(15, 30), (0, 0), (1, 2), (2, 4), (3, 6), (4, 8), (5, 10), (6, 12)] := by
  decide!

/-- Counterexample to C7 as stated: under the identity hash, after the insertions of the
keys 15, 0, 1, ..., 6, `find(15)` is the node 0; after the insertion of the unrelated key 7,
which triggers the rebuild, `find(15)` is the node 34 and the node 0 is not in the list. -/
theorem C7_counterexample_rebuild_copies_nodes :
    (run id_hash eight_inserts).bind (fun m => HashMap.find id_hash m 15)
        = some (Iterator.node 0) ∧
      (run id_hash nine_inserts).bind (fun m => HashMap.find id_hash m 15)
        = some (Iterator.node 34) ∧
      (run id_hash nine_inserts).map (fun m => deref m.pairs_ 0) = some none := by
  decide!

/-- Node identity on objects that share one hash function, for the tables that `erase` and
`insert` return: in a table of `Reachable` where `find(A)` is the node `it` holding `(A, a)`,
and for a key `B` other than `A`, `find(A)` is the same node after `erase(B)` and after an
`insert((B, v))` that keeps the capacity; after an `insert((B, v))` that changes the capacity
it is a node allocated by the rebuild, holding `(A, a)`, and `it` is no longer in the list. -/
theorem node_identity_cases [Inhabited V] (hash : K → Nat) (m : HashMap K V)
    (A B : K) (a : V) (it : Nat) (h : Reachable hash m) (hne : B ≠ A)
    (hfind : HashMap.find hash m A = some (Iterator.node it))
    (hd : deref m.pairs_ it = some (A, a)) :
    (∀ r, HashMap.erase hash m B = some r →
        HashMap.find hash r A = some (Iterator.node it) ∧ deref r.pairs_ it = some (A, a)) ∧
      (∀ v r, HashMap.insert hash m (B, v) = some r →
        (r.capacity_ = m.capacity_ →
          HashMap.find hash r A = some (Iterator.node it) ∧
            deref r.pairs_ it = some (A, a)) ∧
        (r.capacity_ ≠ m.capacity_ →
          ∃ it2, HashMap.find hash r A = some (Iterator.node it2) ∧
            deref r.pairs_ it2 = some (A, a) ∧ m.fresh_ ≤ it2 ∧
            deref r.pairs_ it = none)) := by
  have hI := inv_of_reachable h
  obtain ⟨i, hf, hu, hs⟩ := find_eq_node hfind
  have hi : i < m.capacity_ := find_position_lt hf
  have hrec : record_at m i = some (A, a) := record_at_eq_some_iff.mpr ⟨hu, it, hs, hd⟩
  have hmemA : (A, a) ∈ HashMap.traverse m := (mem_traverse_iff hI.core.loc _).mpr ⟨i, hi, hrec⟩
  constructor
  · intro r hr
    rcases mem_or_not_mem m B with ⟨b, hb⟩ | hno
    · obtain ⟨j, itB, mark, hfB, hj, huB, hsB, hdB, _, _, her, hIr, _⟩ := erase_present hI hb
      rw [hr] at her
      cases her
      have hij : i ≠ j := by
        intro hij
        have hrecB : record_at m j = some (B, b) :=
          record_at_eq_some_iff.mpr ⟨huB, itB, hsB, hdB⟩
        rw [hij, hrecB] at hrec
        cases hrec
        exact hne rfl
      have hrec2 : record_at (erased m j itB mark) i = some (A, a) := by
        rw [record_at_erased hI.core hj huB hsB hi hij]
        exact hrec
      exact find_of_record hIr.core hi hrec2 hs
    · rw [erase_absent hI hno] at hr
      cases hr
      exact ⟨hfind, hd⟩
  · intro v r hr
    constructor
    · intro hc
      rcases insert_no_rebuild hI hr hc with hrm | ⟨e, hfe, hue, hrp⟩
      · rw [hrm]
        exact ⟨hfind, hd⟩
      · have hie : i ≠ e := fun hie => hue (hie ▸ hu)
        have hCr : Core hash r := by
          rw [hrp]; exact core_place hI.core hfe hue v
        have hrec2 : record_at r i = some (A, a) := by
          rw [hrp, record_at_place_ne hI.core.loc hi hie]
          exact hrec
        have hs2 : r.storage_ i = some it := by
          rw [hrp]
          show write m.storage_ e (some m.fresh_) i = some it
          rw [write_ne _ _ hie]
          exact hs
        have hi2 : i < r.capacity_ := by rw [hc]; exact hi
        exact find_of_record hCr hi2 hrec2 hs2
    · intro hc
      obtain ⟨e, _, _, _, hnew⟩ := insert_rebuild hI hr hc
      obtain ⟨r2, hins, hIr, _, hcase⟩ := insert_spec hI B v
      rw [hr] at hins
      cases hins
      have hperm : (HashMap.traverse r).Perm (HashMap.traverse m ++ [(B, v)]) := by
        rcases hcase with ⟨_, hrm⟩ | ⟨_, _, hperm, _⟩
        · rw [hrm] at hc
          exact absurd rfl hc
        · exact hperm
      have hmem2 : (A, a) ∈ HashMap.traverse r :=
        hperm.symm.subset (List.mem_append_left _ hmemA)
      obtain ⟨it2, hfind2, hd2⟩ := find_of_mem hIr.core hmem2
      have hge := hnew (it2, A, a) (deref_some_mem hd2)
      refine ⟨it2, hfind2, hd2, by simpa using (by omega : m.fresh_ ≤ it2), ?_⟩
      apply deref_none_of_not_mem
      intro hmem
      obtain ⟨x, hx, hx1⟩ := List.mem_map.mp hmem
      have h1 := hnew x hx
      have h2 := hI.core.loc.fresh (it, A, a) (deref_some_mem hd)
      rw [hx1] at h1
      have h3 : it < m.fresh_ := h2
      omega

/-- C8 (size): after every sequence of public operations on an empty table, `size()` is
the number of keys of the reference set (a key enters it when `insert` or `operator[]`
creates it and leaves it when it is erased or the table is cleared), and `empty()` holds
exactly when this number is 0. -/
theorem C8_size_is_key_count [Inhabited V] (hash : K → Nat) (ops : List (Op K V)) :
    ∃ m, run hash ops = some m ∧ HashMap.size m = (key_set ops).card ∧
      (HashMap.empty m = true ↔ (key_set ops).card = 0) := by
  obtain ⟨m, hrun, hI, hp, _⟩ := run_refines hash ops
  have hn : ((model ops).map Prod.fst).Nodup :=
    (hp.map Prod.fst).nodup_iff.mp (traverse_keys_nodup hI.core)
  have hsz : m.size_ = (key_set ops).card := by
    rw [← keys_model ops, List.toFinset_card_of_nodup hn, List.length_map, ← hp.length_eq,
      traverse_length hI.core.loc]
  refine ⟨m, hrun, hsz, ?_⟩
  rw [← hsz]
  simp [HashMap.empty]

/-- Key uniqueness on objects that share one hash function: in every table of `Reachable`
no two occupied slots refer to records with equal keys, and no two records of the record
list have equal keys. -/
theorem keys_unique [Inhabited V] (hash : K → Nat) (m : HashMap K V)
    (h : Reachable hash m) :
    (∀ i j p q, i < m.capacity_ → j < m.capacity_ → record_at m i = some p →
        record_at m j = some q → p.1 = q.1 → i = j) ∧
      ((HashMap.traverse m).map Prod.fst).Nodup := by
  have hI := inv_of_reachable h
  exact ⟨fun i j p q hi hj hp hq hk => slot_unique hI.core hi hj hp hq hk,
    traverse_keys_nodup hI.core⟩

/-- C10 (clear): on every reachable table `clear()` returns a table with `size() == 0`,
`empty()`, an empty iteration (`begin() == end()`), on which `at` throws for every key;
every slot that was occupied is a tombstone, every other slot keeps its state, and the
capacity and the workload are unchanged. -/
theorem C10_clear [Inhabited V] (hash : K → Nat) (m : HashMap K V) (h : Reachable hash m) :
    ∃ r, HashMap.clear m = some r ∧ HashMap.size r = 0 ∧ HashMap.empty r = true ∧
      (∀ k, HashMap.at_ hash r k = some AtResult.out_of_range) ∧
      HashMap.traverse r = [] ∧ HashMap.begin_ r = HashMap.end_ r ∧
      (∀ i, i < m.capacity_ →
        (m.used_ i = 1 → r.used_ i = 2) ∧ (m.used_ i ≠ 1 → r.used_ i = m.used_ i)) ∧
      r.capacity_ = m.capacity_ ∧ r.current_workload_ = m.current_workload_ := by
  have hI := inv_of_reachable h
  refine ⟨cleared m, clear_eq hI.core.loc, rfl, rfl, ?_, rfl, rfl, ?_, rfl, rfl⟩
  · intro k
    exact at_of_not_mem (inv_cleared hI) (fun v hv => by cases hv)
  · intro i hi
    rw [cleared_used hI.core.loc hi]
    constructor
    · intro hu; rw [if_pos hu]
    · intro hu; rw [if_neg hu]

/-- Witness of C10: clearing the table holding (1, 10) leaves a tombstone at slot 1. -/
theorem C10_witness_one_entry :
    Reachable id_hash one_entry ∧
      ∃ r, HashMap.clear one_entry = some r ∧ HashMap.size r = 0 ∧ r.used_ 1 = 2 ∧
        HashMap.at_ id_hash r 1 = some AtResult.out_of_range := by
  obtain ⟨r, hr, hsz, _, hat, _, _, hslots, _⟩ :=
    C10_clear id_hash one_entry ⟨[Op.insert 1 10], rfl⟩
  exact ⟨⟨[Op.insert 1 10], rfl⟩, r, hr, hsz, (hslots 1 (by decide)).1 (by decide), hat 1⟩

end Claims2

/-! ## Copy, termination of the probe, the stride, the load factor -/

section Counting2

theorem count_slots_split (n : Nat) (u : Nat → Nat) :
    count_slots n (fun i => decide (u i = 1 ∨ u i = 2))
      = count_slots n (fun i => decide (u i = 1)) + count_slots n (fun i => decide (u i = 2)) := by
  induction n with
  | zero => rfl
  | succ n ih =>
    rw [count_slots_succ, count_slots_succ, count_slots_succ, ih]
    by_cases h1 : u n = 1
    · have h2 : ¬ u n = 2 := by omega
      simp [h1]
      omega
    · by_cases h2 : u n = 2
      · simp [h2]
        omega
      · simp [h1, h2]

end Counting2

section Probe2

variable {K V : Type} [DecidableEq K]

/-- The loop condition holds at a slot: the slot is a tombstone or holds another key. -/
theorem probe_condition_true {m : HashMap K V} {key : K} {i : Nat}
    (h : HashMap.probe_condition m key i = some true) :
    i < m.capacity_ ∧ (m.used_ i = 2 ∨ ∃ q, record_at m i = some q ∧ q.1 ≠ key) := by
  have hi := probe_condition_lt h
  refine ⟨hi, ?_⟩
  by_cases h2 : m.used_ i = 2
  · exact Or.inl h2
  · right
    by_cases h1 : m.used_ i = 1
    · rw [probe_condition_occ key hi h1] at h
      cases hr : record_at m i with
      | none => rw [hr] at h; cases h
      | some q =>
        rw [hr] at h
        simp only [Option.map_some', Option.some.injEq, decide_eq_true_eq] at h
        exact ⟨q, rfl, h⟩
    · rw [probe_condition_free key hi h1 h2] at h
      cases h

/-- Two tables of the same capacity on which the loop condition has the same value at
every slot give the same result to `find_position`. -/
theorem find_position_congr {hash : K → Nat} {m n : HashMap K V}
    (hc : n.capacity_ = m.capacity_)
    (hp : ∀ key j, HashMap.probe_condition n key j = HashMap.probe_condition m key j)
    (key : K) : HashMap.find_position hash n key = HashMap.find_position hash m key := by
  apply Option.ext
  intro i
  rw [Option.mem_def, Option.mem_def]
  constructor
  · intro hf
    refine find_position_transfer hc.symm hf ?_ ?_
    · rw [← hp]; exact find_position_stop hf
    · intro j hj
      rw [← hp]; exact hj
  · intro hf
    refine find_position_transfer hc hf ?_ ?_
    · rw [hp]; exact find_position_stop hf
    · intro j hj
      rw [hp]; exact hj

/-- The loop of `find_position` stops, at the first slot of the probe sequence where its
condition fails, in every table of capacity `16 * 2 ^ j` with a free slot whose occupied
slots refer to records. -/
theorem find_position_first_stop (hash : K → Nat) {m : HashMap K V}
    (hcap : ∃ j, m.capacity_ = INITIAL_SIZE * 2 ^ j)
    (hocc : ∀ i, i < m.capacity_ → m.used_ i = 1 → ∃ p, record_at m i = some p)
    (hw : count_slots m.capacity_ (fun i => decide (m.used_ i = 1 ∨ m.used_ i = 2))
      < m.capacity_) (key : K) :
    ∃ i t, HashMap.find_position hash m key = some i ∧ t < m.capacity_ ∧
      StopsAt m key (hash key % SIZE_T_MOD)
        (HashMap.compute_shift_hash m (hash key % SIZE_T_MOD)) t i := by
  obtain ⟨e, he, hfree⟩ := exists_of_count_slots_lt hw
  simp only [decide_eq_false_iff_not, not_or] at hfree
  have hstop : HashMap.probe_condition m key e = some false :=
    probe_condition_free key he hfree.1 hfree.2
  have hdef : ∀ j, j < m.capacity_ → HashMap.probe_condition m key j ≠ none := by
    intro j hj
    by_cases h2 : m.used_ j = 2
    · rw [probe_condition_tomb key hj h2]; simp
    · by_cases h1 : m.used_ j = 1
      · obtain ⟨p, hp⟩ := hocc j hj h1
        rw [probe_condition_record key hj hp]; simp
      · rw [probe_condition_free key hj h1 h2]; simp
  obtain ⟨t0, ht0, hidx⟩ := exists_step_to hcap
    (compute_shift_hash_odd m (hash key % SIZE_T_MOD) (two_dvd_capacity hcap))
    (hash key % SIZE_T_MOD) e he
  have hex : ∃ t, HashMap.probe_condition m key
      ((hash key % SIZE_T_MOD + t * HashMap.compute_shift_hash m (hash key % SIZE_T_MOD))
        % m.capacity_) = some false :=
    ⟨t0, by rw [hidx]; exact hstop⟩
  have hpos : 0 < m.capacity_ := by omega
  have hlt : Nat.find hex < m.capacity_ :=
    lt_of_le_of_lt (Nat.find_min' hex (by rw [hidx]; exact hstop)) ht0
  have hst : StopsAt m key (hash key % SIZE_T_MOD)
      (HashMap.compute_shift_hash m (hash key % SIZE_T_MOD)) (Nat.find hex)
      ((hash key % SIZE_T_MOD
        + Nat.find hex * HashMap.compute_shift_hash m (hash key % SIZE_T_MOD))
        % m.capacity_) := by
    refine ⟨rfl, Nat.find_spec hex, ?_⟩
    intro u hu
    have hne := Nat.find_min hex hu
    have hd := hdef _ (Nat.mod_lt
      (hash key % SIZE_T_MOD + u * HashMap.compute_shift_hash m (hash key % SIZE_T_MOD)) hpos)
    cases hc : HashMap.probe_condition m key
        ((hash key % SIZE_T_MOD + u * HashMap.compute_shift_hash m (hash key % SIZE_T_MOD))
          % m.capacity_) with
    | none => exact absurd hc hd
    | some b =>
      cases b with
      | true => rfl
      | false => exact absurd hc hne
  exact ⟨_, Nat.find hex, (find_position_eq_some_iff hash m key _).mpr ⟨_, hlt, hst⟩, hlt, hst⟩

end Probe2

section Reach

variable {K V : Type} [DecidableEq K] [Inhabited V]

theorem reachable_init (hash : K → Nat) : Reachable hash (HashMap.init : HashMap K V) :=
  ⟨[], rfl⟩

end Reach

section Claims3

variable {K V : Type} [DecidableEq K]

/-- The copy constructor, and `operator=` between objects with the same hash function: the
copy of a table of `Reachable` has the same capacity, so that no rebuild happened while
copying, the same state of every slot, the same size and workload, and equal records at the
occupied slots. `find_position` stops at the same slot for every key, `at` has the same
result, and `find` is `end()` on both or refers on both to nodes with equal content. -/
theorem copy_agrees [Inhabited V] (hash : K → Nat) (m : HashMap K V) (h : Reachable hash m) :
    ∃ c, HashMap.copy hash m = some c ∧ c.capacity_ = m.capacity_ ∧
      (∀ i, i < m.capacity_ → c.used_ i = m.used_ i) ∧
      HashMap.size c = HashMap.size m ∧ c.current_workload_ = m.current_workload_ ∧
      (∀ i, i < m.capacity_ → record_at c i = record_at m i) ∧
      (∀ k, HashMap.find_position hash c k = HashMap.find_position hash m k) ∧
      (∀ k, HashMap.at_ hash c k = HashMap.at_ hash m k) ∧
      (∀ k, HashMap.find hash c k = some Iterator.past_the_end ↔
        HashMap.find hash m k = some Iterator.past_the_end) ∧
      (∀ k it, HashMap.find hash c k = some (Iterator.node it) →
        ∃ it2, HashMap.find hash m k = some (Iterator.node it2) ∧
          deref c.pairs_ it = deref m.pairs_ it2 ∧ (deref c.pairs_ it).isSome) := by
  have hI := inv_of_reachable h
  obtain ⟨c, hc, hIc, hcap, hused, hrec, htr, hw, hsz⟩ := copy_spec hI
  have hperm : (HashMap.traverse c).Perm (HashMap.traverse m) := by
    rw [htr]; exact slot_records_perm hI.core
  have hmem : ∀ k, (∀ v, (k, v) ∉ HashMap.traverse c) ↔ (∀ v, (k, v) ∉ HashMap.traverse m) := by
    intro k
    constructor
    · intro hno v hv; exact hno v (hperm.symm.subset hv)
    · intro hno v hv; exact hno v (hperm.subset hv)
  have hpc : ∀ key l,
      HashMap.probe_condition c key l = HashMap.probe_condition m key l := by
    intro key l
    rw [probe_condition_eq, probe_condition_eq, hcap]
    by_cases hl : l < m.capacity_
    · rw [hused l hl, hrec l hl]
    · rw [if_neg hl, if_neg hl]
  refine ⟨c, hc, hcap, hused, hsz, hw, hrec, find_position_congr hcap hpc, ?_, ?_, ?_⟩
  · intro k
    rcases mem_or_not_mem m k with ⟨v, hv⟩ | hno
    · rw [at_of_mem hI.core hv, at_of_mem hIc.core (hperm.symm.subset hv)]
    · rw [at_of_not_mem hI hno, at_of_not_mem hIc ((hmem k).mpr hno)]
  · intro k
    rcases mem_or_not_mem m k with ⟨v, hv⟩ | hno
    · obtain ⟨it, hit, _⟩ := find_of_mem hI.core hv
      obtain ⟨it2, hit2, _⟩ := find_of_mem hIc.core (hperm.symm.subset hv)
      rw [hit, hit2]
      constructor <;> intro hh <;> cases hh
    · rw [find_of_not_mem hI hno, find_of_not_mem hIc ((hmem k).mpr hno)]
  · intro k it hfind
    rcases mem_or_not_mem m k with ⟨v, hv⟩ | hno
    · obtain ⟨it2, hit2, hd2⟩ := find_of_mem hI.core hv
      obtain ⟨it3, hit3, hd3⟩ := find_of_mem hIc.core (hperm.symm.subset hv)
      rw [hfind] at hit3
      cases hit3
      exact ⟨it2, hit2, by rw [hd2, hd3], by rw [hd3]; rfl⟩
    · rw [find_of_not_mem hIc ((hmem k).mpr hno)] at hfind
      cases hfind

/-- C12 (termination of the probe): in every table of capacity `16 * 2 ^ j` whose occupied
slots refer to records and in which fewer than `capacity_` slots are occupied or tombstones,
and for every key and hash function, `find_position` returns. The slot returned is on the
probe sequence `h, h + s, h + 2 s, ...` modulo the capacity, at a step below the capacity;
every slot of the sequence before it is a tombstone or holds another key; the slot itself is
not a tombstone, it holds the key when it is occupied, and it is free when no slot holds
the key. -/
theorem C12_find_position_stops (hash : K → Nat) (m : HashMap K V) (key : K)
    (hcap : ∃ j, m.capacity_ = INITIAL_SIZE * 2 ^ j)
    (hocc : ∀ i, i < m.capacity_ → m.used_ i = 1 → ∃ p, record_at m i = some p)
    (hw : count_slots m.capacity_ (fun i => decide (m.used_ i = 1 ∨ m.used_ i = 2))
      < m.capacity_) :
    ∃ i t, HashMap.find_position hash m key = some i ∧ t < m.capacity_ ∧
      (hash key % SIZE_T_MOD + t * HashMap.compute_shift_hash m (hash key % SIZE_T_MOD))
        % m.capacity_ = i ∧
      (∀ u, u < t →
        m.used_ ((hash key % SIZE_T_MOD
            + u * HashMap.compute_shift_hash m (hash key % SIZE_T_MOD)) % m.capacity_) = 2 ∨
          ∃ q, record_at m ((hash key % SIZE_T_MOD
            + u * HashMap.compute_shift_hash m (hash key % SIZE_T_MOD)) % m.capacity_)
              = some q ∧ q.1 ≠ key) ∧
      i < m.capacity_ ∧ m.used_ i ≠ 2 ∧
      (m.used_ i = 1 → ∃ v, record_at m i = some (key, v)) ∧
      ((∀ j v, j < m.capacity_ → record_at m j ≠ some (key, v)) →
        m.used_ i ≠ 1 ∧ m.used_ i ≠ 2) := by
  obtain ⟨i, t, hf, ht, hidx, hstop, hpath⟩ := find_position_first_stop hash hcap hocc hw key
  obtain ⟨hi, h2, hrec⟩ := probe_condition_false hstop
  refine ⟨i, t, hf, ht, hidx, ?_, hi, h2, hrec, ?_⟩
  · intro u hu
    exact (probe_condition_true (hpath u hu)).2
  · intro hno
    refine ⟨?_, h2⟩
    intro h1
    obtain ⟨v, hv⟩ := hrec h1
    exact hno i v hi hv

end Claims3

section Claims4

variable {K V : Type}

/-- Refutation of C13 as stated: there is no primary hash and no capacity `16 * 2 ^ j` for
which `compute_shift_hash` returns 0. -/
theorem C13_counterexample_stride_never_zero :
    ¬ ∃ (m : HashMap Nat Nat) (h : Nat),
      (∃ j, m.capacity_ = INITIAL_SIZE * 2 ^ j) ∧ HashMap.compute_shift_hash m h = 0 := by
  rintro ⟨m, h, hcap, h0⟩
  have := compute_shift_hash_odd m h (two_dvd_capacity hcap)
  rw [h0] at this
  cases this

/-- C13, amended (the stride): for every primary hash and every capacity `16 * 2 ^ j` the
step computed by `compute_shift_hash` is odd, so it is never 0, it is below the capacity,
and the probe sequence `start, start + step, ...` modulo the capacity reaches every slot
within `capacity_` steps. -/
theorem C13_stride_is_odd (m : HashMap K V) (h : Nat)
    (hcap : ∃ j, m.capacity_ = INITIAL_SIZE * 2 ^ j) :
    HashMap.compute_shift_hash m h % 2 = 1 ∧ HashMap.compute_shift_hash m h ≠ 0 ∧
      HashMap.compute_shift_hash m h < m.capacity_ ∧
      ∀ start e, e < m.capacity_ →
        ∃ t, t < m.capacity_ ∧
          (start + t * HashMap.compute_shift_hash m h) % m.capacity_ = e := by
  have hodd := compute_shift_hash_odd m h (two_dvd_capacity hcap)
  have hpos := capacity_pos hcap
  refine ⟨hodd, by omega, ?_, fun start e he => exists_step_to hcap hodd start e he⟩
  unfold HashMap.compute_shift_hash SHIFT_HASH_FACTORS
  simp only [List.foldl]
  exact Nat.mod_lt _ (by omega)

/-- Witness of C13: the hash 12345 in a table of capacity 16. -/
theorem C13_witness_empty_table :
    (∃ j, (HashMap.init : HashMap Nat Nat).capacity_ = INITIAL_SIZE * 2 ^ j) ∧
      HashMap.compute_shift_hash (HashMap.init : HashMap Nat Nat) 12345 ≠ 0 :=
  ⟨⟨0, rfl⟩, (C13_stride_is_odd (HashMap.init : HashMap Nat Nat) 12345 ⟨0, rfl⟩).2.1⟩

end Claims4

section Claims5

variable {K V : Type} [DecidableEq K]

end Claims5

/-! ## Growth, probe reachability, counters, frame of erase and of lookups -/

section Growth

variable {K V : Type} [DecidableEq K]

/-- The call `insert((k, v))` for a key without record, by the load that the registration
of the new record reaches: below the threshold nothing else happens; above it the table is
rebuilt once, at twice the capacity. -/
theorem insert_absent_cases {hash : K → Nat} {m : HashMap K V} (hI : Inv hash m) {k : K}
    (hno : ∀ v0, (k, v0) ∉ HashMap.traverse m) (v : V) :
    ∃ e, HashMap.find_position hash m k = some e ∧ e < m.capacity_ ∧ m.used_ e ≠ 1 ∧
      m.used_ e ≠ 2 ∧
      ((2 * (m.current_workload_ + 1) ≤ m.capacity_ ∧
          HashMap.create_pair hash 1 m e k v = some (HashMap.place m e k v, false) ∧
          HashMap.insert hash m (k, v) = some (HashMap.place m e k v) ∧
          Inv hash (HashMap.place m e k v)) ∨
        (m.capacity_ < 2 * (m.current_workload_ + 1) ∧
          ∃ r, HashMap.create_pair hash 1 m e k v = some (r, true) ∧
            HashMap.insert hash m (k, v) = some r ∧ Inv hash r ∧
            r.capacity_ = m.capacity_ * 2 ∧ r.current_workload_ = r.size_ ∧
            r.size_ = m.size_ + 1 ∧ (∀ i, r.used_ i ≠ 2) ∧
            (HashMap.traverse r).Perm (HashMap.traverse m ++ [(k, v)]))) := by
  obtain ⟨e, hf, he, hu⟩ := find_position_of_not_mem hI hno
  obtain ⟨_, h2, _⟩ := probe_condition_false (find_position_stop hf)
  obtain ⟨r, b, hcp, hIr, hcase⟩ := create_pair_spec hI hf hu v 0
  have hcp1 : HashMap.create_pair hash 1 m e k v = some (r, b) := hcp
  have hcp2 : HashMap.create_pair hash HashMap.NESTING m e k v = some (r, b) := by
    show HashMap.create_pair hash (1 + 1) m e k v = some (r, b)
    rw [create_pair_depth]
    exact hcp
  have hins : HashMap.insert hash m (k, v) = some r := by
    simp [HashMap.insert, hf, hu, hcp2]
  obtain ⟨_, hperm, hsz, _⟩ := create_pair_perm hI hf hu v hcp
  refine ⟨e, hf, he, hu, h2, ?_⟩
  by_cases hov : 2 * (m.current_workload_ + 1) ≤ m.capacity_
  · left
    have hfalse : HashMap.check_overload (HashMap.place m e k v) = false :=
      (check_overload_false_iff _).mpr hov
    have h3 := create_pair_no_overload hash 1 he k v hfalse
    rw [hcp1] at h3
    cases h3
    exact ⟨hov, hcp1, hins, hIr⟩
  · right
    have htrue : HashMap.check_overload (HashMap.place m e k v) = true :=
      (check_overload_iff _).mpr (by
        show m.capacity_ < 2 * (m.current_workload_ + 1)
        omega)
    rcases hcase with ⟨_, hr⟩ | ⟨hb, hcap, hws, _, hnot, _⟩
    · exfalso
      have := hIr.load
      rw [hr] at this
      have h4 : 2 * (m.current_workload_ + 1) ≤ m.capacity_ := this
      exact hov h4
    · subst hb
      exact ⟨by omega, r, hcp1, hins, hIr, hcap, hws, hsz, hnot, hperm⟩

end Growth

section Positions

variable {K V : Type}

theorem positions_erased {m : HashMap K V} (hL : Loc m) {i mark : Nat}
    (hmk : m.mark_indexes_ i = some mark) (hmem : (mark, i) ∈ m.used_positions_) :
    (m.used_positions_.filter (is_other mark)).map Prod.snd
      = (m.used_positions_.map Prod.snd).filter (other_slot i) := by
  rw [List.filter_map]
  congr 1
  apply List.filter_congr
  intro n hn
  show is_other mark n = other_slot i n.2
  by_cases h1 : n.1 = mark
  · have h2 : deref m.used_positions_ n.1 = some n.2 := deref_of_mem hL.pos_ids hn
    have h3 : deref m.used_positions_ mark = some i := deref_of_mem hL.pos_ids hmem
    rw [h1, h3] at h2
    have h4 : n.2 = i := (Option.some.inj h2).symm
    simp [is_other, other_slot, h1, h4]
  · have h4 : n.2 ≠ i := by
      intro h4
      have := (hL.pos_mem n hn).2.2
      rw [h4, hmk] at this
      exact h1 (Option.some.inj this).symm
    simp [is_other, other_slot, h1, h4]

theorem mem_append_other {l : List (K × V)} {A B : K} (hne : A ≠ B) (v w : V) :
    (A, v) ∈ l ++ [(B, w)] ↔ (A, v) ∈ l := by
  rw [List.mem_append, List.mem_singleton]
  constructor
  · rintro (h | h)
    · exact h
    · exact absurd (congrArg Prod.fst h) hne
  · exact Or.inl

end Positions

section Lookups

variable {K V : Type} [DecidableEq K]

/-- The lookups of a key have the same results in two tables that satisfy the invariant
and have the same records for the key. -/
theorem lookup_same {hash : K → Nat} {m r : HashMap K V} (hI : Inv hash m) (hIr : Inv hash r)
    {A : K} (hm : ∀ v, (A, v) ∈ HashMap.traverse r ↔ (A, v) ∈ HashMap.traverse m) :
    HashMap.at_ hash r A = HashMap.at_ hash m A ∧
      (HashMap.find hash r A = some Iterator.past_the_end ↔
        HashMap.find hash m A = some Iterator.past_the_end) := by
  rcases mem_or_not_mem m A with ⟨v, hv⟩ | hno
  · have hv2 := (hm v).mpr hv
    obtain ⟨it, hit, _⟩ := find_of_mem hI.core hv
    obtain ⟨it2, hit2, _⟩ := find_of_mem hIr.core hv2
    refine ⟨by rw [at_of_mem hI.core hv, at_of_mem hIr.core hv2], ?_⟩
    rw [hit, hit2]
    constructor <;> intro hh <;> cases hh
  · have hno2 : ∀ v, (A, v) ∉ HashMap.traverse r := fun v hv => hno v ((hm v).mp hv)
    exact ⟨by rw [at_of_not_mem hI hno, at_of_not_mem hIr hno2],
      by rw [find_of_not_mem hI hno, find_of_not_mem hIr hno2]⟩

theorem mem_filter_other_key {l : List (K × V)} {A B : K} (hne : A ≠ B) (v : V) :
    (A, v) ∈ l.filter (other_key B) ↔ (A, v) ∈ l := by
  rw [List.mem_filter]
  constructor
  · exact And.left
  · intro h
    exact ⟨h, by simp [other_key, hne]⟩

end Lookups

section Claims6

variable {K V : Type} [DecidableEq K]

/-- Growth on objects that share one hash function: in a table of `Reachable` of capacity
`C` and workload `W`, `insert((k, v))` for a key on which `at` throws returns. When `W + 1`
exceeds `C / 2` the table is rebuilt exactly once (`create_pair` succeeds with one level of
rebuild), the capacity becomes `2 * C`, no slot is a tombstone and workload and size are the
old size plus one. Otherwise the capacity stays `C`, the workload is `W + 1` and the size
grows by one. In both cases every key keeps the value it had, and the capacities are of the
form `16 * 2 ^ j`. -/
theorem insert_growth [Inhabited V] (hash : K → Nat) (m : HashMap K V) (k : K) (v : V)
    (h : Reachable hash m) (hk : HashMap.at_ hash m k = some AtResult.out_of_range) :
    ∃ r e, HashMap.find_position hash m k = some e ∧
      HashMap.insert hash m (k, v) = some r ∧
      (m.capacity_ / 2 < m.current_workload_ + 1 →
        HashMap.create_pair hash 1 m e k v = some (r, true) ∧
          r.capacity_ = 2 * m.capacity_ ∧ (∀ i, r.used_ i ≠ 2) ∧
          r.current_workload_ = r.size_ ∧ r.size_ = m.size_ + 1) ∧
      (¬ m.capacity_ / 2 < m.current_workload_ + 1 →
        HashMap.create_pair hash 1 m e k v = some (r, false) ∧
          r.capacity_ = m.capacity_ ∧ r.current_workload_ = m.current_workload_ + 1 ∧
          r.size_ = m.size_ + 1) ∧
      (∀ key value, HashMap.at_ hash m key = some (AtResult.value value) →
        HashMap.at_ hash r key = some (AtResult.value value)) ∧
      HashMap.at_ hash r k = some (AtResult.value v) ∧
      (∃ j, m.capacity_ = INITIAL_SIZE * 2 ^ j) ∧ (∃ j, r.capacity_ = INITIAL_SIZE * 2 ^ j) := by
  have hI := inv_of_reachable h
  have hno := (at_eq_out_of_range_iff hI k).mp hk
  obtain ⟨c, hc⟩ := two_dvd_capacity hI.core.cap
  obtain ⟨e, hf, he, hu1, hu2, hcase⟩ := insert_absent_cases hI hno v
  have hkeep : ∀ r, Inv hash r → (HashMap.traverse r).Perm (HashMap.traverse m ++ [(k, v)]) →
      (∀ key value, HashMap.at_ hash m key = some (AtResult.value value) →
        HashMap.at_ hash r key = some (AtResult.value value)) ∧
      HashMap.at_ hash r k = some (AtResult.value v) := by
    intro r hIr hperm
    constructor
    · intro key value hat
      have hmem := (at_eq_value_iff hI key value).mp hat
      exact at_of_mem hIr.core (hperm.symm.subset (List.mem_append_left _ hmem))
    · exact at_of_mem hIr.core
        (hperm.symm.subset (List.mem_append_right _ (List.mem_singleton_self _)))
  rcases hcase with ⟨hle, hcp, hins, hIr⟩ | ⟨hlt, r, hcp, hins, hIr, hcap, hws, hsz, hnot, hperm⟩
  · have hk2 := hkeep _ hIr (by rw [traverse_place])
    refine ⟨HashMap.place m e k v, e, hf, hins, ?_, ?_, hk2.1, hk2.2, hI.core.cap, hIr.core.cap⟩
    · intro hgt
      exfalso
      omega
    · intro _
      exact ⟨hcp, rfl, rfl, rfl⟩
  · have hk2 := hkeep r hIr hperm
    refine ⟨r, e, hf, hins, ?_, ?_, hk2.1, hk2.2, hI.core.cap, hIr.core.cap⟩
    · intro _
      exact ⟨hcp, by omega, hnot, hws, hsz⟩
    · intro hgt
      exfalso
      omega

/-- Probe reachability on objects that share one hash function: in every table of
`Reachable`, for every occupied slot `i` whose record has key `k`, `find_position(k)`
returns `i`: the slot is on the probe sequence of `k`, at a step below the capacity, and
every slot of the sequence before it is a tombstone or occupied with another key, never
free. The table that `rebuild` returns has the same property. -/
theorem probe_reachability [Inhabited V] (hash : K → Nat) (m : HashMap K V)
    (h : Reachable hash m) :
    (∀ i p, i < m.capacity_ → record_at m i = some p →
      HashMap.find_position hash m p.1 = some i ∧
        ∃ t, t < m.capacity_ ∧
          (hash p.1 % SIZE_T_MOD
            + t * HashMap.compute_shift_hash m (hash p.1 % SIZE_T_MOD)) % m.capacity_ = i ∧
          ∀ u, u < t →
            m.used_ ((hash p.1 % SIZE_T_MOD
              + u * HashMap.compute_shift_hash m (hash p.1 % SIZE_T_MOD)) % m.capacity_) = 2 ∨
            ∃ q, record_at m ((hash p.1 % SIZE_T_MOD
              + u * HashMap.compute_shift_hash m (hash p.1 % SIZE_T_MOD)) % m.capacity_)
                = some q ∧ q.1 ≠ p.1) ∧
      (∀ d, ∃ r, HashMap.rebuild hash d m (m.capacity_ * 2) = some r ∧
        ∀ i p, i < r.capacity_ → record_at r i = some p →
          HashMap.find_position hash r p.1 = some i) := by
  have hI := inv_of_reachable h
  constructor
  · intro i p hi hr
    have hf := hI.core.probe i p hi hr
    refine ⟨hf, ?_⟩
    obtain ⟨t, ht, hidx, _, hpath⟩ := (find_position_eq_some_iff hash m p.1 i).mp hf
    exact ⟨t, ht, hidx, fun u hu => (probe_condition_true (hpath u hu)).2⟩
  · intro d
    obtain ⟨r, hr, hIr, _⟩ := rebuild_spec d hI.core
    exact ⟨r, hr, hIr.core.probe⟩

/-- The counters on objects that share one hash function: in every table of `Reachable`
`size_` is the number of occupied slots, the number of records of `pairs_` and the length of
`used_positions_`, and `current_workload_` is the number of occupied slots plus the number
of tombstones. The table that `rebuild` returns has the same property. -/
theorem counters_agree [Inhabited V] (hash : K → Nat) (m : HashMap K V)
    (h : Reachable hash m) :
    (m.size_ = count_slots m.capacity_ (fun i => decide (m.used_ i = 1)) ∧
      m.size_ = m.pairs_.length ∧ m.size_ = m.used_positions_.length ∧
      m.current_workload_
        = count_slots m.capacity_ (fun i => decide (m.used_ i = 1))
          + count_slots m.capacity_ (fun i => decide (m.used_ i = 2))) ∧
      (∀ d, ∃ r, HashMap.rebuild hash d m (m.capacity_ * 2) = some r ∧
        r.size_ = count_slots r.capacity_ (fun i => decide (r.used_ i = 1)) ∧
        r.size_ = r.pairs_.length ∧ r.size_ = r.used_positions_.length ∧
        r.current_workload_
          = count_slots r.capacity_ (fun i => decide (r.used_ i = 1))
            + count_slots r.capacity_ (fun i => decide (r.used_ i = 2))) := by
  have hI := inv_of_reachable h
  have hL := hI.core.loc
  refine ⟨⟨hL.count1.symm, hL.size, hL.pos_len.symm,
    by rw [← count_slots_split, hL.count12]⟩, ?_⟩
  intro d
  obtain ⟨r, hr, hIr, _⟩ := rebuild_spec d hI.core
  have hLr := hIr.core.loc
  exact ⟨r, hr, hLr.count1.symm, hLr.size, hLr.pos_len.symm,
    by rw [← count_slots_split, hLr.count12]⟩

/-- The frame of `erase` on objects that share one hash function: in a table of
`Reachable`, `erase(k)` for a key on which `at` throws returns the table unchanged. For a
key with value `v`, found at slot `i`, it returns a table in which slot `i`, which was
occupied, is a tombstone and every other slot has its old state; the record list is the old
one without the record of `k`, the others in their order; `used_positions_` is the old one
without the index `i`; the size is one less; the workload, the capacity and the arrays of
iterators are unchanged. -/
theorem erase_frame [Inhabited V] (hash : K → Nat) (m : HashMap K V) (k : K)
    (h : Reachable hash m) :
    (HashMap.at_ hash m k = some AtResult.out_of_range → HashMap.erase hash m k = some m) ∧
      (∀ v, HashMap.at_ hash m k = some (AtResult.value v) →
        ∃ r i, HashMap.find_position hash m k = some i ∧ i < m.capacity_ ∧
          HashMap.erase hash m k = some r ∧
          m.used_ i = 1 ∧ r.used_ i = 2 ∧ (∀ j, j ≠ i → r.used_ j = m.used_ j) ∧
          (k, v) ∈ HashMap.traverse m ∧
          HashMap.traverse r = (HashMap.traverse m).filter (other_key k) ∧
          (HashMap.traverse r).length + 1 = (HashMap.traverse m).length ∧
          i ∈ m.used_positions_.map Prod.snd ∧
          r.used_positions_.map Prod.snd
            = (m.used_positions_.map Prod.snd).filter (other_slot i) ∧
          r.used_positions_.length + 1 = m.used_positions_.length ∧
          r.size_ + 1 = m.size_ ∧ r.current_workload_ = m.current_workload_ ∧
          r.capacity_ = m.capacity_ ∧ r.storage_ = m.storage_ ∧
          r.mark_indexes_ = m.mark_indexes_) := by
  have hI := inv_of_reachable h
  constructor
  · intro hat
    exact erase_absent hI ((at_eq_out_of_range_iff hI k).mp hat)
  · intro v hat
    have hmem := (at_eq_value_iff hI k v).mp hat
    obtain ⟨i, it, mark, hf, hi, hu, hs, hd, hmk, hpos, her, hIr, htr⟩ := erase_present hI hmem
    have hL := hI.core.loc
    have hLr := hIr.core.loc
    have hlen : (HashMap.traverse (erased m i it mark)).length + 1
        = (HashMap.traverse m).length := by
      rw [traverse_length hLr, traverse_length hL]
      have h1 := hLr.pos_len
      have h2 := hL.pos_len
      have hmk2 : mark ∈ m.used_positions_.map Prod.fst := List.mem_map_of_mem Prod.fst hpos
      have h3 := length_filter_ne hL.pos_ids hmk2
      have h4 : (erased m i it mark).used_positions_
          = m.used_positions_.filter (is_other mark) := rfl
      rw [h4] at h1
      omega
    have hmk2 : mark ∈ m.used_positions_.map Prod.fst := List.mem_map_of_mem Prod.fst hpos
    refine ⟨erased m i it mark, i, hf, hi, her, hu, write_same _ _ _, ?_, hmem, htr, hlen,
      List.mem_map_of_mem Prod.snd hpos, positions_erased hL hmk hpos,
      length_filter_ne hL.pos_ids hmk2, ?_, rfl, rfl, rfl, rfl⟩
    · intro j hj
      exact write_ne _ _ hj
    · rw [← traverse_length hLr, ← traverse_length hL]
      exact hlen

/-- The frame of lookups on objects that share one hash function: in a table of
`Reachable` and for distinct keys `A` and `B`, each of `insert((B, v))`, `table[B]` and
`erase(B)` returns, and in the table returned `at(A)` has the result it had (the same value,
or the exception) and `find(A)` is `end()` exactly when it was, also when the operation
rebuilt the table or left a tombstone. -/
theorem lookup_frame [Inhabited V] (hash : K → Nat) (m : HashMap K V) (A B : K) (v : V)
    (h : Reachable hash m) (hne : A ≠ B) :
    (∃ r, HashMap.insert hash m (B, v) = some r ∧
        HashMap.at_ hash r A = HashMap.at_ hash m A ∧
        (HashMap.find hash r A = some Iterator.past_the_end ↔
          HashMap.find hash m A = some Iterator.past_the_end)) ∧
      (∃ r it, HashMap.subscript hash m B = some (r, it) ∧
        HashMap.at_ hash r A = HashMap.at_ hash m A ∧
        (HashMap.find hash r A = some Iterator.past_the_end ↔
          HashMap.find hash m A = some Iterator.past_the_end)) ∧
      (∃ r, HashMap.erase hash m B = some r ∧
        HashMap.at_ hash r A = HashMap.at_ hash m A ∧
        (HashMap.find hash r A = some Iterator.past_the_end ↔
          HashMap.find hash m A = some Iterator.past_the_end)) := by
  have hI := inv_of_reachable h
  refine ⟨?_, ?_, ?_⟩
  · obtain ⟨r, hins, hIr, _, hcase⟩ := insert_spec hI B v
    have hm : ∀ w, (A, w) ∈ HashMap.traverse r ↔ (A, w) ∈ HashMap.traverse m := by
      intro w
      rcases hcase with ⟨_, hr⟩ | ⟨_, _, hperm, _⟩
      · rw [hr]
      · rw [hperm.mem_iff, mem_append_other hne]
    exact ⟨r, hins, lookup_same hI hIr hm⟩
  · obtain ⟨r, it, i, v0, hsub, hIr, _, _, _, _, _, _, hcase⟩ := subscript_spec hI B
    have hm : ∀ w, (A, w) ∈ HashMap.traverse r ↔ (A, w) ∈ HashMap.traverse m := by
      intro w
      rcases hcase with ⟨_, hr⟩ | ⟨_, _, _, hperm, _⟩
      · rw [hr]
      · rw [hperm.mem_iff, mem_append_other hne]
    exact ⟨r, it, hsub, lookup_same hI hIr hm⟩
  · obtain ⟨r, her, hIr, _, htr⟩ := erase_spec hI B
    have hm : ∀ w, (A, w) ∈ HashMap.traverse r ↔ (A, w) ∈ HashMap.traverse m := by
      intro w
      rw [htr, mem_filter_other_key hne]
    exact ⟨r, her, lookup_same hI hIr hm⟩

end Claims6

/-! ## Repeated insertion and erasure of one key -/

section CycleLists

variable {K V : Type}

theorem cycles_add (k : K) (v : V) (a b : Nat) :
    cycles k v (a + b) = cycles k v a ++ cycles k v b := by
  induction b with
  | zero => simp [cycles]
  | succ b ih =>
    show cycles k v (a + b) ++ [Op.insert k v, Op.erase k]
      = cycles k v a ++ (cycles k v b ++ [Op.insert k v, Op.erase k])
    rw [ih, List.append_assoc]

end CycleLists

section CycleRuns

variable {K V : Type} [DecidableEq K] [Inhabited V]

theorem run_from_append (hash : K → Nat) (m : HashMap K V) (a b : List (Op K V)) :
    run_from hash m (a ++ b) = (run_from hash m a).bind (fun r => run_from hash r b) := by
  unfold run_from
  rw [List.foldlM_append]
  rfl

theorem run_eq_run_from (hash : K → Nat) (ops : List (Op K V)) :
    run hash ops = run_from hash HashMap.init ops := rfl

theorem run_from_pair (hash : K → Nat) (m : HashMap K V) (k : K) (v : V) :
    run_from hash m [Op.insert k v, Op.erase k]
      = (HashMap.insert hash m (k, v)).bind (fun r => HashMap.erase hash r k) := by
  unfold run_from
  cases h : HashMap.insert hash m (k, v) with
  | none => simp [List.foldlM_cons, step, h]
  | some r =>
    cases h2 : HashMap.erase hash r k with
    | none => simp [List.foldlM_cons, step, h, h2]
    | some r2 => simp [List.foldlM_cons, step, h, h2]

theorem run_from_insert (hash : K → Nat) (m : HashMap K V) (k : K) (v : V) :
    run_from hash m [Op.insert k v] = HashMap.insert hash m (k, v) := by
  unfold run_from
  cases h : HashMap.insert hash m (k, v) with
  | none => simp [List.foldlM_cons, step, h]
  | some r => simp [List.foldlM_cons, step, h]

end CycleRuns

section CycleStep

variable {K V : Type} [DecidableEq K]

/-- One repetition of `insert((k, v)); erase(k)` on a table without records: the table
returned has no record; it has one more tombstone, or, when the insertion rebuilt the
table, twice the capacity and one tombstone. -/
theorem cycle_step {hash : K → Nat} {m : HashMap K V} (hI : Inv hash m)
    (ht : HashMap.traverse m = []) (k : K) (v : V) :
    ∃ r1 r, HashMap.insert hash m (k, v) = some r1 ∧ r1.size_ = 1 ∧
      HashMap.erase hash r1 k = some r ∧ Inv hash r ∧ HashMap.traverse r = [] ∧
      r.capacity_ = r1.capacity_ ∧ r.current_workload_ = r1.current_workload_ ∧
      ((2 * (m.current_workload_ + 1) ≤ m.capacity_ ∧ r1.capacity_ = m.capacity_ ∧
          r1.current_workload_ = m.current_workload_ + 1) ∨
        (m.capacity_ < 2 * (m.current_workload_ + 1) ∧ r1.capacity_ = m.capacity_ * 2 ∧
          r1.current_workload_ = 1)) := by
  have hno : ∀ v0, (k, v0) ∉ HashMap.traverse m := by
    intro v0 h0
    rw [ht] at h0
    cases h0
  have hsz0 : m.size_ = 0 := by
    rw [← traverse_length hI.core.loc, ht]
    rfl
  obtain ⟨e, _, _, _, _, hcase⟩ := insert_absent_cases hI hno v
  have key : ∀ r1, HashMap.insert hash m (k, v) = some r1 → Inv hash r1 →
      (HashMap.traverse r1).Perm (HashMap.traverse m ++ [(k, v)]) → r1.size_ = 1 →
      ∃ r, HashMap.erase hash r1 k = some r ∧ Inv hash r ∧ HashMap.traverse r = [] ∧
        r.capacity_ = r1.capacity_ ∧ r.current_workload_ = r1.current_workload_ := by
    intro r1 _ hI1 hperm _
    have hmem : (k, v) ∈ HashMap.traverse r1 :=
      hperm.symm.subset (List.mem_append_right _ (List.mem_singleton_self _))
    obtain ⟨i, it, mark, _, _, _, _, _, _, _, her, hIr, htr⟩ := erase_present hI1 hmem
    refine ⟨_, her, hIr, ?_, rfl, rfl⟩
    rw [htr, List.filter_eq_nil_iff]
    intro p hp
    have hp2 := hperm.subset hp
    rw [ht, List.nil_append, List.mem_singleton] at hp2
    rw [hp2]
    simp [other_key]
  rcases hcase with ⟨hle, _, hins, hI1⟩ | ⟨hlt, r1, _, hins, hI1, hcap, hws, hsz, _, hperm⟩
  · have hsz1 : (HashMap.place m e k v).size_ = 1 := by
      show m.size_ + 1 = 1
      rw [hsz0]
    obtain ⟨r, her, hIr, htr, hc, hw⟩ := key _ hins hI1 (by rw [traverse_place]) hsz1
    exact ⟨_, r, hins, hsz1, her, hIr, htr, hc, hw, Or.inl ⟨hle, rfl, rfl⟩⟩
  · have hsz1 : r1.size_ = 1 := by rw [hsz, hsz0]
    obtain ⟨r, her, hIr, htr, hc, hw⟩ := key r1 hins hI1 hperm hsz1
    exact ⟨r1, r, hins, hsz1, her, hIr, htr, hc, hw, Or.inr ⟨hlt, hcap, by rw [hws, hsz1]⟩⟩

end CycleStep

section Cycles

variable {K V : Type} [DecidableEq K] [Inhabited V]

/-- Repetitions of `insert((k, v)); erase(k)` on a table without records double its
capacity after finitely many of them. -/
theorem cycles_double {hash : K → Nat} (k : K) (v : V) :
    ∀ (d : Nat) (m : HashMap K V), Inv hash m → HashMap.traverse m = [] →
      m.capacity_ - 2 * m.current_workload_ ≤ d →
      ∃ n r, run_from hash m (cycles k v n) = some r ∧ Inv hash r ∧
        HashMap.traverse r = [] ∧ r.capacity_ = m.capacity_ * 2 := by
  intro d
  induction d using Nat.strong_induction_on with
  | _ d ih =>
    intro m hI ht hd
    obtain ⟨r1, r, hins, _, her, hIr, htr, hc, hw, hcase⟩ := cycle_step hI ht k v
    have hpair : run_from hash m (cycles k v 1) = some r := by
      show run_from hash m ([] ++ [Op.insert k v, Op.erase k]) = some r
      rw [List.nil_append, run_from_pair, hins]
      exact her
    rcases hcase with ⟨hle, hc1, hw1⟩ | ⟨_, hc1, _⟩
    · have hload := hIr.load
      obtain ⟨n, r2, hrun, hI2, ht2, hc2⟩ :=
        ih (r.capacity_ - 2 * r.current_workload_) (by omega) r hIr htr (Nat.le_refl _)
      refine ⟨1 + n, r2, ?_, hI2, ht2, by rw [hc2, hc, hc1]⟩
      rw [cycles_add, run_from_append, hpair]
      exact hrun
    · exact ⟨1, r, hpair, hIr, htr, by rw [hc, hc1]⟩

/-- The table after `n` repetitions on an empty table has no record. -/
theorem cycles_empty (hash : K → Nat) (k : K) (v : V) (n : Nat) :
    ∃ r, run hash (cycles k v n) = some r ∧ Inv hash r ∧ HashMap.traverse r = [] ∧
      (n ≤ 8 → r.capacity_ = INITIAL_SIZE ∧ r.current_workload_ = n) := by
  induction n with
  | zero => exact ⟨HashMap.init, rfl, inv_init hash, rfl, fun _ => ⟨rfl, rfl⟩⟩
  | succ n ih =>
    obtain ⟨r0, hrun, hI, ht, hsmall⟩ := ih
    obtain ⟨r1, r, hins, _, her, hIr, htr, hc, hw, hcase⟩ := cycle_step hI ht k v
    refine ⟨r, ?_, hIr, htr, ?_⟩
    · show run hash (cycles k v n ++ [Op.insert k v, Op.erase k]) = some r
      rw [run_eq_run_from, run_from_append, ← run_eq_run_from, hrun]
      show run_from hash r0 [Op.insert k v, Op.erase k] = some r
      rw [run_from_pair, hins]
      exact her
    · intro hn
      obtain ⟨hc0, hw0⟩ := hsmall (by omega)
      rcases hcase with ⟨_, hc1, hw1⟩ | ⟨hlt, _, _⟩
      · exact ⟨by rw [hc, hc1, hc0], by rw [hw, hw1, hw0]⟩
      · exfalso
        rw [hc0, hw0] at hlt
        simp only [INITIAL_SIZE] at hlt
        omega

end Cycles

/-! ## Objects with their own hash function -/

section ObjectHash

variable {K V : Type}

theorem apply_all_hash (o : Object K V) (ops : List (Op K V)) :
    Object.hash_ (Object.apply_all o ops) = Object.hash_ o := by
  induction ops generalizing o with
  | nil => rfl
  | cons op ops ih =>
    show Object.hash_ (Object.apply_all (Object.apply o op) ops) = Object.hash_ o
    rw [ih]
    rfl

end ObjectHash

section Objects

variable {K V : Type} [DecidableEq K] [Inhabited V]

theorem apply_all_table (o : Object K V) (ops : List (Op K V)) :
    Object.table (Object.apply_all o ops)
      = (Object.table o).bind (fun m => run_from (Object.hash_ o) m ops) := by
  induction ops generalizing o with
  | nil =>
    show Object.table o = _
    cases Object.table o <;> rfl
  | cons op ops ih =>
    show Object.table (Object.apply_all (Object.apply o op) ops) = _
    rw [ih]
    show ((Object.table o).bind (fun m => step (Object.hash_ o) m op)).bind _ = _
    cases Object.table o with
    | none => rfl
    | some m =>
      show (step (Object.hash_ o) m op).bind _ = run_from (Object.hash_ o) m (op :: ops)
      unfold run_from
      rw [List.foldlM_cons]
      rfl

/-- The objects made by the constructor and public operations other than an assignment
have the tables of `run`. -/
theorem table_of_run (hash : K → Nat) (ops : List (Op K V)) :
    Object.table (Object.apply_all (Object.make hash) ops) = run hash ops ∧
      Object.hash_ (Object.apply_all (Object.make hash) ops) = hash :=
  ⟨by rw [apply_all_table]; rfl, apply_all_hash _ _⟩

end Objects

section Uniform

variable {K V : Type} [DecidableEq K] [Inhabited V]

/-- An object in whose making every assignment was from an object with the same hash
function has a table of `Reachable`: an assignment gives the table of a copy. -/
theorem reachable_of_uniform (o : Object K V) (h : Object.uniform o) :
    ∃ m, Object.table o = some m ∧ Reachable (Object.hash_ o) m := by
  induction o with
  | make hash => exact ⟨HashMap.init, rfl, ⟨[], rfl⟩⟩
  | apply o op ih =>
    obtain ⟨m, hm, ops, hops⟩ := ih h
    obtain ⟨r, hr, _⟩ := step_refines (inv_of_reachable ⟨ops, hops⟩)
      (List.Perm.refl (HashMap.traverse m)) op
    refine ⟨r, ?_, ops ++ [op], ?_⟩
    · show (Object.table o).bind (fun t => step (Object.hash_ o) t op) = some r
      rw [hm]
      exact hr
    · show run (Object.hash_ o) (ops ++ [op]) = some r
      rw [run_append, hops]
      exact hr
  | assign o other ih1 ih2 =>
    obtain ⟨h1, h2, heq⟩ := h
    obtain ⟨m1, hm1, _⟩ := ih1 h1
    obtain ⟨m2, hm2, ops, hops⟩ := ih2 h2
    rw [heq] at hops
    obtain ⟨r, hr, _⟩ := copy_spec (inv_of_reachable ⟨ops, hops⟩)
    refine ⟨r, ?_, ops ++ [Op.copy], ?_⟩
    · show (Object.table o).bind (fun _ =>
        (Object.table other).bind (fun t => HashMap.assign (Object.hash_ o) t)) = some r
      rw [hm1, hm2]
      exact hr
    · show run (Object.hash_ o) (ops ++ [Op.copy]) = some r
      rw [run_append, hops]
      exact hr

end Uniform

section Assignment

/-- C2 (the only error), evaluation at the failing input: `a` is constructed with the
identity hash and holds `(15, 1)`; `b` is constructed with the hash that is 0 everywhere,
then `b = a`. The record `(15, 1)` is in the record list of `b`, at the occupied slot 15,
and `b.at(15)` throws, while `a.at(15)` returns 1. -/
theorem C2_at_throws_for_a_live_key :
    Object.traverse source_object = some [(15, 1)] ∧
      Object.at_ source_object 15 = some (AtResult.value 1) ∧
      Object.traverse zero_object = some [(15, 1)] ∧
      (Object.table zero_object).map (fun t => record_at t 15) = some (some (15, 1)) ∧
      Object.at_ zero_object 15 = some AtResult.out_of_range := by
  decide!

/-- C4 (erase then find), evaluation at the failing input: `b` is constructed with the hash
that is 0 everywhere, then `b = a` with `a` holding `(15, 1)`, then `b.insert((15, 2))`,
which adds a second record with key 15, at slot 0. After `b.erase(15)`, `b.find(15)` is
not `end()` but the record `(15, 1)`, and `b.at(15)` returns 1. -/
theorem C4_find_after_erase_is_not_end :
    Object.at_ (Object.apply zero_object (Op.insert 15 2)) 15 = some (AtResult.value 2) ∧
      Object.find (Object.apply (Object.apply zero_object (Op.insert 15 2)) (Op.erase 15)) 15
        = some (Iterator.node 2) ∧
      Object.find_record
          (Object.apply (Object.apply zero_object (Op.insert 15 2)) (Op.erase 15)) 15
        = some (some (15, 1)) ∧
      Object.at_ (Object.apply (Object.apply zero_object (Op.insert 15 2)) (Op.erase 15)) 15
        = some (AtResult.value 1) := by
  decide!

/-- C5 (indexed access), evaluation at the failing input: `c` is constructed with the hash
that sends 15 to 0 and the other keys to themselves, then `c = a` with `a` holding
`(15, 1)`, then the keys 1, ..., 7 are inserted. The record `(15, 1)` is in the list and
`c.at(15)` throws. The expression `c[15]` registers `(15, 0)` at slot 0, which triggers the
rebuild; the rebuild registers the record `(15, 1)` of the old slot 15 at slot 0 again, and
the reference returned is to the value 1 of that record, not to the default value 0 of the
new record. Without a rebuild, on the object `b` made with the hash that is 0 everywhere,
`b[15]` adds the record `(15, 0)` to the record `(15, 1)`. -/
theorem C5_subscript_returns_the_old_value :
    Object.at_ (Object.apply_all fold_object (six_inserts ++ [Op.insert 7 14])) 15
        = some AtResult.out_of_range ∧
      Object.traverse (Object.apply_all fold_object (six_inserts ++ [Op.insert 7 14]))
        = some [(15, 1), (1, 2), (2, 4), (3, 6), (4, 8), (5, 10), (6, 12), (7, 14)] ∧
      Object.subscript_record
          (Object.apply_all fold_object (six_inserts ++ [Op.insert 7 14])) 15
        = some (some (15, 1)) ∧
      Object.traverse
          (Object.apply (Object.apply_all fold_object (six_inserts ++ [Op.insert 7 14]))
            (Op.subscript 15))
        = some [(15, 0), (1, 2), (2, 4), (3, 6), (4, 8), (5, 10), (6, 12), (7, 14), (15, 1)] ∧
      Object.at_
          (Object.apply (Object.apply_all fold_object (six_inserts ++ [Op.insert 7 14]))
            (Op.subscript 15)) 15
        = some (AtResult.value 1) ∧
      Object.subscript_record zero_object 15 = some (some (15, 0)) ∧
      Object.traverse (Object.apply zero_object (Op.subscript 15))
        = some [(15, 1), (15, 0)] := by
  decide!

/-- C9 (key uniqueness), evaluation at the failing input: `b` is constructed with the hash
that is 0 everywhere, then `b = a` with `a` holding `(15, 1)`, then `b.insert((15, 2))`. The
record list of `b` holds two records with key 15, and the occupied slots 0 and 15 refer to
them. -/
theorem C9_two_records_with_one_key :
    Object.traverse (Object.apply zero_object (Op.insert 15 2)) = some [(15, 1), (15, 2)] ∧
      (Object.table (Object.apply zero_object (Op.insert 15 2))).map
          (fun t => (record_at t 0, record_at t 15))
        = some (some (15, 2), some (15, 1)) := by
  decide!

/-- C11 (copy), evaluation at the failing input: `a` is constructed with the identity hash
and holds `(15, 1)`; `b` is constructed with the hash that is 0 everywhere, then `b = a`. The
assignment gives `b` the capacity, the slot states, the records, the size and the workload of
`a`, and `b` keeps its hash function: the probe of 15 stops at slot 0 in `b` and at slot 15 in
`a`, `a.at(15)` returns 1 and `b.at(15)` throws, `a.find(15)` is a record and `b.find(15)` is
`end()`. A copy made by the copy constructor finds the key. -/
theorem C11_assignment_keeps_the_hash :
    (Object.table zero_object).map (fun t => (t.capacity_, slot_states t))
        = (Object.table source_object).map (fun t => (t.capacity_, slot_states t)) ∧
      (Object.table zero_object).map (fun t => (t.size_, t.current_workload_))
        = (Object.table source_object).map (fun t => (t.size_, t.current_workload_)) ∧
      Object.find_position source_object 15 = some 15 ∧
      Object.find_position zero_object 15 = some 0 ∧
      Object.at_ source_object 15 = some (AtResult.value 1) ∧
      Object.at_ zero_object 15 = some AtResult.out_of_range ∧
      Object.find_record source_object 15 = some (some (15, 1)) ∧
      Object.find zero_object 15 = some Iterator.past_the_end ∧
      Object.at_ (Object.apply source_object Op.copy) 15 = some (AtResult.value 1) := by
  decide!

/-- C15 (growth), evaluation at the failing input: `c` is constructed with the hash that
sends 15 to 0 and the other keys to themselves, then `c = a` with `a` holding `(15, 1)`,
then `(15, 2)` and the keys 1, ..., 6 are inserted: capacity 16, workload 8, `c.at(15)`
returns 2 and `c.at(7)` throws. The call `c.insert((7, 14))` rebuilds the table to capacity
32, and `c.at(15)` returns 1 after it. -/
theorem C15_rebuild_changes_a_value :
    (Object.table (Object.apply_all fold_object (Op.insert 15 2 :: six_inserts))).map
        (fun t => (t.capacity_, t.current_workload_)) = some (16, 8) ∧
      Object.at_ (Object.apply_all fold_object (Op.insert 15 2 :: six_inserts)) 15
        = some (AtResult.value 2) ∧
      Object.at_ (Object.apply_all fold_object (Op.insert 15 2 :: six_inserts)) 7
        = some AtResult.out_of_range ∧
      (Object.table
          (Object.apply_all fold_object (Op.insert 15 2 :: six_inserts ++ [Op.insert 7 14]))).map
        (fun t => t.capacity_) = some 32 ∧
      Object.at_
          (Object.apply_all fold_object (Op.insert 15 2 :: six_inserts ++ [Op.insert 7 14])) 15
        = some (AtResult.value 1) := by
  decide!

/-- C16 (probe reachability), evaluation at the failing input: `b` is constructed with the
hash that is 0 everywhere, then `b = a` with `a` holding `(15, 1)`. The slot 15 of `b` is
occupied by the record with key 15, and the probe of 15 in `b` stops at the free slot 0. -/
theorem C16_probe_stops_before_the_record :
    (Object.table zero_object).map (fun t => (t.used_ 15, record_at t 15, t.used_ 0))
        = some (1, some (15, 1), 0) ∧
      Object.find_position zero_object 15 = some 0 := by
  decide!

/-- C17 (counters), evaluation at the failing input: `c` is constructed with the hash that
sends 15 to 0 and the other keys to themselves, then `c = a` with `a` holding `(15, 1)`,
then `(15, 2)` and the keys 1, ..., 7 are inserted. The insertion of 7 rebuilds the table;
the rebuild calls `create_pair` twice for the slot 0, once for each record with key 15.
After it `size_` is 9, the record list and `used_positions_` have 9 nodes, the workload is
9, and 8 slots are occupied, none a tombstone. -/
theorem C17_size_exceeds_the_occupied_slots :
    (Object.table
        (Object.apply_all fold_object (Op.insert 15 2 :: six_inserts ++ [Op.insert 7 14]))).map
      (fun t => (t.size_, t.pairs_.length, t.used_positions_.length, t.current_workload_,
        count_slots t.capacity_ (fun i => decide (t.used_ i = 1)),
        count_slots t.capacity_ (fun i => decide (t.used_ i = 2))))
      = some (9, 9, 9, 9, 8, 0) := by
  decide!

/-- C18 (frame of erase), evaluation at the failing input: `b` is constructed with the hash
that is 0 everywhere, then `b = a` with `a` holding `(15, 1)`. The key 15 is present in `b`,
at the occupied slot 15, and `b.erase(15)` changes nothing: the slot is still occupied, the
record is still in the list and the size is still 1. After `b.insert((15, 2))`, `b.erase(15)`
removes the record `(15, 2)` and leaves the record `(15, 1)` with the same key. -/
theorem C18_erase_leaves_the_record :
    Object.traverse zero_object = some [(15, 1)] ∧
      (Object.table zero_object).map (fun t => (t.used_ 15, record_at t 15))
        = some (1, some (15, 1)) ∧
      (Object.table (Object.apply zero_object (Op.erase 15))).map slot_states
        = (Object.table zero_object).map slot_states ∧
      Object.traverse (Object.apply zero_object (Op.erase 15)) = some [(15, 1)] ∧
      (Object.table (Object.apply zero_object (Op.erase 15))).map (fun t => t.size_)
        = some 1 ∧
      Object.traverse (Object.apply zero_object (Op.insert 15 2)) = some [(15, 1), (15, 2)] ∧
      Object.traverse (Object.apply (Object.apply zero_object (Op.insert 15 2)) (Op.erase 15))
        = some [(15, 1)] := by
  decide!

/-- C19 (frame of lookups), evaluation at the failing input: `b` is constructed with the
hash that is 0 everywhere, then `b = a` with `a` holding `(15, 1)`. `b.at(15)` throws and
`b.find(15)` is `end()`. After `b.insert((7, 5))`, which occupies the slot 0, the probe of 15
goes on to the slot 15: `b.at(15)` returns 1 and `b.find(15)` is the record `(15, 1)`. -/
theorem C19_insert_of_another_key_changes_the_lookup :
    Object.at_ zero_object 15 = some AtResult.out_of_range ∧
      Object.find zero_object 15 = some Iterator.past_the_end ∧
      Object.at_ (Object.apply zero_object (Op.insert 7 5)) 15 = some (AtResult.value 1) ∧
      Object.find_record (Object.apply zero_object (Op.insert 7 5)) 15
        = some (some (15, 1)) := by
  decide!

end Assignment

/-! ## Iteration order and node identity, at every capacity -/

section Order

variable {K V : Type} [DecidableEq K]

/-- The expression `table[k]` that changes the capacity: the key was absent, and the new
list holds the records of the slots of the table as it was before the rebuild. -/
theorem subscript_rebuild [Inhabited V] {hash : K → Nat} {m r : HashMap K V} {it : Nat}
    (hI : Inv hash m) {k : K} (h : HashMap.subscript hash m k = some (r, it))
    (hc : r.capacity_ ≠ m.capacity_) :
    ∃ e, HashMap.find_position hash m k = some e ∧ m.used_ e ≠ 1 ∧
      HashMap.traverse r = slot_records (HashMap.place m e k default) m.capacity_ := by
  rcases mem_or_not_mem m k with ⟨v0, hv0⟩ | hno
  · obtain ⟨_, it2, _, _, _, _, _, hsub⟩ := subscript_present hI.core hv0
    rw [h] at hsub
    cases hsub
    exact absurd rfl hc
  · obtain ⟨r2, e, b, _, it2, hf, hu, hcp, hsub, _⟩ := subscript_absent hI hno
    rw [h] at hsub
    cases hsub
    obtain ⟨r3, b3, h3, _, hcase⟩ := create_pair_spec hI hf hu (default : V) 1
    have h4 : HashMap.create_pair hash HashMap.NESTING m e k default = some (r3, b3) := h3
    rw [hcp] at h4
    cases h4
    rcases hcase with ⟨_, hr⟩ | ⟨_, _, _, htr, _⟩
    · rw [hr] at hc
      exact absurd rfl hc
    · exact ⟨e, hf, hu, htr⟩

end Order

section Claims8

variable {K V : Type} [DecidableEq K]

/-- C6, amended (iteration): every sequence of `insert`, `operator[]`, `table[k] = v`,
`erase`, `clear` and copy construction on an empty table returns a table `m` whose iteration
visits exactly the live pairs, each key once: a permutation of the reference list, whose
pairs are those that `at` returns; it is the reference list, in insertion order, while the
capacity is the initial one and no copy was made. At every capacity, each further operation
returns, and when it is not a copy and keeps the capacity, the new iteration is the old one
changed as the reference list is: a new key goes to the end, an erased key leaves, the others
keep their order. A copy lists the records by increasing slot index of `m`. An `insert`,
`table[k]` or `table[k] = v` that changes the capacity (a rebuild) lists the records by
increasing slot index of the table before the rebuild, the new record at the slot where the
probe of its key stopped. Objects that `operator=` has written from an object with another
hash function are not among these tables. -/
theorem C6_iteration_order [Inhabited V] (hash : K → Nat) (ops : List (Op K V)) :
    ∃ m, run hash ops = some m ∧
      (HashMap.traverse m).Perm (model ops) ∧
      ((HashMap.traverse m).map Prod.fst).Nodup ∧
      (∀ k v, (k, v) ∈ HashMap.traverse m ↔
        HashMap.at_ hash m k = some (AtResult.value v)) ∧
      (Op.copy ∉ ops → m.capacity_ = INITIAL_SIZE → HashMap.traverse m = model ops) ∧
      (∀ op, ∃ r, step hash m op = some r ∧
        (op ≠ Op.copy → r.capacity_ = m.capacity_ →
          HashMap.traverse r = model_step (HashMap.traverse m) op)) ∧
      (∃ c, HashMap.copy hash m = some c ∧ c.capacity_ = m.capacity_ ∧
        HashMap.traverse c = slot_records m m.capacity_) ∧
      (∀ k v r, HashMap.insert hash m (k, v) = some r → r.capacity_ ≠ m.capacity_ →
        ∃ e, HashMap.find_position hash m k = some e ∧
          HashMap.traverse r = slot_records (HashMap.place m e k v) m.capacity_) ∧
      (∀ k r it, HashMap.subscript hash m k = some (r, it) → r.capacity_ ≠ m.capacity_ →
        ∃ e, HashMap.find_position hash m k = some e ∧
          HashMap.traverse r = slot_records (HashMap.place m e k default) m.capacity_) ∧
      (∀ k v r, HashMap.subscript_assign hash m k v = some r → r.capacity_ ≠ m.capacity_ →
        ∃ e, HashMap.find_position hash m k = some e ∧
          HashMap.traverse r
            = (slot_records (HashMap.place m e k default) m.capacity_).map
              (set_value k v)) := by
  obtain ⟨m, hrun, hI, hp, _, hexact⟩ := run_refines hash ops
  refine ⟨m, hrun, hp, traverse_keys_nodup hI.core,
    fun k v => (at_eq_value_iff hI k v).symm, hexact, ?_, ?_, ?_, ?_, ?_⟩
  · intro op
    obtain ⟨r, hstep, _, _, _, hex⟩ := step_refines hI (List.Perm.refl (HashMap.traverse m)) op
    exact ⟨r, hstep, fun hop hc => hex rfl hc hop⟩
  · obtain ⟨c, hc, _, hcap, _, _, htr, _⟩ := copy_spec hI
    exact ⟨c, hc, hcap, htr⟩
  · intro k v r hr hcap
    obtain ⟨e, hf, _, htr, _⟩ := insert_rebuild hI hr hcap
    exact ⟨e, hf, htr⟩
  · intro k r it hr hcap
    obtain ⟨e, hf, _, htr⟩ := subscript_rebuild hI hr hcap
    exact ⟨e, hf, htr⟩
  · intro k v r hr hcap
    obtain ⟨r0, it, r2, hsub, hasg, _, hc0, _, htr⟩ := subscript_assign_spec hI k v
    rw [hr] at hasg
    cases hasg
    obtain ⟨e, hf, _, htr0⟩ := subscript_rebuild hI hsub (by rw [← hc0]; exact hcap)
    exact ⟨e, hf, by rw [htr, htr0]⟩

/-- C7, amended (node stability): in a table of `Reachable` (objects that share one hash
function) where `find(A)` is the node `it` holding `(A, a)`, and for a key `B` other than
`A`: `erase(B)` returns, and `insert((B, v))` returns. After `erase(B)`, and after an
`insert((B, v))` that keeps the capacity, `find(A)` is the same node `it`, still in the
list with the same key and value. After an `insert((B, v))` that changes the capacity (a
rebuild) `find(A)` is a node allocated by the rebuild, holding `(A, a)`, and the node `it`
is no longer in the list: the rebuild copies the records into new nodes. -/
theorem C7_node_identity [Inhabited V] (hash : K → Nat) (m : HashMap K V)
    (A B : K) (a : V) (it : Nat) (h : Reachable hash m) (hne : B ≠ A)
    (hfind : HashMap.find hash m A = some (Iterator.node it))
    (hd : deref m.pairs_ it = some (A, a)) :
    (∃ r, HashMap.erase hash m B = some r ∧
        HashMap.find hash r A = some (Iterator.node it) ∧ deref r.pairs_ it = some (A, a)) ∧
      (∀ v, ∃ r, HashMap.insert hash m (B, v) = some r ∧
        (r.capacity_ = m.capacity_ →
          HashMap.find hash r A = some (Iterator.node it) ∧
            deref r.pairs_ it = some (A, a)) ∧
        (r.capacity_ ≠ m.capacity_ →
          ∃ it2, HashMap.find hash r A = some (Iterator.node it2) ∧
            deref r.pairs_ it2 = some (A, a) ∧ m.fresh_ ≤ it2 ∧
            deref r.pairs_ it = none)) := by
  have hI := inv_of_reachable h
  have hcases := node_identity_cases hash m A B a it h hne hfind hd
  constructor
  · obtain ⟨r, hr, _⟩ := erase_spec hI B
    exact ⟨r, hr, hcases.1 r hr⟩
  · intro v
    obtain ⟨r, hr, _⟩ := insert_spec hI B v
    exact ⟨r, hr, hcases.2 v r hr⟩

/-- Witness of C7. In the table holding `(1, 10)` and `(2, 20)`, `find(1)` is the node 0;
it is the node 0 after `erase(2)`, which removes the record of 2, and after `insert((3, 30))`,
which adds a record and keeps the capacity. In the table holding the keys 15, 0, 1, ..., 6,
`find(15)` is the node 0; `insert((7, 14))` rebuilds the table, and afterwards `find(15)` is
another node holding `(15, 30)` and the node 0 is not in the list. -/
theorem C7_witness_erase_insert_rebuild :
    (∃ m, run id_hash [Op.insert 1 10, Op.insert 2 20] = some m ∧
      HashMap.find id_hash m 1 = some (Iterator.node 0) ∧
      deref m.pairs_ 0 = some (1, 10) ∧
      HashMap.at_ id_hash m 2 = some (AtResult.value 20) ∧
      HashMap.at_ id_hash m 3 = some AtResult.out_of_range ∧
      (∃ r, HashMap.erase id_hash m 2 = some r ∧
        HashMap.at_ id_hash r 2 = some AtResult.out_of_range ∧
        HashMap.find id_hash r 1 = some (Iterator.node 0) ∧
        deref r.pairs_ 0 = some (1, 10)) ∧
      (∃ r, HashMap.insert id_hash m (3, 30) = some r ∧
        HashMap.at_ id_hash r 3 = some (AtResult.value 30) ∧
        HashMap.find id_hash r 1 = some (Iterator.node 0) ∧
        deref r.pairs_ 0 = some (1, 10))) ∧
      (∃ m, run id_hash eight_inserts = some m ∧
        HashMap.find id_hash m 15 = some (Iterator.node 0) ∧
        deref m.pairs_ 0 = some (15, 30) ∧
        ∃ r, HashMap.insert id_hash m (7, 14) = some r ∧ r.capacity_ ≠ m.capacity_ ∧
          ∃ it2, HashMap.find id_hash r 15 = some (Iterator.node it2) ∧
            deref r.pairs_ it2 = some (15, 30) ∧ deref r.pairs_ 0 = none) := by
  constructor
  · obtain ⟨m, hrun, _⟩ := run_refines id_hash [Op.insert 1 10, Op.insert 2 20]
    have e1 : (run id_hash [Op.insert 1 10, Op.insert 2 20]).bind
        (fun t => HashMap.find id_hash t 1) = some (Iterator.node 0) := by decide!
    have e2 : (run id_hash [Op.insert 1 10, Op.insert 2 20]).bind
        (fun t => deref t.pairs_ 0) = some (1, 10) := by decide!
    have e3 : (run id_hash [Op.insert 1 10, Op.insert 2 20]).bind
        (fun t => HashMap.at_ id_hash t 2) = some (AtResult.value 20) := by decide!
    have e4 : (run id_hash [Op.insert 1 10, Op.insert 2 20]).bind
        (fun t => HashMap.at_ id_hash t 3) = some AtResult.out_of_range := by decide!
    have e5 : (run id_hash [Op.insert 1 10, Op.insert 2 20]).bind
        (fun t => (HashMap.erase id_hash t 2).bind (fun r => HashMap.at_ id_hash r 2))
          = some AtResult.out_of_range := by decide!
    have e6 : (run id_hash [Op.insert 1 10, Op.insert 2 20]).bind
        (fun t => (HashMap.insert id_hash t (3, 30)).bind
          (fun r => (HashMap.at_ id_hash r 3).map
            (fun x => (x, decide (r.capacity_ = t.capacity_)))))
          = some (AtResult.value 30, true) := by decide!
    rw [hrun] at e1 e2 e3 e4 e5 e6
    have f1 : HashMap.find id_hash m 1 = some (Iterator.node 0) := e1
    have f2 : deref m.pairs_ 0 = some (1, 10) := e2
    obtain ⟨r, her, hfr, hdr⟩ :=
      (C7_node_identity id_hash m 1 2 10 0 ⟨_, hrun⟩ (by decide) f1 f2).1
    obtain ⟨r2, hins, hsame, _⟩ :=
      (C7_node_identity id_hash m 1 3 10 0 ⟨_, hrun⟩ (by decide) f1 f2).2 30
    have g5 : (HashMap.erase id_hash m 2).bind (fun r => HashMap.at_ id_hash r 2)
        = some AtResult.out_of_range := e5
    rw [her] at g5
    have g6 : (HashMap.insert id_hash m (3, 30)).bind
        (fun r => (HashMap.at_ id_hash r 3).map
          (fun x => (x, decide (r.capacity_ = m.capacity_))))
          = some (AtResult.value 30, true) := e6
    rw [hins] at g6
    have g7 : (HashMap.at_ id_hash r2 3).map
        (fun x => (x, decide (r2.capacity_ = m.capacity_)))
          = some (AtResult.value 30, true) := g6
    cases hat : HashMap.at_ id_hash r2 3 with
    | none => rw [hat] at g7; cases g7
    | some x =>
      rw [hat] at g7
      have g8 : (x, decide (r2.capacity_ = m.capacity_)) = (AtResult.value 30, true) :=
        Option.some.inj g7
      have hx : x = AtResult.value 30 := congrArg Prod.fst g8
      have hcap : r2.capacity_ = m.capacity_ := of_decide_eq_true (congrArg Prod.snd g8)
      exact ⟨m, hrun, f1, f2, e3, e4, ⟨r, her, g5, hfr, hdr⟩,
        ⟨r2, hins, by rw [hat, hx], hsame hcap⟩⟩
  · obtain ⟨m, hrun, _⟩ := run_refines id_hash eight_inserts
    have e1 : (run id_hash eight_inserts).bind
        (fun t => HashMap.find id_hash t 15) = some (Iterator.node 0) := by decide!
    have e2 : (run id_hash eight_inserts).bind
        (fun t => deref t.pairs_ 0) = some (15, 30) := by decide!
    have e3 : (run id_hash eight_inserts).bind
        (fun t => (HashMap.insert id_hash t (7, 14)).map
          (fun r => decide (r.capacity_ ≠ t.capacity_))) = some true := by decide!
    rw [hrun] at e1 e2 e3
    have f1 : HashMap.find id_hash m 15 = some (Iterator.node 0) := e1
    have f2 : deref m.pairs_ 0 = some (15, 30) := e2
    obtain ⟨r, hins, _, hnew⟩ :=
      (C7_node_identity id_hash m 15 7 30 0 ⟨_, hrun⟩ (by decide) f1 f2).2 14
    have g3 : (HashMap.insert id_hash m (7, 14)).map
        (fun r => decide (r.capacity_ ≠ m.capacity_)) = some true := e3
    rw [hins] at g3
    have hcap : r.capacity_ ≠ m.capacity_ := of_decide_eq_true (Option.some.inj g3)
    obtain ⟨it2, hf2, hd2, _, hgone⟩ := hnew hcap
    exact ⟨m, hrun, f1, f2, r, hins, hcap, it2, hf2, hd2, hgone⟩

/-- Witness of C12. Under the identity hash, after `insert((1, 10))`, `insert((17, 170))`
and `erase(1)` the slot 1 is a tombstone and the slot 2 holds the key 17. The probe of the
key 33 starts at slot 1 with step 1, passes the tombstone and the other key, and stops at
the free slot 3. -/
theorem C12_witness_tombstone_and_other_key :
    ∃ m, run id_hash [Op.insert 1 10, Op.insert 17 170, Op.erase 1] = some m ∧
      (∃ j, m.capacity_ = INITIAL_SIZE * 2 ^ j) ∧
      (∀ i, i < m.capacity_ → m.used_ i = 1 → ∃ p, record_at m i = some p) ∧
      count_slots m.capacity_ (fun i => decide (m.used_ i = 1 ∨ m.used_ i = 2))
        < m.capacity_ ∧
      m.used_ 1 = 2 ∧ record_at m 2 = some (17, 170) ∧
      HashMap.find_position id_hash m 33 = some 3 ∧
      ∃ t, t < m.capacity_ ∧
        (id_hash 33 % SIZE_T_MOD
          + t * HashMap.compute_shift_hash m (id_hash 33 % SIZE_T_MOD)) % m.capacity_ = 3 ∧
        (∀ u, u < t →
          m.used_ ((id_hash 33 % SIZE_T_MOD
              + u * HashMap.compute_shift_hash m (id_hash 33 % SIZE_T_MOD)) % m.capacity_) = 2 ∨
            ∃ q, record_at m ((id_hash 33 % SIZE_T_MOD
              + u * HashMap.compute_shift_hash m (id_hash 33 % SIZE_T_MOD)) % m.capacity_)
                = some q ∧ q.1 ≠ 33) ∧
        m.used_ 3 ≠ 1 ∧ m.used_ 3 ≠ 2 := by
  obtain ⟨m, hrun, hI, _⟩ := run_refines id_hash [Op.insert 1 10, Op.insert 17 170, Op.erase 1]
  have e1 : (run id_hash [Op.insert 1 10, Op.insert 17 170, Op.erase 1]).map
      (fun t => t.used_ 1) = some 2 := by decide!
  have e2 : (run id_hash [Op.insert 1 10, Op.insert 17 170, Op.erase 1]).bind
      (fun t => record_at t 2) = some (17, 170) := by decide!
  have e3 : (run id_hash [Op.insert 1 10, Op.insert 17 170, Op.erase 1]).bind
      (fun t => HashMap.find_position id_hash t 33) = some 3 := by decide!
  have e4 : (run id_hash [Op.insert 1 10, Op.insert 17 170, Op.erase 1]).map
      HashMap.traverse = some [(17, 170)] := by decide!
  rw [hrun] at e1 e2 e3 e4
  have f1 : m.used_ 1 = 2 := Option.some.inj e1
  have f2 : record_at m 2 = some (17, 170) := e2
  have f3 : HashMap.find_position id_hash m 33 = some 3 := e3
  have f4 : HashMap.traverse m = [(17, 170)] := Option.some.inj e4
  have hocc : ∀ i, i < m.capacity_ → m.used_ i = 1 → ∃ p, record_at m i = some p :=
    fun i hi hu => record_at_isSome hI.core.loc hi hu
  have hw : count_slots m.capacity_ (fun i => decide (m.used_ i = 1 ∨ m.used_ i = 2))
      < m.capacity_ := by
    rw [hI.core.loc.count12]
    exact workload_lt hI
  obtain ⟨i, t, hf, ht, hidx, hpath, _, _, _, hfree⟩ :=
    C12_find_position_stops id_hash m 33 hI.core.cap hocc hw
  rw [f3] at hf
  have hi3 : 3 = i := Option.some.inj hf
  subst hi3
  have hno : ∀ j v, j < m.capacity_ → record_at m j ≠ some (33, v) := by
    intro j v hj hrec
    have hmem : (33, v) ∈ HashMap.traverse m := (mem_traverse_iff hI.core.loc _).mpr ⟨j, hj, hrec⟩
    rw [f4] at hmem
    simp at hmem
  exact ⟨m, hrun, hI.core.cap, hocc, hw, f1, f2, f3, t, ht, hidx, hpath, hfree hno⟩

end Claims8

/-! ## The range of `size_t` -/

section SizeT

variable {K V : Type}

/-- Up to the capacity `2 ^ 58`, on a table at most one record over half full, the products
of `check_overload` are below `2 ^ 64`: the function computes what the machine computes. -/
theorem check_overload_size_t_eq (m : HashMap K V) (hc : m.capacity_ ≤ 2 ^ 58)
    (hw : 2 * m.current_workload_ ≤ m.capacity_ + 2) :
    HashMap.check_overload_size_t m = HashMap.check_overload m := by
  unfold HashMap.check_overload_size_t HashMap.check_overload
  have h1 : MAX_PERCENT * m.current_workload_ < SIZE_T_MOD := by
    simp only [MAX_PERCENT, SIZE_T_MOD]
    omega
  have h2 : TOP_LOAD_FACTOR * m.capacity_ < SIZE_T_MOD := by
    simp only [TOP_LOAD_FACTOR, SIZE_T_MOD]
    omega
  rw [Nat.mod_eq_of_lt h1, Nat.mod_eq_of_lt h2]

/-- Up to the capacity `2 ^ 62` the new capacity `capacity_ * 2` is what the machine
computes. -/
theorem doubled_capacity_eq (m : HashMap K V) (hc : m.capacity_ ≤ 2 ^ 62) :
    HashMap.doubled_capacity m = m.capacity_ * 2 := by
  unfold HashMap.doubled_capacity
  apply Nat.mod_eq_of_lt
  simp only [SIZE_T_MOD]
  omega

/-- A property of the state that every step of a loop keeps holds after the loop. -/
theorem foldlM_preserves {σ α : Type} (P : σ → Prop) (f : σ → α → Option σ)
    (hf : ∀ s a s2, P s → f s a = some s2 → P s2) :
    ∀ (l : List α) (s r : σ), P s → l.foldlM f s = some r → P r := by
  intro l
  induction l with
  | nil =>
    intro s r hs h
    cases h
    exact hs
  | cons a l ih =>
    intro s r hs h
    rw [List.foldlM_cons] at h
    cases hfa : f s a with
    | none =>
      rw [hfa] at h
      cases h
    | some s2 =>
      rw [hfa] at h
      exact ih s2 r (hf s a s2 hs hfa) h

end SizeT

section SizeTOperations

variable {K V : Type} [DecidableEq K]

/-- The capacity of a table that the machine's `create_pair` returns is a `size_t`. -/
theorem create_pair_size_t_capacity (hash : K → Nat) :
    ∀ (d : Nat) (m : HashMap K V) (i : Nat) (k : K) (v : V) (r : HashMap K V) (b : Bool),
      m.capacity_ < SIZE_T_MOD → HashMap.create_pair_size_t hash d m i k v = some (r, b) →
      r.capacity_ < SIZE_T_MOD := by
  intro d
  induction d with
  | zero =>
    intro m i k v r b hm h
    unfold HashMap.create_pair_size_t at h
    by_cases hi : i < m.capacity_
    · rw [if_pos hi] at h
      cases hov : HashMap.check_overload_size_t (HashMap.place m i k v) with
      | false =>
        simp only [hov] at h
        cases h
        exact hm
      | true =>
        simp only [hov] at h
        cases h
    · rw [if_neg hi] at h
      cases h
  | succ d ih =>
    intro m i k v r b hm h
    unfold HashMap.create_pair_size_t at h
    by_cases hi : i < m.capacity_
    · rw [if_pos hi] at h
      cases hov : HashMap.check_overload_size_t (HashMap.place m i k v) with
      | false =>
        simp only [hov] at h
        cases h
        exact hm
      | true =>
        simp only [hov, if_true] at h
        cases hre : HashMap.rebuild_with hash (HashMap.create_pair_size_t hash d)
            (HashMap.place m i k v) (HashMap.doubled_capacity (HashMap.place m i k v)) with
        | none =>
          rw [hre] at h
          cases h
        | some r2 =>
          rw [hre] at h
          cases h
          unfold HashMap.rebuild_with at hre
          refine foldlM_preserves (fun s : HashMap K V => s.capacity_ < SIZE_T_MOD) _ ?_ _ _ _
            ?_ hre
          · intro s a s2 hs hstep
            by_cases hu : (HashMap.place m i k v).used_ a = 1
            · cases hst : (HashMap.place m i k v).storage_ a with
              | none => simp [HashMap.rebuild_step, hu, hst] at hstep
              | some it =>
                cases hd : deref (HashMap.place m i k v).pairs_ it with
                | none => simp [HashMap.rebuild_step, hu, hst, hd] at hstep
                | some p =>
                  cases hfp : HashMap.find_position hash s p.1 with
                  | none => simp [HashMap.rebuild_step, hu, hst, hd, hfp] at hstep
                  | some e =>
                    cases hcr : HashMap.create_pair_size_t hash d s e p.1 p.2 with
                    | none => simp [HashMap.rebuild_step, hu, hst, hd, hfp, hcr] at hstep
                    | some rb =>
                      simp only [HashMap.rebuild_step, if_pos hu, hst, hd, hfp, hcr,
                        Option.map_some'] at hstep
                      cases hstep
                      exact ih s e p.1 p.2 rb.1 rb.2 hs hcr
            · simp only [HashMap.rebuild_step, if_neg hu] at hstep
              cases hstep
              exact hs
          · exact Nat.mod_lt _ (by decide)
    · rw [if_neg hi] at h
      cases h

theorem erase_capacity {hash : K → Nat} {m r : HashMap K V} {k : K}
    (h : HashMap.erase hash m k = some r) : r.capacity_ = m.capacity_ := by
  cases hf : HashMap.find_position hash m k with
  | none => simp [HashMap.erase, hf] at h
  | some i =>
    by_cases hu : m.used_ i = 1
    · cases hs : m.storage_ i with
      | none => simp [HashMap.erase, hf, hu, hs] at h
      | some it =>
        cases hk : m.mark_indexes_ i with
        | none => simp [HashMap.erase, hf, hu, hs, hk] at h
        | some mark =>
          cases h1 : erase_node m.pairs_ it with
          | none => simp [HashMap.erase, hf, hu, hs, hk, h1] at h
          | some pairs =>
            cases h2 : erase_node m.used_positions_ mark with
            | none => simp [HashMap.erase, hf, hu, hs, hk, h1, h2] at h
            | some positions =>
              simp only [HashMap.erase, hf, hu, hs, hk, h1, h2, ne_eq, not_true_eq_false,
                if_false] at h
              cases h
              rfl
    · simp only [HashMap.erase, hf, ne_eq, hu, not_false_eq_true, if_true] at h
      cases h
      rfl

theorem insert_size_t_capacity {hash : K → Nat} {d : Nat} {m r : HashMap K V} {item : K × V}
    (hm : m.capacity_ < SIZE_T_MOD) (h : HashMap.insert_size_t hash d m item = some r) :
    r.capacity_ < SIZE_T_MOD := by
  unfold HashMap.insert_size_t at h
  cases hf : HashMap.find_position hash m item.1 with
  | none => rw [hf] at h; cases h
  | some i =>
    rw [hf] at h
    by_cases hu : m.used_ i = 1
    · simp only [hu, if_true] at h
      cases h
      exact hm
    · simp only [hu, if_false] at h
      cases hcr : HashMap.create_pair_size_t hash d m i item.1 item.2 with
      | none => rw [hcr] at h; cases h
      | some rb =>
        rw [hcr] at h
        cases h
        exact create_pair_size_t_capacity hash d m i item.1 item.2 rb.1 rb.2 hm hcr

/-- Every table of the machine's repetitions has a capacity below `2 ^ 64`. -/
theorem churn_size_t_capacity (hash : K → Nat) (d : Nat) (k : K) (v : V) :
    ∀ (n : Nat) (r : HashMap K V), HashMap.churn_size_t hash d k v n = some r →
      r.capacity_ < SIZE_T_MOD := by
  intro n
  induction n with
  | zero =>
    intro r h
    cases h
    show INITIAL_SIZE < SIZE_T_MOD
    decide
  | succ n ih =>
    intro r h
    unfold HashMap.churn_size_t at h
    cases hc : HashMap.churn_size_t hash d k v n with
    | none => rw [hc] at h; cases h
    | some m =>
      rw [hc] at h
      cases hi : HashMap.insert_size_t hash d m (k, v) with
      | none =>
        have h2 : (HashMap.insert_size_t hash d m (k, v)).bind
            (fun r => HashMap.erase hash r k) = some r := h
        rw [hi] at h2
        cases h2
      | some r1 =>
        have h2 : (HashMap.insert_size_t hash d m (k, v)).bind
            (fun r => HashMap.erase hash r k) = some r := h
        rw [hi] at h2
        have h3 : HashMap.erase hash r1 k = some r := h2
        rw [erase_capacity h3]
        exact insert_size_t_capacity (ih m hc) hi

/-- The loop of the machine's `rebuild` at twice a capacity up to `2 ^ 57` is the loop of
`rebuild`: the tests of `check_overload` in the new table are the machine's, and fail. -/
theorem rebuild_loop_size_t (hash : K → Nat) (d : Nat) (m : HashMap K V)
    (hc : m.capacity_ * 2 ≤ 2 ^ 58) (n : Nat) (hn : n ≤ m.capacity_) :
    (List.range n).foldlM (HashMap.rebuild_step hash (HashMap.create_pair_size_t hash d) m)
        (HashMap.initial_memory (HashMap.blank m.fresh_) (m.capacity_ * 2))
      = (List.range n).foldlM (HashMap.rebuild_step hash (HashMap.create_pair hash 0) m)
        (HashMap.initial_memory (HashMap.blank m.fresh_) (m.capacity_ * 2)) := by
  induction n with
  | zero => rfl
  | succ n ih =>
    have heq := ih (by omega)
    obtain ⟨_, hinv⟩ := rebuild_loop_depth hash 0 m n (by omega)
    rw [List.range_succ, List.foldlM_append, List.foldlM_append, heq]
    cases hcur : (List.range n).foldlM
        (HashMap.rebuild_step hash (HashMap.create_pair hash 0) m)
        (HashMap.initial_memory (HashMap.blank m.fresh_) (m.capacity_ * 2)) with
    | none => rfl
    | some cur =>
      obtain ⟨hcap, hw⟩ := hinv cur hcur
      simp only [Option.some_bind, List.foldlM_cons, List.foldlM_nil, Option.pure_def,
        Option.bind_eq_bind, Option.bind_some]
      have hnat : ∀ (e : Nat) (k : K) (v : V),
          HashMap.create_pair hash 0 cur e k v
            = if e < cur.capacity_ then some (HashMap.place cur e k v, false) else none := by
        intro e k v
        by_cases he : e < cur.capacity_
        · rw [if_pos he]
          apply create_pair_no_overload hash 0 he
          rw [check_overload_false_iff]
          show 2 * (cur.current_workload_ + 1) ≤ cur.capacity_
          omega
        · simp [HashMap.create_pair, he]
      have hmach : ∀ (e : Nat) (k : K) (v : V),
          HashMap.create_pair_size_t hash d cur e k v
            = if e < cur.capacity_ then some (HashMap.place cur e k v, false) else none := by
        intro e k v
        have hov : HashMap.check_overload_size_t (HashMap.place cur e k v) = false := by
          rw [check_overload_size_t_eq, check_overload_false_iff]
          · show 2 * (cur.current_workload_ + 1) ≤ cur.capacity_
            omega
          · show cur.capacity_ ≤ 2 ^ 58
            omega
          · show 2 * (cur.current_workload_ + 1) ≤ cur.capacity_ + 2
            omega
        by_cases he : e < cur.capacity_
        · cases d <;> simp [HashMap.create_pair_size_t, he, hov]
        · cases d <;> simp [HashMap.create_pair_size_t, he]
      unfold HashMap.rebuild_step
      simp only [hnat, hmach]

/-- On a table up to the capacity `2 ^ 58` that is at most half full, and up to `2 ^ 57`
when the new record overloads it, the machine's `create_pair` is `create_pair`. -/
theorem create_pair_size_t_eq (hash : K → Nat) (d : Nat) (m : HashMap K V) (e : Nat) (k : K)
    (v : V) (hc : m.capacity_ ≤ 2 ^ 58) (hw : 2 * m.current_workload_ ≤ m.capacity_)
    (hc2 : m.capacity_ < 2 * (m.current_workload_ + 1) → m.capacity_ * 2 ≤ 2 ^ 58) :
    HashMap.create_pair_size_t hash (d + 1) m e k v = HashMap.create_pair hash (d + 1) m e k v := by
  by_cases he : e < m.capacity_
  · have hsame : HashMap.check_overload_size_t (HashMap.place m e k v)
        = HashMap.check_overload (HashMap.place m e k v) := by
      apply check_overload_size_t_eq
      · exact hc
      · show 2 * (m.current_workload_ + 1) ≤ m.capacity_ + 2
        omega
    cases hov : HashMap.check_overload (HashMap.place m e k v) with
    | false =>
      rw [create_pair_no_overload hash (d + 1) he k v hov]
      rw [hov] at hsame
      simp [HashMap.create_pair_size_t, he, hsame]
    | true =>
      rw [hov] at hsame
      have hlt : m.capacity_ < 2 * (m.current_workload_ + 1) :=
        (check_overload_iff (HashMap.place m e k v)).mp hov
      have hcap2 := hc2 hlt
      have hdouble : HashMap.doubled_capacity (HashMap.place m e k v) = m.capacity_ * 2 := by
        apply doubled_capacity_eq
        show m.capacity_ ≤ 2 ^ 62
        omega
      rw [create_pair_overload hash d he k v hov, rebuild_depth]
      have hloop := rebuild_loop_size_t hash d (HashMap.place m e k v) hcap2 m.capacity_
        (Nat.le_refl _)
      have hre : HashMap.rebuild_with hash (HashMap.create_pair_size_t hash d)
          (HashMap.place m e k v) (m.capacity_ * 2)
            = HashMap.rebuild hash 0 (HashMap.place m e k v) (m.capacity_ * 2) := hloop
      have hunf : HashMap.create_pair_size_t hash (d + 1) m e k v
          = (HashMap.rebuild_with hash (HashMap.create_pair_size_t hash d)
              (HashMap.place m e k v)
              (HashMap.doubled_capacity (HashMap.place m e k v))).map (fun r => (r, true)) := by
        simp [HashMap.create_pair_size_t, he, hsame]
      rw [hunf, hdouble, hre]
      rfl
  · simp [HashMap.create_pair_size_t, HashMap.create_pair, he]

/-- Under the same bounds the machine's `insert` is `insert`. -/
theorem insert_size_t_eq (hash : K → Nat) (m : HashMap K V) (item : K × V)
    (hc : m.capacity_ ≤ 2 ^ 58) (hw : 2 * m.current_workload_ ≤ m.capacity_)
    (hc2 : m.capacity_ < 2 * (m.current_workload_ + 1) → m.capacity_ * 2 ≤ 2 ^ 58) :
    HashMap.insert_size_t hash HashMap.NESTING m item = HashMap.insert hash m item := by
  unfold HashMap.insert_size_t HashMap.insert
  cases hf : HashMap.find_position hash m item.1 with
  | none => rfl
  | some i =>
    have h := create_pair_size_t_eq hash 1 m i item.1 item.2 hc hw hc2
    have h2 : HashMap.create_pair_size_t hash HashMap.NESTING m i item.1 item.2
        = HashMap.create_pair hash HashMap.NESTING m i item.1 item.2 := h
    simp only [h2]

end SizeTOperations

section CycleTables

variable {K V : Type} [DecidableEq K] [Inhabited V]

/-- Some number of repetitions reaches the capacity `16 * 2 ^ j`, for `j` up to 54. -/
theorem cycles_reach (hash : K → Nat) (k : K) (v : V) (j : Nat) (hj : j ≤ 54) :
    ∃ n r, run hash (cycles k v n) = some r ∧ Inv hash r ∧ HashMap.traverse r = [] ∧
      r.capacity_ = INITIAL_SIZE * 2 ^ j := by
  induction j with
  | zero =>
    exact ⟨0, HashMap.init, rfl, inv_init hash, rfl, by
      show INITIAL_SIZE = INITIAL_SIZE * 2 ^ 0
      simp⟩
  | succ j ih =>
    obtain ⟨n, r, hrun, hI, ht, hc⟩ := ih (by omega)
    obtain ⟨n2, r2, hrun2, hI2, ht2, hc2⟩ :=
      cycles_double k v (r.capacity_ - 2 * r.current_workload_) r hI ht (Nat.le_refl _)
    refine ⟨n + n2, r2, ?_, hI2, ht2, ?_⟩
    · rw [cycles_add, run_eq_run_from, run_from_append, ← run_eq_run_from, hrun]
      exact hrun2
    · rw [hc2, hc, pow_succ]
      ring

/-- While the capacity is at most `2 ^ 58`, the machine's repetitions return the tables of
`run`. -/
theorem churn_size_t_eq (hash : K → Nat) (k : K) (v : V) :
    ∀ (n : Nat) (r : HashMap K V), run hash (cycles k v n) = some r → r.capacity_ ≤ 2 ^ 58 →
      HashMap.churn_size_t hash HashMap.NESTING k v n = some r := by
  intro n
  induction n with
  | zero =>
    intro r hrun _
    cases hrun
    rfl
  | succ n ih =>
    intro r hrun hcap
    obtain ⟨r0, hrun0, hI, ht, _⟩ := cycles_empty hash k v n
    obtain ⟨r1, r2, hins, _, her, _, _, hc, _, hcase⟩ := cycle_step hI ht k v
    have hrun2 : run hash (cycles k v (n + 1)) = some r2 := by
      show run hash (cycles k v n ++ [Op.insert k v, Op.erase k]) = some r2
      rw [run_eq_run_from, run_from_append, ← run_eq_run_from, hrun0]
      show run_from hash r0 [Op.insert k v, Op.erase k] = some r2
      rw [run_from_pair, hins]
      exact her
    rw [hrun] at hrun2
    cases hrun2
    have hload := hI.load
    have h0 : r0.capacity_ ≤ 2 ^ 58 := by
      rcases hcase with ⟨_, hc1, _⟩ | ⟨_, hc1, _⟩ <;> omega
    have h2 : r0.capacity_ < 2 * (r0.current_workload_ + 1) → r0.capacity_ * 2 ≤ 2 ^ 58 := by
      intro hlt
      rcases hcase with ⟨hle, _, _⟩ | ⟨_, hc1, _⟩ <;> omega
    show (HashMap.churn_size_t hash HashMap.NESTING k v n).bind (fun m =>
      (HashMap.insert_size_t hash HashMap.NESTING m (k, v)).bind
        (fun t => HashMap.erase hash t k)) = some r
    rw [ih r0 hrun0 h0]
    show (HashMap.insert_size_t hash HashMap.NESTING r0 (k, v)).bind
      (fun t => HashMap.erase hash t k) = some r
    rw [insert_size_t_eq hash r0 (k, v) h0 hload h2, hins]
    exact her

end CycleTables

section Claims9

variable {K V : Type} [DecidableEq K]

/-- Refutation of C20 as stated, at `j = 60`, under the identity hash and for the pair
`(1, 10)`: whatever the nesting allowed to `rebuild`, no number of repetitions of
`insert((1, 10)); erase(1)` returns a table of capacity `16 * 2 ^ 60 = 2 ^ 64` or more. A
capacity is 16 or the value `capacity_ * 2` that `create_pair` passes to `rebuild`, which the
machine computes in `size_t`: for a table of capacity `2 ^ 63` it is 0. From the capacity
`2 ^ 59` on the products of `check_overload` leave `size_t`: with capacity `2 ^ 59` and
workload `2 ^ 57` the table is a quarter full, and the machine finds it overloaded. -/
theorem C20_counterexample_capacity_is_a_size_t :
    (¬ ∃ d n r, HashMap.churn_size_t id_hash d 1 10 n = some r ∧
        INITIAL_SIZE * 2 ^ 60 ≤ r.capacity_) ∧
      HashMap.doubled_capacity
          (HashMap.initial_memory (HashMap.blank 0 : HashMap Nat Nat) (2 ^ 63)) = 0 ∧
      HashMap.check_overload
          ({ HashMap.initial_memory (HashMap.blank 0 : HashMap Nat Nat) (2 ^ 59) with
            current_workload_ := 2 ^ 57 }) = false ∧
      HashMap.check_overload_size_t
          ({ HashMap.initial_memory (HashMap.blank 0 : HashMap Nat Nat) (2 ^ 59) with
            current_workload_ := 2 ^ 57 }) = true := by
  refine ⟨?_, by decide, by decide, by decide⟩
  rintro ⟨d, n, r, h, hc⟩
  have hlt := churn_size_t_capacity id_hash d 1 10 n r h
  have h64 : INITIAL_SIZE * 2 ^ 60 = SIZE_T_MOD := by decide
  omega

/-- C20, amended (growth under churn, within `size_t`): for every hash function, key and
value, and every `j` up to 54, some number `n` of repetitions of `insert((k, v)); erase(k)`
on an empty table returns a table of capacity `16 * 2 ^ j` and size 0, on the machine as in
the model. While the capacity is at most `2 ^ 58` the machine returns the tables of the
model. After any number of repetitions the size is 0, and 1 after the next insertion. For up
to eight repetitions the capacity is 16 and the workload is the number of repetitions; the
ninth insertion returns a table of capacity 32 and size 1, on the machine as in the model. -/
theorem C20_capacity_grows_within_size_t [Inhabited V] (hash : K → Nat) (k : K) (v : V) :
    (∀ j, j ≤ 54 → ∃ n r, HashMap.churn_size_t hash HashMap.NESTING k v n = some r ∧
        run hash (cycles k v n) = some r ∧
        r.capacity_ = INITIAL_SIZE * 2 ^ j ∧ HashMap.size r = 0) ∧
      (∀ n r, run hash (cycles k v n) = some r → r.capacity_ ≤ 2 ^ 58 →
        HashMap.churn_size_t hash HashMap.NESTING k v n = some r) ∧
      (∀ n, ∃ r r1, run hash (cycles k v n) = some r ∧ HashMap.size r = 0 ∧
        run hash (cycles k v n ++ [Op.insert k v]) = some r1 ∧ HashMap.size r1 = 1) ∧
      (∀ n, n ≤ 8 → ∃ r, run hash (cycles k v n) = some r ∧ r.capacity_ = 16 ∧
        r.current_workload_ = n ∧ HashMap.size r = 0) ∧
      (∃ r8 r, run hash (cycles k v 8) = some r8 ∧
        HashMap.insert_size_t hash HashMap.NESTING r8 (k, v) = some r ∧
        run hash (cycles k v 8 ++ [Op.insert k v]) = some r ∧ r.capacity_ = 32 ∧
        HashMap.size r = 1) := by
  have hsize : ∀ r : HashMap K V, Inv hash r → HashMap.traverse r = [] →
      HashMap.size r = 0 := by
    intro r hI ht
    show r.size_ = 0
    rw [← traverse_length hI.core.loc, ht]
    rfl
  refine ⟨?_, churn_size_t_eq hash k v, ?_, ?_, ?_⟩
  · intro j hj
    obtain ⟨n, r, hrun, hI, ht, hc⟩ := cycles_reach hash k v j hj
    have hpow : r.capacity_ ≤ 2 ^ 58 := by
      have h1 : 2 ^ j ≤ 2 ^ 54 := Nat.pow_le_pow_right (by decide) hj
      rw [hc]
      show 16 * 2 ^ j ≤ 2 ^ 58
      omega
    exact ⟨n, r, churn_size_t_eq hash k v n r hrun hpow, hrun, hc, hsize r hI ht⟩
  · intro n
    obtain ⟨r, hrun, hI, ht, _⟩ := cycles_empty hash k v n
    obtain ⟨r1, _, hins, hsz1, _⟩ := cycle_step hI ht k v
    refine ⟨r, r1, hrun, hsize r hI ht, ?_, hsz1⟩
    rw [run_eq_run_from, run_from_append, ← run_eq_run_from, hrun]
    show run_from hash r [Op.insert k v] = some r1
    rw [run_from_insert]
    exact hins
  · intro n hn
    obtain ⟨r, hrun, hI, ht, hsmall⟩ := cycles_empty hash k v n
    obtain ⟨hc, hw⟩ := hsmall hn
    exact ⟨r, hrun, hc, hw, hsize r hI ht⟩
  · obtain ⟨r, hrun, hI, ht, hsmall⟩ := cycles_empty hash k v 8
    obtain ⟨hc, hw⟩ := hsmall (Nat.le_refl _)
    obtain ⟨r1, _, hins, hsz1, _, _, _, _, _, hcase⟩ := cycle_step hI ht k v
    refine ⟨r, r1, hrun, ?_, ?_, ?_, hsz1⟩
    · rw [insert_size_t_eq hash r (k, v) (by rw [hc]; decide) hI.load
        (fun _ => by rw [hc]; decide)]
      exact hins
    · rw [run_eq_run_from, run_from_append, ← run_eq_run_from, hrun]
      show run_from hash r [Op.insert k v] = some r1
      rw [run_from_insert]
      exact hins
    · rcases hcase with ⟨hle, _, _⟩ | ⟨_, hc1, _⟩
      · exfalso
        rw [hc, hw] at hle
        simp only [INITIAL_SIZE] at hle
        omega
      · rw [hc1, hc]
        rfl

end Claims9
end HashMapModel
